import Mathlib

/-!
# The `payment` service (lescactus/tinjis, `payment/main.go`)

A shallow embedding of the HTTP handlers of `payment/main.go` together with
the parts of the Go standard library they run on: the `encoding/json`
scanner, decoder and encoder for the `Invoice` struct, `strconv.ParseUint`,
`strconv.ParseFloat` and the shortest float formatting.

Byte strings (`[]byte`, `string`) are lists of natural numbers, one per byte.

How the program is modelled:

* The handlers are functions from the response writer and the request to the
  response writer, as `httptest.ResponseRecorder` records the response. The
  request carries the result of `io.ReadAll(r.Body)`. The value that
  `rand.Intn(2)` draws in `success` is a parameter `i` of the handler.
* `json.Unmarshal` is the scanner (`checkValid`, with its nesting limit)
  followed by the decoder for `*Invoice`: keys are unquoted and matched
  exactly and then under case folding, unknown keys are skipped, `null` leaves
  a field as it is, and the first `UnmarshalTypeError` is kept while decoding
  goes on.
* `json.Marshal` writes the fields in declaration order; `omitempty` drops
  `value` when `v.Float() == 0` and has no effect on the struct `currency`.
* A float64 is a sign, a mantissa and a binary exponent, or an infinity or
  NaN. `strconv.ParseFloat` is the correctly rounded conversion (nearest,
  ties to even) of the decimal; the shortest formatting is the search for the
  least number of digits that reads back as the same float64.
* The grammar of RFC 8259 is stated on bytes, independently of the scanner,
  and the scanner is proved to accept only what follows it. Like the scanner,
  that grammar does not ask that the bytes inside a string be UTF-8; a
  well-formed JSON text is one that follows it and is UTF-8.
-/

namespace Payment

/-! ## Bytes and UTF-8 -/

/-- Encoding of one code point, as `utf8.EncodeRune`: surrogates and values
above U+10FFFF are written as U+FFFD. -/
def utf8.EncodeRune (r : Nat) : List Nat :=
  if r < 0x80 then [r]
  else if r < 0x800 then [0xC0 + r / 64, 0x80 + r % 64]
  else if 0xD800 ≤ r ∧ r ≤ 0xDFFF then [0xEF, 0xBF, 0xBD]
  else if r < 0x10000 then [0xE0 + r / 4096, 0x80 + r / 64 % 64, 0x80 + r % 64]
  else if r ≤ 0x10FFFF then
    [0xF0 + r / 262144, 0x80 + r / 4096 % 64, 0x80 + r / 64 % 64, 0x80 + r % 64]
  else [0xEF, 0xBF, 0xBD]

/-- The bytes of a string literal (its UTF-8 encoding). -/
def bytes (s : String) : List Nat :=
  (s.toList.map fun c => utf8.EncodeRune c.toNat).flatten

/-- The code point U+FFFD that `utf8.DecodeRune` reports for malformed input. -/
def utf8.RuneError : Nat := 0xFFFD

/-- Whether `b` is a continuation byte `10xxxxxx`. -/
def utf8.isCont (b : Nat) : Bool := 0x80 ≤ b && b ≤ 0xBF

/-- First code point of `p` and its width in bytes, as `utf8.DecodeRune`:
malformed input gives `(RuneError, 1)`, empty input `(RuneError, 0)`. -/
def utf8.DecodeRune : List Nat → Nat × Nat
  | [] => (utf8.RuneError, 0)
  | p0 :: rest =>
    if p0 < 0x80 then (p0, 1)
    else if p0 < 0xC2 ∨ 0xF4 < p0 then (utf8.RuneError, 1)
    else
      -- width and accepted range of the second byte, from the tables
      -- `first` and `acceptRanges`
      let sz := if p0 < 0xE0 then 2 else if p0 < 0xF0 then 3 else 4
      let lo := if p0 = 0xE0 then 0xA0 else if p0 = 0xF0 then 0x90 else 0x80
      let hi := if p0 = 0xED then 0x9F else if p0 = 0xF4 then 0x8F else 0xBF
      match rest with
      | [] => (utf8.RuneError, 1)
      | b1 :: rest1 =>
        if b1 < lo ∨ hi < b1 then (utf8.RuneError, 1)
        else if sz = 2 then ((p0 % 32) * 64 + b1 % 64, 2)
        else
          match rest1 with
          | [] => (utf8.RuneError, 1)
          | b2 :: rest2 =>
            if !utf8.isCont b2 then (utf8.RuneError, 1)
            else if sz = 3 then ((p0 % 16) * 4096 + (b1 % 64) * 64 + b2 % 64, 3)
            else
              match rest2 with
              | [] => (utf8.RuneError, 1)
              | b3 :: _ =>
                if !utf8.isCont b3 then (utf8.RuneError, 1)
                else ((p0 % 8) * 262144 + (b1 % 64) * 4096 + (b2 % 64) * 64 + b3 % 64, 4)

/-- The loop of `utf8.Valid`: every code point at the front decodes without
error; `fuel` bounds the number of code points by the number of bytes. -/
def utf8.ValidAux : Nat → List Nat → Bool
  | 0, p => p.isEmpty
  | fuel + 1, p =>
    match p with
    | [] => true
    | _ :: _ =>
      if (utf8.DecodeRune p).1 = utf8.RuneError ∧ (utf8.DecodeRune p).2 = 1 then false
      else utf8.ValidAux fuel (p.drop (utf8.DecodeRune p).2)

/-- Whether the bytes are a UTF-8 encoding of code points, as `utf8.Valid`. -/
def utf8.Valid (p : List Nat) : Bool := utf8.ValidAux p.length p

/-! ## The JSON scanner (`encoding/json/scanner.go`) -/

/-- A parsed JSON value. Numbers and strings keep their source text: the
decoder hands that text to `strconv` and to `unquote`. -/
inductive JSON where
  | null : JSON
  | bool (b : Bool) : JSON
  | num (lit : List Nat) : JSON
  | str (raw : List Nat) : JSON
  | arr (elems : List JSON) : JSON
  | obj (members : List (List Nat × JSON)) : JSON

/-- Nesting limit of the scanner, `maxNestingDepth`. -/
def maxNestingDepth : Nat := 10000

/-- The scanner's `isSpace`: space, tab, carriage return, line feed. -/
def isSpace (c : Nat) : Bool := c = 32 || c = 9 || c = 13 || c = 10

/-- Drop leading white space. -/
def skipSpace : List Nat → List Nat
  | [] => []
  | c :: rest => if isSpace c then skipSpace rest else c :: rest

/-- Decimal digit `0`..`9`. -/
def isDigit (c : Nat) : Bool := 48 ≤ c && c ≤ 57

/-- Hexadecimal digit, as accepted after `\u`. -/
def isHex (c : Nat) : Bool :=
  (48 ≤ c && c ≤ 57) || (97 ≤ c && c ≤ 102) || (65 ≤ c && c ≤ 70)

/-- The one-byte escapes `\b \f \n \r \t \\ \/ \"` of `stateInStringEsc`. -/
def isSimpleEscape (c : Nat) : Bool :=
  c = 98 || c = 102 || c = 110 || c = 114 || c = 116 || c = 92 || c = 47 || c = 34

/-- The scanner's states inside a string literal: `stateInString`,
`stateInStringEsc` after a backslash, and `stateInStringEscU` and its
successors with the number of hexadecimal digits still to come. -/
inductive stringState where
  | inString
  | inStringEsc
  | inStringEscU (digits : Nat)

/-- Scan a string literal byte by byte from a state: the text up to the
closing quote, and what follows it. Bytes below 0x20 and unknown escapes are
errors. -/
def scanStringFrom : stringState → List Nat → Option (List Nat × List Nat)
  | _, [] => none
  | .inString, c :: rest =>
    if c = 34 then some ([], rest)
    else if c = 92 then (scanStringFrom .inStringEsc rest).map (fun p => (c :: p.1, p.2))
    else if c < 32 then none
    else (scanStringFrom .inString rest).map (fun p => (c :: p.1, p.2))
  | .inStringEsc, c :: rest =>
    if isSimpleEscape c then (scanStringFrom .inString rest).map (fun p => (c :: p.1, p.2))
    else if c = 117 then
      (scanStringFrom (.inStringEscU 4) rest).map (fun p => (c :: p.1, p.2))
    else none
  | .inStringEscU n, c :: rest =>
    if isHex c then
      (scanStringFrom (if n ≤ 1 then .inString else .inStringEscU (n - 1)) rest).map
        (fun p => (c :: p.1, p.2))
    else none

/-- Scan a string literal after its opening quote. -/
def scanString (inp : List Nat) : Option (List Nat × List Nat) :=
  scanStringFrom .inString inp

/-- Longest run of decimal digits at the front of the input, and the rest. -/
def spanDigits : List Nat → List Nat × List Nat
  | [] => ([], [])
  | c :: rest =>
    if isDigit c then ((spanDigits rest).1.cons c, (spanDigits rest).2)
    else ([], c :: rest)

/-- Integer part of a number: `0`, or a non-zero digit followed by digits
(`state0`, `state1`). -/
def scanInt : List Nat → Option (List Nat × List Nat)
  | [] => none
  | c :: rest =>
    if c = 48 then some ([48], rest)
    else if 49 ≤ c ∧ c ≤ 57 then some (c :: (spanDigits rest).1, (spanDigits rest).2)
    else none

/-- Optional fraction: `.` and at least one digit (`stateDot`, `stateDot0`). -/
def scanFrac : List Nat → Option (List Nat × List Nat)
  | 46 :: rest =>
    match spanDigits rest with
    | ([], _) => none
    | (ds, r) => some (46 :: ds, r)
  | inp => some ([], inp)

/-- Digits of an exponent, at least one (`stateESign`, `stateE0`). -/
def scanExpDigits (inp : List Nat) : Option (List Nat × List Nat) :=
  match spanDigits inp with
  | ([], _) => none
  | (ds, r) => some (ds, r)

/-- Optional exponent: `e` or `E`, an optional sign, digits (`stateE`). -/
def scanExp : List Nat → Option (List Nat × List Nat)
  | [] => some ([], [])
  | c :: rest =>
    if c = 101 ∨ c = 69 then
      match rest with
      | [] => none
      | s :: rest1 =>
        if s = 43 ∨ s = 45 then
          match scanExpDigits rest1 with
          | some (ds, r) => some (c :: s :: ds, r)
          | none => none
        else
          match scanExpDigits (s :: rest1) with
          | some (ds, r) => some (c :: ds, r)
          | none => none
    else some ([], c :: rest)

/-- The optional minus sign of a number (`stateBeginValue`, `stateNeg`). -/
def scanSign : List Nat → List Nat × List Nat
  | 45 :: rest => ([45], rest)
  | inp => ([], inp)

/-- Scan a number literal: its text and what follows it. -/
def scanNumber (inp : List Nat) : Option (List Nat × List Nat) :=
  match scanInt (scanSign inp).2 with
  | none => none
  | some (i, r1) =>
    match scanFrac r1 with
    | none => none
    | some (f, r2) =>
      match scanExp r2 with
      | none => none
      | some (e, r3) => some ((scanSign inp).1 ++ i ++ f ++ e, r3)

/-- Elements of an array after the first value has begun: values separated
by `,` up to the closing `]`. `pv` scans one value; `n` bounds the number of
elements by the length of the input. -/
def parseElems (pv : List Nat → Option (JSON × List Nat)) :
    Nat → List Nat → Option (List JSON × List Nat)
  | 0, _ => none
  | n + 1, inp =>
    match pv inp with
    | none => none
    | some (v, rest) =>
      match skipSpace rest with
      | 44 :: rest1 =>
        match parseElems pv n rest1 with
        | some (vs, r) => some (v :: vs, r)
        | none => none
      | 93 :: rest1 => some ([v], rest1)
      | _ => none

/-- Members of an object after the opening brace and a first non-`}` byte:
`"key" : value` pairs separated by `,` up to the closing brace. -/
def parseMembers (pv : List Nat → Option (JSON × List Nat)) :
    Nat → List Nat → Option (List (List Nat × JSON) × List Nat)
  | 0, _ => none
  | n + 1, inp =>
    match skipSpace inp with
    | 34 :: rest =>
      match scanString rest with
      | none => none
      | some (key, rest1) =>
        match skipSpace rest1 with
        | 58 :: rest2 =>
          match pv rest2 with
          | none => none
          | some (v, rest3) =>
            match skipSpace rest3 with
            | 44 :: rest4 =>
              match parseMembers pv n rest4 with
              | some (ms, r) => some ((key, v) :: ms, r)
              | none => none
            | 125 :: rest4 => some ([(key, v)], rest4)
            | _ => none
        | _ => none
    | _ => none

/-- Scan a value that is not an array or object: a string, `true`, `false`,
`null` or a number. -/
def parseLiteral : List Nat → Option (JSON × List Nat)
  | 34 :: rest =>
    match scanString rest with
    | some (s, r) => some (JSON.str s, r)
    | none => none
  | 116 :: 114 :: 117 :: 101 :: rest => some (JSON.bool true, rest)
  | 102 :: 97 :: 108 :: 115 :: 101 :: rest => some (JSON.bool false, rest)
  | 110 :: 117 :: 108 :: 108 :: rest => some (JSON.null, rest)
  | inp =>
    match scanNumber inp with
    | some (lit, r) => some (JSON.num lit, r)
    | none => none

/-- Scan one value with `k` levels of nesting still allowed: an array or
object needs one level (`pushParseState` fails beyond `maxNestingDepth`). -/
def parseValue : Nat → List Nat → Option (JSON × List Nat)
  | 0, inp =>
    match skipSpace inp with
    | 123 :: _ => none
    | 91 :: _ => none
    | inp1 => parseLiteral inp1
  | k + 1, inp =>
    match skipSpace inp with
    | 123 :: rest =>
      match skipSpace rest with
      | 125 :: rest1 => some (JSON.obj [], rest1)
      | rest1 =>
        match parseMembers (parseValue k) rest1.length rest1 with
        | some (ms, r) => some (JSON.obj ms, r)
        | none => none
    | 91 :: rest =>
      match skipSpace rest with
      | 93 :: rest1 => some (JSON.arr [], rest1)
      | rest1 =>
        match parseElems (parseValue k) rest1.length rest1 with
        | some (vs, r) => some (JSON.arr vs, r)
        | none => none
    | inp1 => parseLiteral inp1

/-- The whole input as one JSON value with optional surrounding white space,
as `checkValid` accepts it; `none` is a `SyntaxError`. -/
def parseJSON (data : List Nat) : Option JSON :=
  match parseValue maxNestingDepth data with
  | none => none
  | some (v, rest) => if skipSpace rest = [] then some v else none

/-! ## The decoder (`encoding/json/decode.go`) -/

/-- Value of a hexadecimal digit. -/
def hexVal (c : Nat) : Nat :=
  if 48 ≤ c ∧ c ≤ 57 then c - 48
  else if 97 ≤ c ∧ c ≤ 102 then c - 97 + 10
  else if 65 ≤ c ∧ c ≤ 70 then c - 65 + 10
  else 0

/-- Decode `\uXXXX` at the front of the input, as `getu4`. -/
def getu4 : List Nat → Option Nat
  | 92 :: 117 :: h1 :: h2 :: h3 :: h4 :: _ =>
    if isHex h1 && isHex h2 && isHex h3 && isHex h4 then
      some (hexVal h1 * 4096 + hexVal h2 * 256 + hexVal h3 * 16 + hexVal h4)
    else none
  | _ => none

/-- Combine a surrogate pair, as `utf16.DecodeRune`: U+FFFD unless `r1` is a
high and `r2` a low surrogate. -/
def utf16.DecodeRune (r1 r2 : Nat) : Nat :=
  if 0xD800 ≤ r1 ∧ r1 < 0xDC00 ∧ 0xDC00 ≤ r2 ∧ r2 < 0xE000 then
    (r1 - 0xD800) * 1024 + (r2 - 0xDC00) + 0x10000
  else utf8.RuneError

/-- The loop of `unquoteBytes` over the text between the quotes. `skip` counts
the bytes still to be dropped from the front (the tail of an escape already
decoded), `copy` the continuation bytes of a well-formed multi-byte sequence
still to be copied. `none` is the `ok = false` result. -/
def unquoteLoop : Nat → Nat → List Nat → Option (List Nat)
  | _, _, [] => some []
  | skip + 1, copy, _ :: rest => unquoteLoop skip copy rest
  | 0, copy + 1, c :: rest => (unquoteLoop 0 copy rest).map (List.cons c)
  | 0, 0, c :: rest =>
    if c = 92 then
      match rest with
      | [] => none
      | e :: _ =>
        if e = 34 ∨ e = 92 ∨ e = 47 ∨ e = 39 then (unquoteLoop 1 0 rest).map (List.cons e)
        else if e = 98 then (unquoteLoop 1 0 rest).map (List.cons 8)
        else if e = 102 then (unquoteLoop 1 0 rest).map (List.cons 12)
        else if e = 110 then (unquoteLoop 1 0 rest).map (List.cons 10)
        else if e = 114 then (unquoteLoop 1 0 rest).map (List.cons 13)
        else if e = 116 then (unquoteLoop 1 0 rest).map (List.cons 9)
        else if e = 117 then
          match getu4 (c :: rest) with
          | none => none
          | some rr =>
            if 0xD800 ≤ rr ∧ rr < 0xE000 then
              match getu4 (rest.drop 5) with
              | some rr1 =>
                if utf16.DecodeRune rr rr1 ≠ utf8.RuneError then
                  (unquoteLoop 11 0 rest).map
                    (fun t => utf8.EncodeRune (utf16.DecodeRune rr rr1) ++ t)
                else
                  (unquoteLoop 5 0 rest).map (fun t => utf8.EncodeRune utf8.RuneError ++ t)
              | none =>
                (unquoteLoop 5 0 rest).map (fun t => utf8.EncodeRune utf8.RuneError ++ t)
            else (unquoteLoop 5 0 rest).map (fun t => utf8.EncodeRune rr ++ t)
        else none
    else if c = 34 ∨ c < 32 then none
    else if c < 0x80 then (unquoteLoop 0 0 rest).map (List.cons c)
    else
      match utf8.DecodeRune (c :: rest) with
      | (rr, size) =>
        if rr = utf8.RuneError ∧ size = 1 then
          (unquoteLoop 0 0 rest).map (fun t => utf8.EncodeRune utf8.RuneError ++ t)
        else (unquoteLoop 0 (size - 1) rest).map (List.cons c)

/-- The text of a string literal with its escapes resolved and malformed
UTF-8 replaced by U+FFFD, as `unquoteBytes` on the quoted literal. -/
def unquote (raw : List Nat) : Option (List Nat) := unquoteLoop 0 0 raw

/-- Case-insensitive comparison of an ASCII field name `s` with a key `t`, as
`equalFoldRight` of `fold.go`: ASCII letters match in either case, and `s`,
`S` also match U+017F, `k`, `K` also match U+212A. -/
def equalFold : List Nat → List Nat → Bool
  | [], t => t = []
  | _ :: _, [] => false
  | sb :: s, tb :: t =>
    if tb < 0x80 then
      if sb = tb then equalFold s t
      else if 65 ≤ sb % 256 / 64 * 64 + sb % 32 ∧ sb % 256 / 64 * 64 + sb % 32 ≤ 90 ∧
          sb % 256 / 64 * 64 + sb % 32 = tb % 256 / 64 * 64 + tb % 32 then equalFold s t
      else false
    else if sb = 115 ∨ sb = 83 then
      match tb, t with
      | 0xC5, 0xBF :: t1 => equalFold s t1
      | _, _ => false
    else if sb = 107 ∨ sb = 75 then
      match tb, t with
      | 0xE2, 0x84 :: 0xAA :: t1 => equalFold s t1
      | _, _ => false
    else false

/-- The fields of `Invoice` that a JSON key can name. -/
inductive Field where
  | CustomerID
  | Currency
  | Value
  | Result
deriving DecidableEq, Repr

/-- The JSON name of a field, from the struct tags of `Invoice`. -/
def Field.name : Field → List Nat
  | .CustomerID => bytes "customer_id"
  | .Currency => bytes "currency"
  | .Value => bytes "value"
  | .Result => bytes "result"

/-- The fields of `Invoice` in declaration order. -/
def Field.all : List Field := [.CustomerID, .Currency, .Value, .Result]

/-- The field a key selects in `decodeState.object`: an exact match of the
name if there is one, else the first field that matches under case folding. -/
def lookupField (key : List Nat) : Option Field :=
  match Field.all.find? (fun f => f.name = key) with
  | some f => some f
  | none => Field.all.find? (fun f => equalFold f.name key)

/-! ## `strconv`: unsigned integers -/

/-- The two error kinds of `strconv.NumError`. -/
inductive NumError where
  | ErrSyntax
  | ErrRange
deriving DecidableEq, Repr

/-- The value `1<<64 - 1`. -/
def maxUint64 : Nat := 2 ^ 64 - 1

/-- The digit loop of `ParseUint` for base 10 and bit size 64, on the value
`n` accumulated so far. Arithmetic is that of `uint64`. -/
def parseUintLoop : List Nat → Nat → Except NumError Nat
  | [], n => .ok n
  | c :: cs, n =>
    if 48 ≤ c ∧ c ≤ 57 then
      -- cutoff is the smallest number such that cutoff*base > maxUint64
      if n ≥ maxUint64 / 10 + 1 then .error .ErrRange
      else
        let n10 := (n * 10) % 2 ^ 64
        let n1 := (n10 + (c - 48)) % 2 ^ 64
        if n1 < n10 ∨ n1 > maxUint64 then .error .ErrRange
        else parseUintLoop cs n1
    else .error .ErrSyntax

/-- The call `strconv.ParseUint(s, 10, 64)`. -/
def strconv.ParseUint (s : List Nat) : Except NumError Nat :=
  if s = [] then .error .ErrSyntax else parseUintLoop s 0

/-- Decimal text of a natural number, most significant digit first; `fuel`
bounds the number of digits. -/
def formatUintAux : Nat → Nat → List Nat → List Nat
  | 0, _, acc => acc
  | fuel + 1, n, acc =>
    if n < 10 then (48 + n) :: acc
    else formatUintAux fuel (n / 10) ((48 + n % 10) :: acc)

/-- The call `strconv.FormatUint(n, 10)`. -/
def strconv.FormatUint (n : Nat) : List Nat := formatUintAux (n + 1) n []

/-! ## `strconv`: float64 -/

/-- A float64 value. `finite neg m e` stands for `(-1)^neg * m * 2^e`, where
`m < 2^53`, `-1074 ≤ e ≤ 971` and `2^52 ≤ m` unless `e = -1074`; zero is
`finite neg 0 (-1074)`. -/
inductive Float64 where
  | finite (neg : Bool) (mant : Nat) (exp : Int)
  | inf (neg : Bool)
  | nan
deriving DecidableEq, Repr

/-- The zero value of float64. -/
def Float64.zero : Float64 := .finite false 0 (-1074)

/-- The well-formed values of `Float64`: those that stand for a float64. -/
def Float64.Canonical : Float64 → Prop
  | .finite _ m e =>
    m < 2 ^ 53 ∧ -1074 ≤ e ∧ e ≤ 971 ∧ (e = -1074 ∨ 2 ^ 52 ≤ m)
  | .inf _ => True
  | .nan => True

/-- The comparison `a == b` of Go on float64: the two zeros are equal, NaN
is equal to nothing. -/
def Float64.eq : Float64 → Float64 → Bool
  | .finite n1 m1 e1, .finite n2 m2 e2 =>
    (m1 = 0 && m2 = 0) || (n1 = n2 && m1 = m2 && e1 = e2)
  | .inf n1, .inf n2 => n1 = n2
  | _, _ => false

/-- The comparison `|a| < |b|` on finite values. -/
def Float64.absLt : Float64 → Float64 → Bool
  | .finite _ m1 e1, .finite _ m2 e2 =>
    m1 * 2 ^ (e1 - min e1 e2).toNat < m2 * 2 ^ (e2 - min e1 e2).toNat
  | _, _ => false

/-- Number of binary digits of `n`; `fuel` bounds it. -/
def bitLenAux : Nat → Nat → Nat
  | 0, _ => 0
  | fuel + 1, n => if n = 0 then 0 else bitLenAux fuel (n / 2) + 1

/-- Number of binary digits of `n`: `2^(bitLen n - 1) ≤ n < 2^(bitLen n)`
for `n > 0`. -/
def bitLen (n : Nat) : Nat := bitLenAux n n

/-- Nearest integer to `num / den`, ties to the even one. -/
def roundHalfEven (num den : Nat) : Nat :=
  if 2 * (num % den) < den then num / den
  else if den < 2 * (num % den) then num / den + 1
  else if num / den % 2 = 0 then num / den
  else num / den + 1

/-- Numerator of `(p / q) / 2^e`. -/
def scaleNum (p : Nat) (e : Int) : Nat := p * 2 ^ (-e).toNat

/-- Denominator of `(p / q) / 2^e`. -/
def scaleDen (q : Nat) (e : Int) : Nat := q * 2 ^ e.toNat

/-- The binary exponent `e` for the float64 nearest to `p / q` (`p, q > 0`):
the one with `2^52 ≤ (p / q) / 2^e < 2^53`, or `-1074` for a value below
the normal range. It is found from the bit lengths of `p` and `q`, which
give it up to one. -/
def binExp (p q : Nat) : Int :=
  if 2 ^ 53 ≤ scaleNum p (max ((bitLen p : Int) - (bitLen q : Int) - 53) (-1074)) /
      scaleDen q (max ((bitLen p : Int) - (bitLen q : Int) - 53) (-1074)) then
    max ((bitLen p : Int) - (bitLen q : Int) - 53) (-1074) + 1
  else max ((bitLen p : Int) - (bitLen q : Int) - 53) (-1074)

/-- The float64 nearest to `(-1)^neg * p / q` (`q > 0`), ties to even
(IEEE 754 round-to-nearest-even); `inf` when the rounded value exceeds the
largest float64. -/
def roundRatio (neg : Bool) (p q : Nat) : Float64 :=
  if p = 0 then .finite neg 0 (-1074)
  else if roundHalfEven (scaleNum p (binExp p q)) (scaleDen q (binExp p q)) = 2 ^ 53 then
    if binExp p q + 1 > 971 then .inf neg else .finite neg (2 ^ 52) (binExp p q + 1)
  else
    if binExp p q > 971 then .inf neg
    else .finite neg (roundHalfEven (scaleNum p (binExp p q)) (scaleDen q (binExp p q)))
      (binExp p q)

/-- A decimal number `(-1)^neg * mant * 10^exp`. -/
structure Decimal where
  neg : Bool
  mant : Nat
  exp : Int
deriving DecidableEq, Repr

/-- Remove up to `fuel` trailing zeros from the digits of `mant`. -/
def trimZeros : Nat → Nat → Int → Nat × Int
  | 0, mant, exp => (mant, exp)
  | fuel + 1, mant, exp =>
    if mant ≠ 0 ∧ mant % 10 = 0 then trimZeros fuel (mant / 10) (exp + 1)
    else (mant, exp)

/-- The decimal without trailing zeros in its digits (`trim` of
`strconv/decimal.go`). -/
def Decimal.trim (d : Decimal) : Decimal :=
  { d with mant := (trimZeros d.mant d.mant d.exp).1, exp := (trimZeros d.mant d.mant d.exp).2 }

/-- The float64 nearest to a decimal, from its value as a ratio. -/
def Decimal.round (d : Decimal) : Float64 :=
  if 0 ≤ d.exp then roundRatio d.neg (d.mant * 10 ^ d.exp.toNat) 1
  else roundRatio d.neg d.mant (10 ^ (-d.exp).toNat)

/-- The float64 nearest to a decimal (`decimal.floatBits`). -/
def Decimal.toFloat64 (d : Decimal) : Float64 := d.trim.round

/-- Value of a run of decimal digits. -/
def digitsVal (ds : List Nat) : Nat := ds.foldl (fun n c => n * 10 + (c - 48)) 0

/-- Value of the digits of an exponent as `readFloat` accumulates it: digits
are no longer taken in once the value has reached 10000. -/
def expVal (ds : List Nat) : Nat :=
  ds.foldl (fun e c => if e < 10000 then e * 10 + (c - 48) else e) 0

/-- The exponent part read by `readFloat`: nothing, or `e`/`E`, an optional
sign and at least one digit, up to the end of the text. -/
def readExp : List Nat → Option Int
  | [] => some 0
  | c :: rest =>
    if c = 101 ∨ c = 69 then
      match rest with
      | [] => none
      | s :: rest1 =>
        if s = 43 then
          if (spanDigits rest1).1 ≠ [] ∧ (spanDigits rest1).2 = [] then
            some (expVal rest1) else none
        else if s = 45 then
          if (spanDigits rest1).1 ≠ [] ∧ (spanDigits rest1).2 = [] then
            some (-(expVal rest1 : Int)) else none
        else
          if (spanDigits rest).1 ≠ [] ∧ (spanDigits rest).2 = [] then
            some (expVal rest) else none
    else none

/-- The optional sign read by `readFloat`: whether it is a minus, and the
rest of the text. -/
def readSign : List Nat → Bool × List Nat
  | 45 :: r => (true, r)
  | 43 :: r => (false, r)
  | s => (false, s)

/-- The fraction digits read by `readFloat` after the integer digits: those
after a `.`, if there is one, and the rest of the text. -/
def readFrac : List Nat → List Nat × List Nat
  | 46 :: r => spanDigits r
  | s => ([], s)

/-- The decimal syntax of `readFloat`: an optional sign, digits with at most
one `.`, an optional exponent. The other spellings `ParseFloat` knows
(hexadecimal, `inf`, `nan`, underscores) cannot occur in a JSON number and
are not modelled: they are reported as syntax errors. -/
def readFloat (s : List Nat) : Option Decimal :=
  let sg := readSign s
  let ip := spanDigits sg.2
  let fp := readFrac ip.2
  if ip.1 = [] ∧ fp.1 = [] then none
  else
    match readExp fp.2 with
    | none => none
    | some ex =>
      some { neg := sg.1, mant := digitsVal (ip.1 ++ fp.1), exp := ex - (fp.1.length : Int) }

/-- The call `strconv.ParseFloat(s, 64)`: the nearest float64, and
`ErrRange` with an infinity when the text is out of range. -/
def strconv.ParseFloat (s : List Nat) : Float64 × Option NumError :=
  match readFloat s with
  | none => (Float64.zero, some .ErrSyntax)
  | some d =>
    match d.toFloat64 with
    | .inf neg => (.inf neg, some .ErrRange)
    | f => (f, none)

/-- The exact decimal expansion of `m * 2^e`, as digits and a power of ten:
`m * 2^e = g * 10^k` for the result `(g, k)`. -/
def exactDecimal (m : Nat) (e : Int) : Nat × Int :=
  if 0 ≤ e then (m * 2 ^ e.toNat, 0) else (m * 5 ^ (-e).toNat, e)

/-- The decimals that keep the first `nd - k` digits of `g * 10^j` (`g` has
`nd` digits): the one below and, unless that is exact, the one above, the
nearer one first and on a tie the even one. -/
def roundedDigits (g : Nat) (j : Int) (k : Nat) : List (Nat × Int) :=
  if g % 10 ^ k = 0 then [(g / 10 ^ k, j + k)]
  else if 2 * (g % 10 ^ k) < 10 ^ k ∨ (2 * (g % 10 ^ k) = 10 ^ k ∧ g / 10 ^ k % 2 = 0) then
    [(g / 10 ^ k, j + k), (g / 10 ^ k + 1, j + k)]
  else [(g / 10 ^ k + 1, j + k), (g / 10 ^ k, j + k)]

/-- Search for the shortest decimal that `ParseFloat` reads back as the
float64 `finite neg m e`, dropping `k`, `k - 1`, ... digits of the exact
expansion `g * 10^j`; with no digit dropped the expansion itself is left. -/
def shortestSearch (neg : Bool) (m : Nat) (e : Int) (g : Nat) (j : Int) : Nat → Nat × Int
  | 0 => (g, j)
  | k + 1 =>
    match (roundedDigits g j (k + 1)).find?
        (fun c => decide ((Decimal.mk neg c.1 c.2).toFloat64 = .finite neg m e)) with
    | some c => c
    | none => shortestSearch neg m e g j k

/-- The digits of a float64 in shortest mode (precision -1): the least
number of digits that `ParseFloat` reads back as the same value, and among
those decimals the one nearest to it. -/
def shortest (neg : Bool) (m : Nat) (e : Int) : Decimal :=
  let x := exactDecimal m e
  let c := shortestSearch neg m e x.1 x.2 ((strconv.FormatUint x.1).length - 1)
  (Decimal.mk neg c.1 c.2).trim

/-- Digits and decimal point of a number to format (`decimalSlice`): the
value is `0.d₁d₂…dₙ * 10^dp`. Zero has no digits. -/
structure decimalSlice where
  d : List Nat
  dp : Int
deriving DecidableEq, Repr

/-- The shortest digits of `finite neg m e` as a `decimalSlice`. -/
def shortestSlice (neg : Bool) (m : Nat) (e : Int) : decimalSlice :=
  if m = 0 then { d := [], dp := 0 }
  else
    { d := strconv.FormatUint (shortest neg m e).mant
      dp := (shortest neg m e).exp + ((strconv.FormatUint (shortest neg m e).mant).length : Int) }

/-- The two or three digits of an exponent in `%e`. -/
def expDigits (x : Nat) : List Nat :=
  if x < 10 then [48, 48 + x]
  else if x < 100 then [48 + x / 10, 48 + x % 10]
  else [48 + x / 100, 48 + x / 10 % 10, 48 + x % 10]

/-- Format `%e` with all digits of `d`: `-d.ddddde±dd` (`fmtE`, with
`prec = max(nd - 1, 0)`). -/
def fmtE (neg : Bool) (d : decimalSlice) : List Nat :=
  (if neg then [45] else []) ++
  (match d.d with
    | [] => [48]
    | c :: [] => [c]
    | c :: cs => c :: 46 :: cs) ++
  [101] ++
  (let exp : Int := if d.d = [] then 0 else d.dp - 1
   if exp < 0 then 45 :: expDigits (-exp).toNat else 43 :: expDigits exp.toNat)

/-- Format `%f` with all digits of `d`: `-ddddddd.ddddd` (`fmtF`, with
`prec = max(nd - dp, 0)`). The integer part is the first `dp` digits, padded
with zeros, or `0`; the fraction is `-dp` zeros, if `dp < 0`, and the digits
after the first `dp`. -/
def fmtF (neg : Bool) (d : decimalSlice) : List Nat :=
  (if neg then [45] else []) ++
  (if 0 < d.dp then d.d.take d.dp.toNat ++ List.replicate (d.dp.toNat - d.d.length) 48
   else [48]) ++
  (if d.dp < (d.d.length : Int) then
    46 :: (List.replicate (-d.dp).toNat 48 ++ d.d.drop d.dp.toNat)
   else [])

/-- The call `strconv.AppendFloat(nil, f, fmt, -1, 64)` for a finite `f`
and `fmt` one of `'e'` (`useE`) and `'f'`. -/
def strconv.FormatFloat (useE : Bool) : Float64 → List Nat
  | .nan => bytes "NaN"
  | .inf false => bytes "+Inf"
  | .inf true => bytes "-Inf"
  | .finite neg m e =>
    if useE then fmtE neg (shortestSlice neg m e) else fmtF neg (shortestSlice neg m e)

/-! ## The encoder (`encoding/json/encode.go`) -/

/-- The constant `1e-6` as a float64. -/
def float1em6 : Float64 := (Decimal.mk false 1 (-6)).toFloat64

/-- The constant `1e21` as a float64. -/
def float1e21 : Float64 := (Decimal.mk false 1 21).toFloat64

/-- The clean-up of `e-09` to `e-9` in `floatEncoder.encode`: when the text
ends in `e`, a sign, `0` and one more byte, the `0` is dropped. -/
def cleanExp (b : List Nat) : List Nat :=
  match b.reverse with
  | x :: 48 :: sgn :: 101 :: front =>
    if sgn = 45 ∨ sgn = 43 then (x :: sgn :: 101 :: front).reverse else b
  | _ => b

/-- The error of `json.Marshal` for a value JSON cannot represent. -/
inductive MarshalError where
  | UnsupportedValueError
deriving DecidableEq, Repr

/-- The float64 encoder `floatEncoder(64).encode`: NaN and the infinities
are errors; other values are written as by ES6, in `%e` when the magnitude
is below `1e-6` or at least `1e21` and in `%f` otherwise. -/
def floatEncoder (f : Float64) : Except MarshalError (List Nat) :=
  match f with
  | .nan => .error .UnsupportedValueError
  | .inf _ => .error .UnsupportedValueError
  | .finite _ m _ =>
    if m ≠ 0 ∧ (f.absLt float1em6 ∨ ¬ f.absLt float1e21) then
      .ok (cleanExp (strconv.FormatFloat true f))
    else .ok (strconv.FormatFloat false f)

/-! ## `Invoice` and its JSON coding -/

/-- The struct `Invoice`: `CustomerID uint64`, `Currency struct{}`,
`Value float64`, `Result bool`. -/
structure Invoice where
  CustomerID : Nat
  Currency : Unit
  Value : Float64
  Result : Bool
deriving DecidableEq, Repr

/-- The zero value `var d Invoice`. -/
def Invoice.zero : Invoice :=
  { CustomerID := 0, Currency := (), Value := Float64.zero, Result := false }

/-- The errors `json.Unmarshal` returns: a `SyntaxError` of the scanner, or
an `UnmarshalTypeError` with the description `Value` of the JSON value that
did not fit its field. -/
inductive UnmarshalError where
  | SyntaxError
  | UnmarshalTypeError (Value : List Nat)
deriving DecidableEq, Repr

/-- The state of a decoding: the struct being filled and the first type
error met (`decodeState.savedError`). -/
structure decodeState where
  v : Invoice
  savedError : Option UnmarshalError
deriving DecidableEq, Repr

/-- Keep the first error only, as `decodeState.saveError`. -/
def decodeState.saveError (d : decodeState) (err : UnmarshalError) : decodeState :=
  match d.savedError with
  | none => { d with savedError := some err }
  | some _ => d

/-- Store a JSON value into a field (`decodeState.value` on the field:
`array`, `object` and `literalStore`). `null` leaves a number, bool or struct
as it is; a value of the wrong JSON type, or a number that `strconv` rejects,
is saved as an `UnmarshalTypeError` and the field is left as it is. Inside
`currency`, a struct without fields, every member is skipped. -/
def decodeState.store (d : decodeState) (f : Field) : JSON → decodeState
  | .arr _ => d.saveError (.UnmarshalTypeError (bytes "array"))
  | .obj _ =>
    match f with
    | .Currency => d
    | _ => d.saveError (.UnmarshalTypeError (bytes "object"))
  | .null => d
  | .bool b =>
    match f with
    | .Result => { d with v := { d.v with Result := b } }
    | _ => d.saveError (.UnmarshalTypeError (bytes "bool"))
  | .str _ => d.saveError (.UnmarshalTypeError (bytes "string"))
  | .num lit =>
    match f with
    | .CustomerID =>
      match strconv.ParseUint lit with
      | .ok n => { d with v := { d.v with CustomerID := n } }
      | .error _ => d.saveError (.UnmarshalTypeError (bytes "number " ++ lit))
    | .Value =>
      match strconv.ParseFloat lit with
      | (n, none) => { d with v := { d.v with Value := n } }
      | (_, some _) => d.saveError (.UnmarshalTypeError (bytes "number " ++ lit))
    | _ => d.saveError (.UnmarshalTypeError (bytes "number"))

/-- One member of the top-level object (the body of the loop of
`decodeState.object`): the key is unquoted, the field it names is looked up,
and the value is stored there; a member that names no field is skipped.
The key was accepted by the scanner, so that `unquoteBytes` does not fail on
it (the decoder panics there); the first case stands for that. -/
def decodeState.member (d : decodeState) (kv : List Nat × JSON) : decodeState :=
  match unquote kv.1 with
  | none => d
  | some key =>
    match lookupField key with
    | some f => d.store f kv.2
    | none => d

/-- Decode the top-level value into the struct (`decodeState.value` on the
`*Invoice`): an object fills the fields member by member, `null` does
nothing, anything else is a type error. -/
def decodeState.value (d : decodeState) : JSON → decodeState
  | .obj members => members.foldl decodeState.member d
  | .null => d
  | .arr _ => d.saveError (.UnmarshalTypeError (bytes "array"))
  | .bool _ => d.saveError (.UnmarshalTypeError (bytes "bool"))
  | .str _ => d.saveError (.UnmarshalTypeError (bytes "string"))
  | .num _ => d.saveError (.UnmarshalTypeError (bytes "number"))

/-- The call `json.Unmarshal(data, &v)` for `v` an `Invoice`: the syntax
check of the whole input, then the decoding; the result is the struct as
filled, or the first error. -/
def json.Unmarshal (data : List Nat) (v : Invoice) : Except UnmarshalError Invoice :=
  match parseJSON data with
  | none => .error .SyntaxError
  | some j =>
    match ({ v := v, savedError := none } : decodeState).value j with
    | { v := _, savedError := some err } => .error err
    | { v := v1, savedError := none } => .ok v1

/-- The members the struct encoder writes for an `Invoice`, in field order.
`omitempty` drops `value` when it is zero (`v.Float() == 0`); it has no
effect on `currency`, a struct. -/
def encodeFields (d : Invoice) : Except MarshalError (List (List Nat × List Nat)) :=
  match floatEncoder d.Value with
  | .error err => .error err
  | .ok value =>
    .ok ([(bytes "\"customer_id\":", strconv.FormatUint d.CustomerID),
          (bytes "\"currency\":", bytes "\x7b\x7d")] ++
         (if d.Value.eq Float64.zero then [] else [(bytes "\"value\":", value)]) ++
         [(bytes "\"result\":", if d.Result then bytes "true" else bytes "false")])

/-- Write the members between braces, separated by commas, as
`structEncoder.encode`; `first` tells whether the next member is the first. -/
def writeFields : Bool → List (List Nat × List Nat) → List Nat
  | true, [] => bytes "\x7b\x7d"
  | false, [] => bytes "\x7d"
  | first, (name, text) :: rest =>
    (if first then 123 else 44) :: (name ++ text ++ writeFields false rest)

/-- The call `json.Marshal(d)` for `d` an `Invoice`. -/
def json.Marshal (d : Invoice) : Except MarshalError (List Nat) :=
  match encodeFields d with
  | .error err => .error err
  | .ok fields => .ok (writeFields true fields)

/-! ## HTTP -/

/-- The status codes the handlers use. -/
def http.StatusOK : Nat := 200

/-- The status `400 Bad Request`. -/
def http.StatusBadRequest : Nat := 400

/-- The status `500 Internal Server Error`. -/
def http.StatusInternalServerError : Nat := 500

/-- What a handler sees of a request: method, path, header and the result of
reading the body to its end (`io.ReadAll(r.Body)`), an error or the bytes. -/
structure http.Request where
  Method : String
  Path : String
  Header : List (String × String)
  Body : Except String (List Nat)

/-- The response a handler produces, as `httptest.ResponseRecorder` records
it: status code, header as sent, body. `wroteHeader` tells whether the
status line and header have gone out; the header cannot change after. -/
structure http.ResponseWriter where
  Code : Nat
  Header : List (String × String)
  Body : List Nat
  wroteHeader : Bool
deriving DecidableEq, Repr

/-- A fresh response: status 200, no header, no body. -/
def httptest.NewRecorder : http.ResponseWriter :=
  { Code := 200, Header := [], Body := [], wroteHeader := false }

/-- The call `w.Header().Set(key, value)`. -/
def http.ResponseWriter.SetHeader (w : http.ResponseWriter) (key value : String) :
    http.ResponseWriter :=
  if w.wroteHeader then w
  else { w with Header := (key, value) :: w.Header.filter (fun kv => kv.1 ≠ key) }

/-- The call `w.WriteHeader(code)`. -/
def http.ResponseWriter.WriteHeader (w : http.ResponseWriter) (code : Nat) :
    http.ResponseWriter :=
  if w.wroteHeader then w else { w with Code := code, wroteHeader := true }

/-- The call `io.WriteString(w, s)`: the header goes out with status 200 if
it has not yet, and `s` is appended to the body. -/
def io.WriteString (w : http.ResponseWriter) (s : List Nat) : http.ResponseWriter :=
  { (w.WriteHeader http.StatusOK) with Body := w.Body ++ s }

/-- The call `w.Header().Get(key)` on the recorded response. -/
def http.ResponseWriter.Get (w : http.ResponseWriter) (key : String) : Option String :=
  (w.Header.find? (fun kv => kv.1 = key)).map Prod.snd

/-- The nanoseconds of `time.Second`. -/
def time.Second : Int := 1000000000

/-- The exported fields of `http.Server`; `none` is a nil pointer, function
or interface. -/
structure http.Server (Router : Type) where
  Addr : String
  Handler : Option Router
  TLSConfig : Option Unit
  ReadTimeout : Int
  ReadHeaderTimeout : Int
  WriteTimeout : Int
  IdleTimeout : Int
  MaxHeaderBytes : Int
  TLSNextProto : Option Unit
  ConnState : Option Unit
  ErrorLog : Option Unit
  BaseContext : Option Unit
  ConnContext : Option Unit

/-- The zero value `http.Server{}`. -/
def http.Server.zero (Router : Type) : http.Server Router :=
  { Addr := "", Handler := none, TLSConfig := none, ReadTimeout := 0,
    ReadHeaderTimeout := 0, WriteTimeout := 0, IdleTimeout := 0, MaxHeaderBytes := 0,
    TLSNextProto := none, ConnState := none, ErrorLog := none, BaseContext := none,
    ConnContext := none }

/-! ## `payment/main.go` -/

/-- The struct `App`: the HTTP server of the application. -/
structure App (Router : Type) where
  Server : http.Server Router

/-- The function `NewApp`: an app whose server listens on `addr`, serves
with the router `r` and has read and write timeouts. -/
def NewApp {Router : Type} (addr : String) (r : Router) : App Router :=
  { Server :=
      { http.Server.zero Router with
        Addr := addr
        Handler := some r
        ReadTimeout := 30 * time.Second
        ReadHeaderTimeout := 10 * time.Second
        WriteTimeout := 30 * time.Second } }

/-- The function `success`, on the value `i` that `rand.Intn(2)` drew. -/
def success (i : Nat) : Bool :=
  if i = 0 then true else false

/-- The handler `InvoiceHandler`, on the value `i` that `rand.Intn(2)` draws
in `success`. -/
def App.InvoiceHandler {Router : Type} (_a : App Router) (w : http.ResponseWriter)
    (r : http.Request) (i : Nat) : http.ResponseWriter :=
  match r.Body with
  | .error _ => w.WriteHeader http.StatusBadRequest
  | .ok body =>
    match json.Unmarshal body Invoice.zero with
    | .error _ => w.WriteHeader http.StatusBadRequest
    | .ok d =>
      match json.Marshal { d with Result := success i } with
      | .error _ => w.WriteHeader http.StatusInternalServerError
      | .ok resp =>
        io.WriteString
          ((w.SetHeader "Content-Type" "application/json").WriteHeader http.StatusOK) resp

/-- The handler `healthCheck`. -/
def App.healthCheck {Router : Type} (_a : App Router) (w : http.ResponseWriter)
    (_r : http.Request) : http.ResponseWriter :=
  io.WriteString
    ((w.SetHeader "Content-Type" "application/health+json").WriteHeader http.StatusOK)
    (bytes "\x7b\"status\":\"pass\"\x7d")

/-! ## Notions used to state the properties -/

/-- A `POST /rest/v1/charge` request whose body reads as `body`. -/
def chargeRequest (body : List Nat) : http.Request :=
  { Method := "POST", Path := "/rest/v1/charge", Header := [], Body := .ok body }

/-- A digit string that denotes an unsigned integer of at most `2^64 - 1`. -/
def isUint64Literal (lit : List Nat) : Bool :=
  !lit.isEmpty && lit.all isDigit && decide (digitsVal lit ≤ maxUint64)

/-- A JSON string, boolean, array or object. -/
def JSON.isNonNumericNonNull : JSON → Bool
  | .str _ => true
  | .bool _ => true
  | .arr _ => true
  | .obj _ => true
  | _ => false

/-- A JSON boolean or `null`. -/
def JSON.isBoolOrNull : JSON → Bool
  | .bool _ => true
  | .null => true
  | _ => false

/-- The input does not begin with a digit. -/
def noDigitHead : List Nat → Prop
  | [] => True
  | c :: _ => isDigit c = false

/-- The fraction of a number text: nothing, or `.` and the digits. -/
def fracText : List Nat → List Nat
  | [] => []
  | c :: fd => 46 :: c :: fd

/-- The exponent of a number text: nothing, or `e`, a sign and the digits. -/
def expText : Option (Bool × List Nat) → List Nat
  | none => []
  | some (neg, xd) => 101 :: (if neg then 45 else 43) :: xd

/-- A number text from its sign, integer digits, fraction digits and
exponent. -/
def numText (neg : Bool) (ip fd : List Nat) (ex : Option (Bool × List Nat)) : List Nat :=
  (if neg then [45] else []) ++ (ip ++ (fracText fd ++ expText ex))

/-- The integer digits of a JSON number: `0`, or digits that do not begin
with `0`. -/
def IntDigits (ip : List Nat) : Prop :=
  ip = [48] ∨ ∃ c ds, ip = c :: ds ∧ 49 ≤ c ∧ c ≤ 57 ∧ ∀ x ∈ ds, isDigit x = true

/-- The digits of an exponent, if there is one: at least one digit. -/
def ExpDigits : Option (Bool × List Nat) → Prop
  | none => True
  | some (_, xd) => xd ≠ [] ∧ ∀ x ∈ xd, isDigit x = true

/-- The value of the exponent of a number text. -/
def expOf : Option (Bool × List Nat) → Int
  | none => 0
  | some (neg, xd) => if neg then -(expVal xd : Int) else (expVal xd : Int)

/-- An `Invoice` as the decoder can produce it: the customer id is a uint64
and the value a finite float64. -/
def Invoice.Valid (v : Invoice) : Prop :=
  v.CustomerID ≤ maxUint64 ∧ (∃ neg m e, v.Value = .finite neg m e) ∧ v.Value.Canonical

/-- A scanner of values that consumes input. -/
def Consumes (pv : List Nat → Option (JSON × List Nat)) : Prop :=
  ∀ inp v r, pv inp = some (v, r) → r.length < inp.length

/-- White space only. -/
def AllSpace (ws : List Nat) : Prop := ∀ c ∈ ws, isSpace c = true

/-- The bytes between the quotes of a JSON string (RFC 8259, section 7), read
on bytes: bytes from 0x20 on other than the quote and the backslash, whether
or not they are UTF-8, and the escapes `\"`, `\\`, `\/`, `\b`, `\f`, `\n`, `\r`,
`\t` and `\uXXXX`. -/
inductive StringChars : List Nat → Prop where
  | nil : StringChars []
  | unescaped (c : Nat) (s : List Nat) :
      32 ≤ c → c ≠ 34 → c ≠ 92 → StringChars s → StringChars (c :: s)
  | escape (e : Nat) (s : List Nat) :
      isSimpleEscape e = true → StringChars s → StringChars (92 :: e :: s)
  | unicode (h1 h2 h3 h4 : Nat) (s : List Nat) :
      isHex h1 = true → isHex h2 = true → isHex h3 = true → isHex h4 = true →
      StringChars s → StringChars (92 :: 117 :: h1 :: h2 :: h3 :: h4 :: s)

/-- The text of a JSON number (RFC 8259, section 6): an optional minus, the
integer digits, an optional fraction and an optional exponent. -/
def NumberText (s : List Nat) : Prop :=
  ∃ sign ip frac exp, s = sign ++ (ip ++ (frac ++ exp)) ∧
    (sign = [] ∨ sign = [45]) ∧ IntDigits ip ∧
    (frac = [] ∨ ∃ fd, frac = 46 :: fd ∧ fd ≠ [] ∧ ∀ x ∈ fd, isDigit x = true) ∧
    (exp = [] ∨ ∃ e sg xd, exp = e :: (sg ++ xd) ∧ (e = 101 ∨ e = 69) ∧
      (sg = [] ∨ sg = [43] ∨ sg = [45]) ∧ xd ≠ [] ∧ ∀ x ∈ xd, isDigit x = true)

mutual
/-- The text of a JSON value (RFC 8259, sections 3 to 7), on bytes. -/
inductive ValueText : List Nat → Prop where
  | null : ValueText [110, 117, 108, 108]
  | true : ValueText [116, 114, 117, 101]
  | false : ValueText [102, 97, 108, 115, 101]
  | number (s : List Nat) : NumberText s → ValueText s
  | string (s : List Nat) : StringChars s → ValueText (34 :: (s ++ [34]))
  | emptyArray (ws : List Nat) : AllSpace ws → ValueText (91 :: (ws ++ [93]))
  | array (es : List Nat) : ElementsText es → ValueText (91 :: (es ++ [93]))
  | emptyObject (ws : List Nat) : AllSpace ws → ValueText (123 :: (ws ++ [125]))
  | object (ms : List Nat) : MembersText ms → ValueText (123 :: (ms ++ [125]))
/-- The elements of a non-empty array: values separated by commas, with
white space around them. -/
inductive ElementsText : List Nat → Prop where
  | one (w1 v w2 : List Nat) :
      AllSpace w1 → ValueText v → AllSpace w2 → ElementsText (w1 ++ (v ++ w2))
  | cons (w1 v w2 es : List Nat) :
      AllSpace w1 → ValueText v → AllSpace w2 → ElementsText es →
      ElementsText (w1 ++ (v ++ (w2 ++ 44 :: es)))
/-- The members of a non-empty object: a string, a colon and a value each,
separated by commas, with white space around them. -/
inductive MembersText : List Nat → Prop where
  | one (w1 k w2 w3 v w4 : List Nat) :
      AllSpace w1 → StringChars k → AllSpace w2 → AllSpace w3 → ValueText v → AllSpace w4 →
      MembersText (w1 ++ 34 :: (k ++ 34 :: (w2 ++ 58 :: (w3 ++ (v ++ w4)))))
  | cons (w1 k w2 w3 v w4 ms : List Nat) :
      AllSpace w1 → StringChars k → AllSpace w2 → AllSpace w3 → ValueText v → AllSpace w4 →
      MembersText ms →
      MembersText (w1 ++ 34 :: (k ++ 34 :: (w2 ++ 58 :: (w3 ++ (v ++ (w4 ++ 44 :: ms))))))
end

/-- The grammar of a JSON text (RFC 8259, section 2) read on bytes: one value
with optional white space around it. Nothing is asked of the bytes from 0x80
on inside a string: they need not be UTF-8. -/
def JSONSyntax (data : List Nat) : Prop :=
  ∃ w1 v w2, data = w1 ++ (v ++ w2) ∧ AllSpace w1 ∧ ValueText v ∧ AllSpace w2

/-- A well-formed JSON text (RFC 8259, sections 2 and 8.1): UTF-8 encoded
code points that follow the grammar. -/
def WellFormedJSON (data : List Nat) : Prop :=
  utf8.Valid data = true ∧ JSONSyntax data

/-- What the string states accept, up to the closing quote: from
`inString` the bytes of a string; from `inStringEsc` the rest of an escape
and a string; from `inStringEscU` the hexadecimal digits still due and a
string. -/
def StringRest : stringState → List Nat → Prop
  | .inString, s => StringChars s
  | .inStringEsc, s =>
    (∃ e t, s = e :: t ∧ isSimpleEscape e = true ∧ StringChars t) ∨
    (∃ h1 h2 h3 h4 t, s = 117 :: h1 :: h2 :: h3 :: h4 :: t ∧ isHex h1 = true ∧
      isHex h2 = true ∧ isHex h3 = true ∧ isHex h4 = true ∧ StringChars t)
  | .inStringEscU n, s =>
    ∃ hs t, s = hs ++ t ∧ hs.length = max n 1 ∧ (∀ x ∈ hs, isHex x = true) ∧ StringChars t

/-- A scanner of values that takes the text of a JSON value after white
space. -/
def SoundScan (pv : List Nat → Option (JSON × List Nat)) : Prop :=
  ∀ inp v r, pv inp = some (v, r) → ∃ ws t, inp = ws ++ (t ++ r) ∧ AllSpace ws ∧ ValueText t

/-- A float64 that is neither NaN nor an infinity. -/
def Float64.isFinite : Float64 → Bool
  | .finite _ _ _ => true
  | _ => false

/-- Two decoding states that differ at most in the field `Result`. -/
def decodeState.agreeButResult (d1 d2 : decodeState) : Prop :=
  d1.savedError = d2.savedError ∧ d1.v.CustomerID = d2.v.CustomerID ∧ d1.v.Value = d2.v.Value

/-! # Properties -/

/-! ## Errors of the decoder stay -/

theorem saveError_savedError_ne_none (d : decodeState) (err : UnmarshalError) :
    (d.saveError err).savedError ≠ none := by
  unfold decodeState.saveError
  cases h : d.savedError <;> simp [h]

theorem store_savedError_ne_none (d : decodeState) (f : Field) (j : JSON)
    (h : d.savedError ≠ none) : (d.store f j).savedError ≠ none := by
  cases j <;> cases f <;> simp only [decodeState.store] <;>
    first
      | exact h
      | exact saveError_savedError_ne_none _ _
      | (split <;> first | exact h | exact saveError_savedError_ne_none _ _)

theorem member_savedError_ne_none (d : decodeState) (kv : List Nat × JSON)
    (h : d.savedError ≠ none) : (d.member kv).savedError ≠ none := by
  unfold decodeState.member
  split
  · exact h
  · split
    · exact store_savedError_ne_none _ _ _ h
    · exact h

theorem foldl_member_savedError_ne_none (ms : List (List Nat × JSON)) (d : decodeState)
    (h : d.savedError ≠ none) : (ms.foldl decodeState.member d).savedError ≠ none := by
  induction ms generalizing d with
  | nil => exact h
  | cons kv ms ih => exact ih _ (member_savedError_ne_none d kv h)

/-- A member that leaves an error behind makes the decoding of the object
fail, wherever it stands among the members. -/
theorem value_obj_savedError_of_mem (ms : List (List Nat × JSON)) (kv : List Nat × JSON)
    (hmem : kv ∈ ms) (hkv : ∀ d : decodeState, (d.member kv).savedError ≠ none)
    (d : decodeState) : (d.value (.obj ms)).savedError ≠ none := by
  obtain ⟨l1, l2, rfl⟩ := List.append_of_mem hmem
  simp only [decodeState.value, List.foldl_append, List.foldl_cons]
  exact foldl_member_savedError_ne_none _ _ (hkv _)

theorem Unmarshal_error_of_savedError (data : List Nat) (v : Invoice) (j : JSON)
    (hj : parseJSON data = some j)
    (h : (({ v := v, savedError := none } : decodeState).value j).savedError ≠ none) :
    ∃ err, json.Unmarshal data v = .error err := by
  unfold json.Unmarshal
  rw [hj]
  simp only
  split
  · exact ⟨_, rfl⟩
  · rename_i heq
    rw [heq] at h
    exact absurd rfl h

/-! ## The handler on a body that does not decode -/

theorem InvoiceHandler_of_Unmarshal_error {Router : Type} (a : App Router)
    (r : http.Request) (i : Nat) (body : List Nat) (err : UnmarshalError)
    (hbody : r.Body = .ok body) (h : json.Unmarshal body Invoice.zero = .error err) :
    a.InvoiceHandler httptest.NewRecorder r i =
      { Code := 400, Header := [], Body := [], wroteHeader := true } := by
  unfold App.InvoiceHandler
  rw [hbody]
  simp only [h]
  rfl

theorem parseJSON_nil : parseJSON [] = none := by rfl

/-! ## `ParseUint` -/

theorem parseUintLoop_ok (cs : List Nat) (n r : Nat) (hn : n ≤ maxUint64)
    (h : parseUintLoop cs n = .ok r) :
    cs.all isDigit = true ∧ r = cs.foldl (fun n c => n * 10 + (c - 48)) n ∧ r ≤ maxUint64 := by
  induction cs generalizing n with
  | nil =>
    simp only [parseUintLoop, Except.ok.injEq] at h
    subst h
    simp [hn]
  | cons c cs ih =>
    rw [parseUintLoop] at h
    split at h
    · rename_i hc
      split at h
      · cases h
      · rename_i hcut
        simp only [maxUint64] at hcut hn
        have h10 : (n * 10) % 2 ^ 64 = n * 10 := Nat.mod_eq_of_lt (by omega)
        simp only [h10] at h
        split at h
        · cases h
        · rename_i hov
          have hlt : n * 10 + (c - 48) < 2 ^ 64 := by
            by_contra hge
            apply hov
            left
            have : (n * 10 + (c - 48)) % 2 ^ 64 = n * 10 + (c - 48) - 2 ^ 64 := by
              rw [Nat.mod_eq_sub_mod (by omega)]
              exact Nat.mod_eq_of_lt (by omega)
            omega
          rw [Nat.mod_eq_of_lt hlt] at h
          obtain ⟨h1, h2, h3⟩ := ih (n * 10 + (c - 48)) (by simp only [maxUint64]; omega) h
          refine ⟨?_, ?_, h3⟩
          · simp only [List.all_cons, h1, Bool.and_true, isDigit]
            simp [hc.1, hc.2]
          · simpa using h2
    · cases h

/-- What `ParseUint` accepts is a digit string of value at most `2^64 - 1`,
and the result is that value. -/
theorem ParseUint_ok (s : List Nat) (r : Nat) (h : strconv.ParseUint s = .ok r) :
    isUint64Literal s = true ∧ r = digitsVal s ∧ r ≤ maxUint64 := by
  unfold strconv.ParseUint at h
  split at h
  · cases h
  · rename_i hne
    obtain ⟨h1, h2, h3⟩ := parseUintLoop_ok s 0 r (by simp [maxUint64]) h
    refine ⟨?_, h2, h3⟩
    simp only [isUint64Literal, h1, Bool.and_true, Bool.and_eq_true, Bool.not_eq_true',
      decide_eq_true_eq]
    refine ⟨?_, ?_⟩
    · cases s with
      | nil => exact absurd rfl hne
      | cons _ _ => rfl
    · rw [digitsVal, ← h2]; exact h3

/-! ## Members that make the decoding fail -/

theorem member_customer_id_error (v : JSON)
    (hv : v.isNonNumericNonNull = true ∨ ∃ lit, v = .num lit ∧ isUint64Literal lit = false)
    (d : decodeState) : (d.member (bytes "customer_id", v)).savedError ≠ none := by
  have hk : unquote (bytes "customer_id") = some (bytes "customer_id") := by decide
  have hf : lookupField (bytes "customer_id") = some Field.CustomerID := by decide
  simp only [decodeState.member, hk, hf]
  rcases hv with hv | ⟨lit, rfl, hlit⟩
  · cases v <;> simp only [JSON.isNonNumericNonNull, Bool.false_eq_true] at hv <;>
      simp only [decodeState.store] <;> exact saveError_savedError_ne_none _ _
  · simp only [decodeState.store]
    split
    · rename_i n hn
      have := (ParseUint_ok lit n hn).1
      rw [hlit] at this
      cases this
    · exact saveError_savedError_ne_none _ _

theorem member_value_error (v : JSON) (hv : v.isNonNumericNonNull = true)
    (d : decodeState) : (d.member (bytes "value", v)).savedError ≠ none := by
  have hk : unquote (bytes "value") = some (bytes "value") := by decide
  have hf : lookupField (bytes "value") = some Field.Value := by decide
  simp only [decodeState.member, hk, hf]
  cases v <;> simp only [JSON.isNonNumericNonNull, Bool.false_eq_true] at hv <;>
      simp only [decodeState.store] <;> exact saveError_savedError_ne_none _ _

/-! ## Bodies that the decoder rejects -/

/-- C3 fails for `null`: the body `{"customer_id":null}` is a JSON object in
which `customer_id` is given as `null`, and the response has status 200. -/
theorem InvoiceHandler_null_customer_id_ok :
    parseJSON (bytes "\x7b\"customer_id\":null\x7d") =
      some (.obj [(bytes "customer_id", .null)]) ∧
    (NewApp ":8080" ()).InvoiceHandler httptest.NewRecorder
      (chargeRequest (bytes "\x7b\"customer_id\":null\x7d")) 1 =
      { Code := 200, Header := [("Content-Type", "application/json")],
        Body := bytes "\x7b\"customer_id\":0,\"currency\":\x7b\x7d,\"result\":false\x7d",
        wroteHeader := true } :=
  ⟨by rfl, by decide⟩

/-- C3, amended. For a request body that is a JSON object in which
`customer_id` or `value` is given as a string, a boolean, an array or an
object, `InvoiceHandler` answers with status 400 and writes no body. -/
theorem InvoiceHandler_bad_request_of_non_numeric {Router : Type} (a : App Router)
    (r : http.Request) (i : Nat) (body : List Nat) (ms : List (List Nat × JSON))
    (key : List Nat) (v : JSON)
    (hbody : r.Body = .ok body) (hobj : parseJSON body = some (.obj ms))
    (hmem : (key, v) ∈ ms) (hkey : key = bytes "customer_id" ∨ key = bytes "value")
    (hv : v.isNonNumericNonNull = true) :
    (a.InvoiceHandler httptest.NewRecorder r i).Code = http.StatusBadRequest ∧
    (a.InvoiceHandler httptest.NewRecorder r i).Body = [] := by
  have herr : ∃ err, json.Unmarshal body Invoice.zero = .error err := by
    apply Unmarshal_error_of_savedError body _ _ hobj
    apply value_obj_savedError_of_mem ms (key, v) hmem
    rcases hkey with rfl | rfl
    · exact member_customer_id_error v (Or.inl hv)
    · exact member_value_error v hv
  obtain ⟨err, herr⟩ := herr
  rw [InvoiceHandler_of_Unmarshal_error a r i body err hbody herr]
  exact ⟨rfl, rfl⟩

/-- C3, amended, at the body of the test with `customer_id` and `value`
given as strings. -/
theorem InvoiceHandler_bad_request_of_non_numeric_witness :
    parseJSON (bytes "\x7b\"currency\":\x7b\x7d,\"customer_id\":\"1\",\"value\":\"301.99\"\x7d") =
      some (.obj [(bytes "currency", .obj []), (bytes "customer_id", .str (bytes "1")),
        (bytes "value", .str (bytes "301.99"))]) ∧
    ((NewApp ":8080" ()).InvoiceHandler httptest.NewRecorder
      (chargeRequest
        (bytes "\x7b\"currency\":\x7b\x7d,\"customer_id\":\"1\",\"value\":\"301.99\"\x7d")) 0).Code
        = http.StatusBadRequest ∧
    ((NewApp ":8080" ()).InvoiceHandler httptest.NewRecorder
      (chargeRequest
        (bytes "\x7b\"currency\":\x7b\x7d,\"customer_id\":\"1\",\"value\":\"301.99\"\x7d")) 0).Body
        = [] :=
  ⟨by rfl, InvoiceHandler_bad_request_of_non_numeric (NewApp ":8080" ()) _ 0 _ _
    (bytes "customer_id") (.str (bytes "1")) rfl (by rfl) (.tail _ (.head _)) (Or.inl rfl) rfl⟩

theorem member_null (d : decodeState) (key : List Nat)
    (hkey : key = bytes "customer_id" ∨ key = bytes "value") : d.member (key, .null) = d := by
  have hk1 : unquote (bytes "customer_id") = some (bytes "customer_id") := by decide
  have hf1 : lookupField (bytes "customer_id") = some Field.CustomerID := by decide
  have hk2 : unquote (bytes "value") = some (bytes "value") := by decide
  have hf2 : lookupField (bytes "value") = some Field.Value := by decide
  rcases hkey with rfl | rfl
  · simp only [decodeState.member, hk1, hf1, decodeState.store]
  · simp only [decodeState.member, hk2, hf2, decodeState.store]

/-- A `customer_id` or `value` member given as `null` is skipped by the
decoder: with such a member added anywhere among the members of the request
object, the whole response is as it is without that member. -/
theorem InvoiceHandler_null_member_skipped {Router : Type} (a : App Router)
    (r1 r2 : http.Request) (i : Nat) (body1 body2 : List Nat)
    (ms1 ms2 : List (List Nat × JSON)) (key : List Nat)
    (hb1 : r1.Body = .ok body1) (hb2 : r2.Body = .ok body2)
    (hj1 : parseJSON body1 = some (.obj (ms1 ++ ms2)))
    (hj2 : parseJSON body2 = some (.obj (ms1 ++ (key, .null) :: ms2)))
    (hkey : key = bytes "customer_id" ∨ key = bytes "value") :
    a.InvoiceHandler httptest.NewRecorder r2 i = a.InvoiceHandler httptest.NewRecorder r1 i := by
  unfold App.InvoiceHandler json.Unmarshal
  rw [hb1, hb2]
  simp only
  rw [hj1, hj2]
  simp only [decodeState.value, List.foldl_append, List.foldl_cons, member_null _ _ hkey]

/-- C8. For a request body that is a JSON object in which `customer_id` is a
number whose text is not a digit string of value at most `2^64 - 1` (it has a
sign, a fraction or an exponent, or it is too large), `InvoiceHandler`
answers with status 400 and writes no body. -/
theorem InvoiceHandler_bad_request_of_customer_id_not_uint64 {Router : Type}
    (a : App Router) (r : http.Request) (i : Nat) (body : List Nat)
    (ms : List (List Nat × JSON)) (lit : List Nat)
    (hbody : r.Body = .ok body) (hobj : parseJSON body = some (.obj ms))
    (hmem : (bytes "customer_id", JSON.num lit) ∈ ms)
    (hlit : isUint64Literal lit = false) :
    (a.InvoiceHandler httptest.NewRecorder r i).Code = http.StatusBadRequest ∧
    (a.InvoiceHandler httptest.NewRecorder r i).Body = [] := by
  have herr : ∃ err, json.Unmarshal body Invoice.zero = .error err := by
    apply Unmarshal_error_of_savedError body _ _ hobj
    apply value_obj_savedError_of_mem ms _ hmem
    exact member_customer_id_error _ (Or.inr ⟨lit, rfl, hlit⟩)
  obtain ⟨err, herr⟩ := herr
  rw [InvoiceHandler_of_Unmarshal_error a r i body err hbody herr]
  exact ⟨rfl, rfl⟩

/-- C8 at a `customer_id` of `2^64`, one above the largest uint64. -/
theorem InvoiceHandler_bad_request_of_customer_id_not_uint64_witness :
    parseJSON (bytes "\x7b\"customer_id\":18446744073709551616,\"value\":301.99\x7d") =
      some (.obj [(bytes "customer_id", .num (bytes "18446744073709551616")),
        (bytes "value", .num (bytes "301.99"))]) ∧
    isUint64Literal (bytes "18446744073709551616") = false ∧
    ((NewApp ":8080" ()).InvoiceHandler httptest.NewRecorder
      (chargeRequest
        (bytes "\x7b\"customer_id\":18446744073709551616,\"value\":301.99\x7d")) 0).Code
        = http.StatusBadRequest ∧
    ((NewApp ":8080" ()).InvoiceHandler httptest.NewRecorder
      (chargeRequest
        (bytes "\x7b\"customer_id\":18446744073709551616,\"value\":301.99\x7d")) 0).Body
        = [] :=
  ⟨by rfl, by decide, InvoiceHandler_bad_request_of_customer_id_not_uint64
    (NewApp ":8080" ()) _ 0 _ _ (bytes "18446744073709551616") rfl (by rfl) (.head _)
    (by decide)⟩

/-! ## `healthCheck`, `NewApp`, `success` -/

/-- C6. For every request, `healthCheck` answers with status 200, the
content type `application/health+json` and the body `{"status":"pass"}`; the
response is the same for all requests. -/
theorem healthCheck_response {Router : Type} (a : App Router) (r : http.Request) :
    a.healthCheck httptest.NewRecorder r =
      { Code := 200, Header := [("Content-Type", "application/health+json")],
        Body := bytes "\x7b\"status\":\"pass\"\x7d", wroteHeader := true } ∧
    (a.healthCheck httptest.NewRecorder r).Code = http.StatusOK ∧
    (a.healthCheck httptest.NewRecorder r).Get "Content-Type"
      = some "application/health+json" ∧
    (a.healthCheck httptest.NewRecorder r).Body
      = [123, 34, 115, 116, 97, 116, 117, 115, 34, 58, 34, 112, 97, 115, 115, 34, 125] ∧
    ∀ r1 : http.Request,
      a.healthCheck httptest.NewRecorder r1 = a.healthCheck httptest.NewRecorder r :=
  ⟨by rfl, by rfl, by rfl, by rfl, fun _ => rfl⟩

/-- C7. The server of `NewApp(addr, r)` has `Addr = addr`, `Handler = r`,
`ReadTimeout` of 30 seconds, `ReadHeaderTimeout` of 10 seconds and
`WriteTimeout` of 30 seconds, in nanoseconds, and all other fields zero. -/
theorem NewApp_server {Router : Type} (addr : String) (r : Router) :
    (NewApp addr r).Server =
      { Addr := addr, Handler := some r, TLSConfig := none,
        ReadTimeout := 30000000000, ReadHeaderTimeout := 10000000000,
        WriteTimeout := 30000000000, IdleTimeout := 0, MaxHeaderBytes := 0,
        TLSNextProto := none, ConnState := none, ErrorLog := none, BaseContext := none,
        ConnContext := none } := by
  rfl

/-- C9. On the draw `i` of `rand.Intn(2)`, `success` is true exactly when
`i = 0` and false exactly when `i = 1`: of the two draws, one gives true. -/
theorem success_draw :
    success 0 = true ∧ success 1 = false ∧
    (∀ i : Fin 2, (success i.val = true ↔ i.val = 0) ∧ (success i.val = false ↔ i.val = 1)) ∧
    ((List.range 2).filter success).length = 1 := by
  refine ⟨rfl, rfl, ?_, rfl⟩
  intro i
  fin_cases i <;> simp [success]

/-! ## The status is never 500 -/

theorem roundRatio_ne_nan (neg : Bool) (p q : Nat) : roundRatio neg p q ≠ .nan := by
  unfold roundRatio
  split
  · simp
  · split <;> split <;> simp

theorem toFloat64_ne_nan (d : Decimal) : d.toFloat64 ≠ .nan := by
  unfold Decimal.toFloat64 Decimal.round
  split <;> exact roundRatio_ne_nan _ _ _

theorem ParseFloat_isFinite (s : List Nat) (n : Float64)
    (h : strconv.ParseFloat s = (n, none)) : n.isFinite = true := by
  unfold strconv.ParseFloat at h
  split at h
  · cases h
  · rename_i d _
    split at h
    · cases h
    · rename_i hinf
      simp only [Prod.mk.injEq, and_true] at h
      subst h
      cases hf : d.toFloat64 with
      | finite _ _ _ => rfl
      | inf neg => exact absurd hf (hinf neg)
      | nan => exact absurd hf (toFloat64_ne_nan d)

theorem saveError_v (d : decodeState) (err : UnmarshalError) : (d.saveError err).v = d.v := by
  unfold decodeState.saveError
  split <;> rfl

theorem store_isFinite (d : decodeState) (f : Field) (j : JSON)
    (h : d.v.Value.isFinite = true) : (d.store f j).v.Value.isFinite = true := by
  cases j <;> cases f <;> simp only [decodeState.store, saveError_v] <;>
    first
      | exact h
      | (split <;> first | exact h | simp only [saveError_v]; exact h)
      | skip
  · rename_i lit
    split
    · rename_i n hn
      exact ParseFloat_isFinite lit _ hn
    · simp only [saveError_v]; exact h

theorem member_isFinite (d : decodeState) (kv : List Nat × JSON)
    (h : d.v.Value.isFinite = true) : (d.member kv).v.Value.isFinite = true := by
  unfold decodeState.member
  split
  · exact h
  · split
    · exact store_isFinite _ _ _ h
    · exact h

theorem foldl_member_isFinite (ms : List (List Nat × JSON)) (d : decodeState)
    (h : d.v.Value.isFinite = true) :
    (ms.foldl decodeState.member d).v.Value.isFinite = true := by
  induction ms generalizing d with
  | nil => exact h
  | cons kv ms ih => exact ih _ (member_isFinite d kv h)

theorem value_isFinite (d : decodeState) (j : JSON)
    (h : d.v.Value.isFinite = true) : (d.value j).v.Value.isFinite = true := by
  cases j <;> simp only [decodeState.value, saveError_v] <;>
    first | exact h | exact foldl_member_isFinite _ _ h

theorem Unmarshal_isFinite (data : List Nat) (v d : Invoice)
    (hv : v.Value.isFinite = true) (h : json.Unmarshal data v = .ok d) :
    d.Value.isFinite = true := by
  unfold json.Unmarshal at h
  split at h
  · cases h
  · rename_i j _
    have := value_isFinite { v := v, savedError := none } j hv
    split at h
    · cases h
    · rename_i heq
      rw [heq] at this
      simp only [Except.ok.injEq] at h
      subst h
      exact this

theorem Marshal_ok_of_isFinite (d : Invoice) (h : d.Value.isFinite = true) :
    ∃ resp, json.Marshal d = .ok resp := by
  have hf : ∃ value, floatEncoder d.Value = .ok value := by
    unfold floatEncoder
    cases hv : d.Value with
    | finite neg m e =>
      simp only
      split <;> exact ⟨_, rfl⟩
    | inf _ => rw [hv] at h; cases h
    | nan => rw [hv] at h; cases h
  obtain ⟨value, hvalue⟩ := hf
  unfold json.Marshal encodeFields
  rw [hvalue]
  exact ⟨_, rfl⟩

/-- C10. The response of `InvoiceHandler` has status 200 or 400 and never
500, for every request and draw: every `Invoice` that `json.Unmarshal`
produces has a finite `Value`, and `json.Marshal` serializes it without
error. -/
theorem InvoiceHandler_status {Router : Type} (a : App Router) (r : http.Request) (i : Nat) :
    ((a.InvoiceHandler httptest.NewRecorder r i).Code = http.StatusOK ∨
     (a.InvoiceHandler httptest.NewRecorder r i).Code = http.StatusBadRequest) ∧
    (a.InvoiceHandler httptest.NewRecorder r i).Code ≠ http.StatusInternalServerError ∧
    ∀ (body : List Nat) (d : Invoice), json.Unmarshal body Invoice.zero = .ok d →
      d.Value.isFinite = true ∧
      ∃ resp, json.Marshal { d with Result := success i } = .ok resp := by
  have key : ∀ (body : List Nat) (d : Invoice), json.Unmarshal body Invoice.zero = .ok d →
      d.Value.isFinite = true ∧
      ∃ resp, json.Marshal { d with Result := success i } = .ok resp := by
    intro body d hd
    have hfin := Unmarshal_isFinite body Invoice.zero d rfl hd
    exact ⟨hfin, Marshal_ok_of_isFinite _ hfin⟩
  have hcode : (a.InvoiceHandler httptest.NewRecorder r i).Code = http.StatusOK ∨
     (a.InvoiceHandler httptest.NewRecorder r i).Code = http.StatusBadRequest := by
    unfold App.InvoiceHandler
    cases hb : r.Body with
    | error e => right; rfl
    | ok body =>
      simp only
      cases hu : json.Unmarshal body Invoice.zero with
      | error e => right; rfl
      | ok d =>
        simp only
        obtain ⟨resp, hresp⟩ := (key body d hu).2
        rw [hresp]
        left; rfl
  refine ⟨hcode, ?_, key⟩
  rcases hcode with h | h <;> rw [h] <;> decide

/-! ## A `result` member in the request -/


theorem saveError_agree (d1 d2 : decodeState) (err : UnmarshalError)
    (h : d1.agreeButResult d2) : (d1.saveError err).agreeButResult (d2.saveError err) := by
  obtain ⟨h1, h2, h3⟩ := h
  refine ⟨?_, ?_, ?_⟩
  · unfold decodeState.saveError
    rw [h1]
    cases h4 : d2.savedError <;> simp [h4, h1]
  · simp only [saveError_v]; exact h2
  · simp only [saveError_v]; exact h3

theorem store_agree (d1 d2 : decodeState) (f : Field) (j : JSON)
    (h : d1.agreeButResult d2) : (d1.store f j).agreeButResult (d2.store f j) := by
  cases j <;> cases f <;> simp only [decodeState.store] <;>
    first
      | exact h
      | exact saveError_agree _ _ _ h
      | exact ⟨h.1, h.2.1, h.2.2⟩
      | (split <;> first | exact saveError_agree _ _ _ h | exact ⟨h.1, rfl, h.2.2⟩ | exact ⟨h.1, h.2.1, rfl⟩)

theorem member_agree (d1 d2 : decodeState) (kv : List Nat × JSON)
    (h : d1.agreeButResult d2) : (d1.member kv).agreeButResult (d2.member kv) := by
  unfold decodeState.member
  split
  · exact h
  · split
    · exact store_agree _ _ _ _ h
    · exact h

theorem foldl_member_agree (ms : List (List Nat × JSON)) (d1 d2 : decodeState)
    (h : d1.agreeButResult d2) :
    (ms.foldl decodeState.member d1).agreeButResult (ms.foldl decodeState.member d2) := by
  induction ms generalizing d1 d2 with
  | nil => exact h
  | cons kv ms ih => exact ih _ _ (member_agree d1 d2 kv h)

theorem member_result_agree (d : decodeState) (v : JSON) (hv : v.isBoolOrNull = true) :
    (d.member (bytes "result", v)).agreeButResult d := by
  have hk : unquote (bytes "result") = some (bytes "result") := by decide
  have hf : lookupField (bytes "result") = some Field.Result := by decide
  simp only [decodeState.member, hk, hf]
  cases v <;> simp only [JSON.isBoolOrNull, Bool.false_eq_true] at hv <;>
    simp only [decodeState.store] <;> exact ⟨rfl, rfl, rfl⟩

/-- The handler's response depends on the decoded struct only through the
fields other than `Result`. -/
theorem InvoiceHandler_congr {Router : Type} (a : App Router) (r1 r2 : http.Request) (i : Nat)
    (body1 body2 : List Nat) (j1 j2 : JSON)
    (hb1 : r1.Body = .ok body1) (hb2 : r2.Body = .ok body2)
    (hj1 : parseJSON body1 = some j1) (hj2 : parseJSON body2 = some j2)
    (h : (({ v := Invoice.zero, savedError := none } : decodeState).value j1).agreeButResult
      (({ v := Invoice.zero, savedError := none } : decodeState).value j2)) :
    a.InvoiceHandler httptest.NewRecorder r1 i = a.InvoiceHandler httptest.NewRecorder r2 i := by
  unfold App.InvoiceHandler json.Unmarshal
  rw [hb1, hb2]
  simp only
  rw [hj1, hj2]
  simp only
  generalize ({ v := Invoice.zero, savedError := none } : decodeState).value j1 = s1 at h
  generalize ({ v := Invoice.zero, savedError := none } : decodeState).value j2 = s2 at h
  obtain ⟨v1, e1⟩ := s1
  obtain ⟨v2, e2⟩ := s2
  obtain ⟨h1, h2, h3⟩ := h
  simp only at h1 h2 h3
  subst h1
  cases e1 with
  | some err => rfl
  | none =>
    simp only
    have : ({ v1 with Result := success i } : Invoice) = { v2 with Result := success i } := by
      cases v1; cases v2
      simp only at h2 h3
      simp [h2, h3]
    rw [this]

/-- C5, amended. A `result` member whose value is a boolean or `null`,
added anywhere among the members of the request object, leaves the whole
response (status, header and body) as it is without that member, for every
draw. -/
theorem InvoiceHandler_ignores_result {Router : Type} (a : App Router)
    (r1 r2 : http.Request) (i : Nat) (body1 body2 : List Nat)
    (ms1 ms2 : List (List Nat × JSON)) (v : JSON)
    (hb1 : r1.Body = .ok body1) (hb2 : r2.Body = .ok body2)
    (hj1 : parseJSON body1 = some (.obj (ms1 ++ ms2)))
    (hj2 : parseJSON body2 = some (.obj (ms1 ++ (bytes "result", v) :: ms2)))
    (hv : v.isBoolOrNull = true) :
    a.InvoiceHandler httptest.NewRecorder r2 i = a.InvoiceHandler httptest.NewRecorder r1 i := by
  apply InvoiceHandler_congr a r2 r1 i body2 body1 _ _ hb2 hb1 hj2 hj1
  simp only [decodeState.value, List.foldl_append, List.foldl_cons]
  exact foldl_member_agree _ _ _ (member_result_agree _ v hv)

/-- C5, amended, at the test's valid body with `"result":true` added. -/
theorem InvoiceHandler_ignores_result_witness :
    parseJSON (bytes "\x7b\"customer_id\":1,\"value\":301.99\x7d") =
      some (.obj ([(bytes "customer_id", .num (bytes "1"))] ++
        [(bytes "value", .num (bytes "301.99"))])) ∧
    parseJSON (bytes "\x7b\"customer_id\":1,\"result\":true,\"value\":301.99\x7d") =
      some (.obj ([(bytes "customer_id", .num (bytes "1"))] ++
        (bytes "result", .bool true) :: [(bytes "value", .num (bytes "301.99"))])) ∧
    (NewApp ":8080" ()).InvoiceHandler httptest.NewRecorder
      (chargeRequest (bytes "\x7b\"customer_id\":1,\"result\":true,\"value\":301.99\x7d")) 1 =
    (NewApp ":8080" ()).InvoiceHandler httptest.NewRecorder
      (chargeRequest (bytes "\x7b\"customer_id\":1,\"value\":301.99\x7d")) 1 :=
  ⟨by rfl, by rfl, InvoiceHandler_ignores_result (NewApp ":8080" ()) _ _ 1 _ _
    [(bytes "customer_id", .num (bytes "1"))] [(bytes "value", .num (bytes "301.99"))]
    (.bool true) rfl rfl (by rfl) (by rfl) rfl⟩

/-- C5 fails for a `result` that is not a boolean: with the member
`"result":"yes"` added to the body `{"customer_id":1}` the response has
status 400, without it status 200. -/
theorem InvoiceHandler_string_result_rejected :
    parseJSON (bytes "\x7b\"customer_id\":1\x7d") =
      some (.obj [(bytes "customer_id", .num (bytes "1"))]) ∧
    parseJSON (bytes "\x7b\"customer_id\":1,\"result\":\"yes\"\x7d") =
      some (.obj [(bytes "customer_id", .num (bytes "1")),
        (bytes "result", .str (bytes "yes"))]) ∧
    ((NewApp ":8080" ()).InvoiceHandler httptest.NewRecorder
      (chargeRequest (bytes "\x7b\"customer_id\":1\x7d")) 0).Code = 200 ∧
    (NewApp ":8080" ()).InvoiceHandler httptest.NewRecorder
      (chargeRequest (bytes "\x7b\"customer_id\":1,\"result\":\"yes\"\x7d")) 0 =
      { Code := 400, Header := [], Body := [], wroteHeader := true } :=
  ⟨by rfl, by rfl, by decide, by decide⟩

theorem member_result_error (v : JSON) (hv : v.isBoolOrNull = false)
    (d : decodeState) : (d.member (bytes "result", v)).savedError ≠ none := by
  have hk : unquote (bytes "result") = some (bytes "result") := by decide
  have hf : lookupField (bytes "result") = some Field.Result := by decide
  simp only [decodeState.member, hk, hf]
  cases v <;> simp only [JSON.isBoolOrNull, Bool.true_eq_false] at hv <;>
    simp only [decodeState.store] <;> exact saveError_savedError_ne_none _ _

/-- A `result` member whose value is a string, a number, an array or an
object makes the decoding fail: the response has status 400 and no body. -/
theorem InvoiceHandler_bad_request_of_result_not_bool {Router : Type} (a : App Router)
    (r : http.Request) (i : Nat) (body : List Nat) (ms : List (List Nat × JSON)) (v : JSON)
    (hbody : r.Body = .ok body) (hobj : parseJSON body = some (.obj ms))
    (hmem : (bytes "result", v) ∈ ms) (hv : v.isBoolOrNull = false) :
    (a.InvoiceHandler httptest.NewRecorder r i).Code = http.StatusBadRequest ∧
    (a.InvoiceHandler httptest.NewRecorder r i).Body = [] := by
  have herr : ∃ err, json.Unmarshal body Invoice.zero = .error err := by
    apply Unmarshal_error_of_savedError body _ _ hobj
    exact value_obj_savedError_of_mem ms _ hmem (member_result_error v hv) _
  obtain ⟨err, herr⟩ := herr
  rw [InvoiceHandler_of_Unmarshal_error a r i body err hbody herr]
  exact ⟨rfl, rfl⟩

/-! ## Rounding a ratio to float64 -/

theorem bitLenAux_spec (fuel n : Nat) (h : n ≤ fuel) :
    n < 2 ^ bitLenAux fuel n ∧ (0 < n → 2 ^ (bitLenAux fuel n - 1) ≤ n) := by
  induction fuel generalizing n with
  | zero =>
    have : n = 0 := by omega
    subst this
    simp [bitLenAux]
  | succ fuel ih =>
    rw [bitLenAux]
    split
    · rename_i h0
      subst h0
      simp
    · rename_i h0
      obtain ⟨h1, h2⟩ := ih (n / 2) (by omega)
      constructor
      · rw [pow_succ]
        omega
      · intro _
        simp only [Nat.add_sub_cancel]
        by_cases hn : n / 2 = 0
        · have : bitLenAux fuel (n / 2) = 0 := by
            rw [hn]; cases fuel <;> simp [bitLenAux]
          rw [this]
          simp
          omega
        · have h3 := h2 (by omega)
          have : bitLenAux fuel (n / 2) = (bitLenAux fuel (n / 2) - 1) + 1 := by
            have : bitLenAux fuel (n / 2) ≠ 0 := by
              intro h4
              rw [h4] at h1
              simp at h1
              exact hn h1
            omega
          rw [this, pow_succ]
          omega

theorem bitLen_lt (n : Nat) : n < 2 ^ bitLen n := (bitLenAux_spec n n le_rfl).1

theorem bitLen_le (n : Nat) (h : 0 < n) : 2 ^ (bitLen n - 1) ≤ n :=
  (bitLenAux_spec n n le_rfl).2 h

theorem bitLen_pos (n : Nat) (h : 0 < n) : 0 < bitLen n := by
  by_contra h0
  have := bitLen_lt n
  have h1 : bitLen n = 0 := by omega
  rw [h1] at this
  simp at this
  omega

theorem scaleDen_pos (q : Nat) (e : Int) (hq : 0 < q) : 0 < scaleDen q e := by
  unfold scaleDen
  positivity

theorem scale_cast (p q : Nat) (e : Int) (hq : 0 < q) :
    ((scaleNum p e : Nat) : ℚ) / ((scaleDen q e : Nat) : ℚ) = (p : ℚ) / q * (2 : ℚ) ^ (-e) := by
  have hq' : (q : ℚ) ≠ 0 := by positivity
  unfold scaleNum scaleDen
  rcases le_total 0 e with h | h
  · obtain ⟨n, rfl⟩ := Int.eq_ofNat_of_zero_le h
    simp only [Int.toNat_ofNat, Nat.cast_mul, Nat.cast_pow, Nat.cast_ofNat]
    have : (-(n : ℤ)).toNat = 0 := by omega
    rw [this, zpow_neg, zpow_natCast]
    field_simp
  · obtain ⟨n, hn⟩ := Int.eq_ofNat_of_zero_le (neg_nonneg.mpr h)
    have h1 : e.toNat = 0 := by omega
    rw [h1, hn]
    simp only [Int.toNat_ofNat, Nat.cast_mul, Nat.cast_pow, Nat.cast_ofNat, pow_zero, mul_one,
      zpow_natCast]
    field_simp

theorem scaled_lt_iff (p q : Nat) (e : Int) (hq : 0 < q) (N : Nat) :
    scaleNum p e / scaleDen q e < N ↔ (p : ℚ) / q * (2 : ℚ) ^ (-e) < N := by
  rw [← scale_cast p q e hq, Nat.div_lt_iff_lt_mul (scaleDen_pos q e hq)]
  have hd : (0 : ℚ) < (scaleDen q e : ℚ) := by exact_mod_cast scaleDen_pos q e hq
  rw [div_lt_iff₀ hd]
  exact_mod_cast Iff.rfl

theorem le_scaled_iff (p q : Nat) (e : Int) (hq : 0 < q) (N : Nat) :
    N ≤ scaleNum p e / scaleDen q e ↔ (N : ℚ) ≤ (p : ℚ) / q * (2 : ℚ) ^ (-e) := by
  rw [← scale_cast p q e hq, Nat.le_div_iff_mul_le (scaleDen_pos q e hq)]
  have hd : (0 : ℚ) < (scaleDen q e : ℚ) := by exact_mod_cast scaleDen_pos q e hq
  rw [le_div_iff₀ hd]
  exact_mod_cast Iff.rfl

theorem ratio_bounds (p q : Nat) (hp : 0 < p) (hq : 0 < q) :
    (2 : ℚ) ^ ((bitLen p : ℤ) - (bitLen q : ℤ) - 1) < (p : ℚ) / q ∧
    (p : ℚ) / q < (2 : ℚ) ^ ((bitLen p : ℤ) - (bitLen q : ℤ) + 1) := by
  have hp1 : ((2 : ℚ) ^ (bitLen p - 1)) ≤ p := by exact_mod_cast bitLen_le p hp
  have hp2 : (p : ℚ) < (2 : ℚ) ^ (bitLen p) := by exact_mod_cast bitLen_lt p
  have hq1 : ((2 : ℚ) ^ (bitLen q - 1)) ≤ q := by exact_mod_cast bitLen_le q hq
  have hq2 : (q : ℚ) < (2 : ℚ) ^ (bitLen q) := by exact_mod_cast bitLen_lt q
  have hLp := bitLen_pos p hp
  have hLq := bitLen_pos q hq
  have hq0 : (0 : ℚ) < q := by exact_mod_cast hq
  have h2 : (2 : ℚ) ≠ 0 := by norm_num
  constructor
  · rw [lt_div_iff₀ hq0]
    have e1 : ((bitLen p : ℤ) - (bitLen q : ℤ) - 1) = ((bitLen p - 1 : ℕ) : ℤ) - (bitLen q : ℕ) := by
      omega
    rw [e1, zpow_sub₀ h2, zpow_natCast, zpow_natCast]
    have : (2 : ℚ) ^ (bitLen p - 1) / 2 ^ bitLen q * q < 2 ^ (bitLen p - 1) := by
      rw [div_mul_eq_mul_div, div_lt_iff₀ (by positivity)]
      have : (0 : ℚ) < 2 ^ (bitLen p - 1) := by positivity
      nlinarith
    linarith
  · rw [div_lt_iff₀ hq0]
    have e1 : ((bitLen p : ℤ) - (bitLen q : ℤ) + 1) = ((bitLen p : ℕ) : ℤ) - ((bitLen q - 1 : ℕ) : ℤ) := by
      omega
    rw [e1, zpow_sub₀ h2, zpow_natCast, zpow_natCast]
    have : (2 : ℚ) ^ (bitLen p) ≤ 2 ^ bitLen p / 2 ^ (bitLen q - 1) * q := by
      rw [div_mul_eq_mul_div, le_div_iff₀ (by positivity)]
      have : (0 : ℚ) < 2 ^ (bitLen p) := by positivity
      nlinarith
    linarith

/-- The exponent chosen by `binExp` puts the scaled ratio in the window of a
float64 mantissa. -/
theorem binExp_window (p q : Nat) (hp : 0 < p) (hq : 0 < q) :
    scaleNum p (binExp p q) / scaleDen q (binExp p q) < 2 ^ 53 ∧ -1074 ≤ binExp p q ∧
    (binExp p q = -1074 ∨ 2 ^ 52 ≤ scaleNum p (binExp p q) / scaleDen q (binExp p q)) := by
  obtain ⟨hlo, hhi⟩ := ratio_bounds p q hp hq
  have h2 : (2 : ℚ) ≠ 0 := by norm_num
  have h12 : (1 : ℚ) < 2 := by norm_num
  have hx : (0 : ℚ) < (p : ℚ) / q := by positivity
  unfold binExp
  set t : ℤ := (bitLen p : ℤ) - (bitLen q : ℤ) with ht
  set e1 : ℤ := max (t - 53) (-1074) with he1
  have he1a : t - 53 ≤ e1 := le_max_left _ _
  have he1b : -1074 ≤ e1 := le_max_right _ _
  split
  · rename_i hge
    have hge' := (le_scaled_iff p q e1 hq (2 ^ 53)).mp hge
    refine ⟨?_, by omega, Or.inr ?_⟩
    · have := (scaled_lt_iff p q (e1 + 1) hq (2 ^ 53)).mpr
      apply this
      have h3 : (p : ℚ) / q * 2 ^ (-(e1 + 1)) < 2 ^ (t + 1) * 2 ^ (-(e1 + 1)) := by
        apply mul_lt_mul_of_pos_right hhi
        positivity
      have h4 : (2 : ℚ) ^ (t + 1) * 2 ^ (-(e1 + 1)) ≤ 2 ^ (53 : ℤ) := by
        rw [← zpow_add₀ h2]
        apply zpow_le_zpow_right₀ h12.le
        omega
      have h5 : (2 : ℚ) ^ (53 : ℤ) = ((2 ^ 53 : ℕ) : ℚ) := by norm_num
      rw [← h5]
      exact lt_of_lt_of_le h3 h4
    · apply (le_scaled_iff p q (e1 + 1) hq (2 ^ 52)).mpr
      have h3 : (2 : ℚ) ^ (-(e1 + 1)) = 2 ^ (-e1) / 2 := by
        rw [neg_add, zpow_add₀ h2]
        norm_num
        ring
      rw [h3]
      have h4 : ((2 ^ 53 : ℕ) : ℚ) = 2 * ((2 ^ 52 : ℕ) : ℚ) := by norm_num
      rw [h4] at hge'
      rw [mul_div_assoc'] 
      rw [le_div_iff₀ (by norm_num)]
      linarith
  · rename_i hlt
    have hlt' : scaleNum p e1 / scaleDen q e1 < 2 ^ 53 := by omega
    refine ⟨hlt', he1b, ?_⟩
    by_cases hc : e1 = -1074
    · exact Or.inl hc
    · right
      have he : e1 = t - 53 := by
        rcases max_choice (t - 53) (-1074) with h | h
        · rw [he1, h]
        · exact absurd (by rw [he1, h]) hc
      apply (le_scaled_iff p q e1 hq (2 ^ 52)).mpr
      have h3 : (2 : ℚ) ^ (t - 1) * 2 ^ (-e1) < (p : ℚ) / q * 2 ^ (-e1) := by
        apply mul_lt_mul_of_pos_right hlo
        positivity
      have h4 : (2 : ℚ) ^ (t - 1) * 2 ^ (-e1) = 2 ^ (52 : ℤ) := by
        rw [← zpow_add₀ h2]
        congr 1
        omega
      have h5 : (2 : ℚ) ^ (52 : ℤ) = ((2 ^ 52 : ℕ) : ℚ) := by norm_num
      rw [← h5, ← h4]
      exact h3.le

theorem roundHalfEven_bounds (num den : Nat) :
    num / den ≤ roundHalfEven num den ∧ roundHalfEven num den ≤ num / den + 1 := by
  unfold roundHalfEven
  split
  · omega
  · split
    · omega
    · split <;> omega

theorem roundHalfEven_exact (m den : Nat) (hden : 0 < den) :
    roundHalfEven (m * den) den = m := by
  unfold roundHalfEven
  have h1 : m * den % den = 0 := Nat.mul_mod_left m den
  have h2 : m * den / den = m := Nat.mul_div_cancel m hden
  rw [h1, h2]
  simp [hden]

/-- The finite values that `roundRatio` produces are well-formed. -/
theorem roundRatio_canonical (neg : Bool) (p q : Nat) (hq : 0 < q) :
    (roundRatio neg p q).Canonical := by
  unfold roundRatio
  split
  · simp [Float64.Canonical]
  · rename_i hp
    obtain ⟨h1, h2, h3⟩ := binExp_window p q (by omega) hq
    obtain ⟨h4, h5⟩ := roundHalfEven_bounds (scaleNum p (binExp p q)) (scaleDen q (binExp p q))
    split
    · split
      · trivial
      · simp only [Float64.Canonical]
        refine ⟨by norm_num, by omega, by omega, Or.inr le_rfl⟩
    · rename_i hne
      split
      · trivial
      · simp only [Float64.Canonical]
        refine ⟨by omega, h2, by omega, ?_⟩
        rcases h3 with h | h
        · exact Or.inl h
        · exact Or.inr (by omega)

/-- A ratio that is exactly a float64 rounds to that float64. -/
theorem roundRatio_exact (neg : Bool) (p q m : Nat) (e : Int) (hq : 0 < q) (hm : 0 < m)
    (hc : (Float64.finite neg m e).Canonical)
    (hval : (p : ℚ) / q = (m : ℚ) * (2 : ℚ) ^ e) :
    roundRatio neg p q = .finite neg m e := by
  obtain ⟨hm53, he1, he2, hnorm⟩ := hc
  have h2 : (2 : ℚ) ≠ 0 := by norm_num
  have h12 : (1 : ℚ) < 2 := by norm_num
  have hmq : (0 : ℚ) < m := by exact_mod_cast hm
  have hp : 0 < p := by
    rcases Nat.eq_zero_or_pos p with h | h
    · subst h
      simp at hval
      have : (0 : ℚ) < (m : ℚ) * 2 ^ e := by positivity
      rcases hval with h | h
      · omega
      · exact absurd h (by positivity)
    · exact h
  obtain ⟨hw1, hw2, hw3⟩ := binExp_window p q hp hq
  have hy : ∀ E : ℤ, (p : ℚ) / q * (2 : ℚ) ^ (-E) = (m : ℚ) * 2 ^ (e - E) := by
    intro E
    rw [hval, mul_assoc, ← zpow_add₀ h2]
    rfl
  have hE : binExp p q = e := by
    rcases lt_trichotomy (binExp p q) e with h | h | h
    · exfalso
      have h3 := (scaled_lt_iff p q (binExp p q) hq (2 ^ 53)).mp hw1
      rw [hy] at h3
      have h4 : (2 : ℚ) ^ (1 : ℤ) ≤ 2 ^ (e - binExp p q) :=
        zpow_le_zpow_right₀ h12.le (by omega)
      have h5 : (2 : ℚ) * m ≤ m * 2 ^ (e - binExp p q) := by
        have := mul_le_mul_of_nonneg_left h4 hmq.le
        simpa [mul_comm] using this
      have h6 : (2 : ℚ) * m < ((2 ^ 53 : ℕ) : ℚ) := lt_of_le_of_lt h5 h3
      have h7 : 2 * m < 2 ^ 53 := by exact_mod_cast h6
      rcases hnorm with h8 | h8
      · omega
      · omega
    · exact h
    · exfalso
      rcases hw3 with h3 | h3
      · omega
      · have h4 := (le_scaled_iff p q (binExp p q) hq (2 ^ 52)).mp h3
        rw [hy] at h4
        have h5 : (2 : ℚ) ^ (e - binExp p q) ≤ 2 ^ (-1 : ℤ) :=
          zpow_le_zpow_right₀ h12.le (by omega)
        have h6 : (m : ℚ) * 2 ^ (e - binExp p q) ≤ m * 2 ^ (-1 : ℤ) :=
          mul_le_mul_of_nonneg_left h5 hmq.le
        have h7 : (m : ℚ) < ((2 ^ 53 : ℕ) : ℚ) := by exact_mod_cast hm53
        have h8 : ((2 ^ 53 : ℕ) : ℚ) = 2 * ((2 ^ 52 : ℕ) : ℚ) := by norm_num
        have h9 : (m : ℚ) * 2 ^ (-1 : ℤ) = m / 2 := by
          rw [zpow_neg_one]; ring
        rw [h9] at h6
        rw [h8] at h7
        linarith
  have hnum : scaleNum p e = m * scaleDen q e := by
    have h3 := scale_cast p q e hq
    rw [hy, sub_self, zpow_zero, mul_one] at h3
    have hd : (0 : ℚ) < (scaleDen q e : ℚ) := by exact_mod_cast scaleDen_pos q e hq
    rw [div_eq_iff hd.ne'] at h3
    exact_mod_cast h3
  unfold roundRatio
  rw [hE, hnum, roundHalfEven_exact m _ (scaleDen_pos q e hq)]
  have hp0 : ¬ p = 0 := by omega
  have hm' : ¬ m = 2 ^ 53 := by omega
  have he' : ¬ e > 971 := by omega
  simp only [hp0, hm', he', if_false]

/-! ## Decimals and the shortest digits -/

theorem trimZeros_value (fuel mant : Nat) (exp : Int) :
    ((trimZeros fuel mant exp).1 : ℚ) * (10 : ℚ) ^ (trimZeros fuel mant exp).2 =
      (mant : ℚ) * (10 : ℚ) ^ exp := by
  induction fuel generalizing mant exp with
  | zero => rfl
  | succ fuel ih =>
    rw [trimZeros]
    split
    · rename_i h
      rw [ih]
      have h1 : mant = 10 * (mant / 10) := by omega
      have h2 : (mant : ℚ) = 10 * ((mant / 10 : ℕ) : ℚ) := by exact_mod_cast h1
      rw [h2, zpow_add₀ (by norm_num : (10 : ℚ) ≠ 0)]
      ring
    · rfl

theorem trimZeros_pos (fuel mant : Nat) (exp : Int) (h : 0 < mant) :
    0 < (trimZeros fuel mant exp).1 := by
  induction fuel generalizing mant exp with
  | zero => exact h
  | succ fuel ih =>
    rw [trimZeros]
    split
    · exact ih _ _ (by omega)
    · exact h

theorem trimZeros_mod (fuel mant : Nat) (exp : Int) (h : 0 < mant) (hf : mant ≤ fuel) :
    (trimZeros fuel mant exp).1 % 10 ≠ 0 := by
  induction fuel generalizing mant exp with
  | zero => omega
  | succ fuel ih =>
    rw [trimZeros]
    split
    · exact ih _ _ (by omega) (by omega)
    · rename_i h1
      simp only [ne_eq, not_and_or, not_not] at h1
      rcases h1 with h1 | h1
      · omega
      · exact h1

theorem trimZeros_of_mod (fuel mant : Nat) (exp : Int) (h : mant % 10 ≠ 0) :
    trimZeros fuel mant exp = (mant, exp) := by
  cases fuel with
  | zero => rfl
  | succ fuel =>
    rw [trimZeros]
    simp [h]

theorem trimZeros_mul_pow (fuel mant z : Nat) (exp : Int) (h : mant % 10 ≠ 0) (hf : z ≤ fuel) :
    trimZeros fuel (mant * 10 ^ z) exp = (mant, exp + z) := by
  induction z generalizing fuel exp with
  | zero => simpa using trimZeros_of_mod fuel mant exp h
  | succ z ih =>
    cases fuel with
    | zero => omega
    | succ fuel =>
      rw [trimZeros]
      have h1 : mant * 10 ^ (z + 1) ≠ 0 ∧ mant * 10 ^ (z + 1) % 10 = 0 := by
        constructor
        · have : 0 < mant := by omega
          positivity
        · rw [pow_succ, ← mul_assoc]
          exact Nat.mul_mod_left _ _
      rw [if_pos h1]
      have h2 : mant * 10 ^ (z + 1) / 10 = mant * 10 ^ z := by
        rw [pow_succ, ← mul_assoc]
        exact Nat.mul_div_cancel _ (by norm_num)
      rw [h2, ih fuel (exp + 1) (by omega)]
      congr 1
      push_cast
      ring

theorem Decimal.round_exact (d : Decimal) (m : Nat) (e : Int) (hm : 0 < m)
    (hc : (Float64.finite d.neg m e).Canonical)
    (hval : (d.mant : ℚ) * (10 : ℚ) ^ d.exp = (m : ℚ) * (2 : ℚ) ^ e) :
    d.round = .finite d.neg m e := by
  unfold Decimal.round
  split
  · rename_i h
    apply roundRatio_exact d.neg _ 1 m e (by norm_num) hm hc
    rw [← hval]
    obtain ⟨n, hn⟩ := Int.eq_ofNat_of_zero_le h
    rw [hn]
    simp
  · rename_i h
    have hneg : 0 ≤ -d.exp := by omega
    obtain ⟨n, hn⟩ := Int.eq_ofNat_of_zero_le hneg
    apply roundRatio_exact d.neg _ _ m e (by positivity) hm hc
    rw [← hval, hn]
    have : d.exp = -(n : ℤ) := by omega
    rw [this, zpow_neg, zpow_natCast]
    simp
    rfl

theorem exactDecimal_value (m : Nat) (e : Int) :
    ((exactDecimal m e).1 : ℚ) * (10 : ℚ) ^ (exactDecimal m e).2 = (m : ℚ) * (2 : ℚ) ^ e := by
  unfold exactDecimal
  split
  · rename_i h
    obtain ⟨n, hn⟩ := Int.eq_ofNat_of_zero_le h
    rw [hn]
    simp
  · rename_i h
    have hneg : 0 ≤ -e := by omega
    obtain ⟨n, hn⟩ := Int.eq_ofNat_of_zero_le hneg
    have he : e = -(n : ℤ) := by omega
    simp only [hn, Int.toNat_ofNat]
    rw [he, zpow_neg, zpow_neg, zpow_natCast, zpow_natCast]
    push_cast
    have : (10 : ℚ) ^ n = 2 ^ n * 5 ^ n := by rw [← mul_pow]; norm_num
    rw [this]
    field_simp
    ring

/-- The exact decimal expansion of a float64 reads back as that float64. -/
theorem toFloat64_exactDecimal (neg : Bool) (m : Nat) (e : Int) (hm : 0 < m)
    (hc : (Float64.finite neg m e).Canonical) :
    (Decimal.mk neg (exactDecimal m e).1 (exactDecimal m e).2).toFloat64 = .finite neg m e := by
  unfold Decimal.toFloat64
  apply Decimal.round_exact _ m e hm hc
  simp only [Decimal.trim]
  rw [trimZeros_value, exactDecimal_value]

theorem shortestSearch_toFloat64 (neg : Bool) (m : Nat) (e : Int) (g : Nat) (j : Int) (k : Nat)
    (h : (Decimal.mk neg g j).toFloat64 = .finite neg m e) :
    (Decimal.mk neg (shortestSearch neg m e g j k).1 (shortestSearch neg m e g j k).2).toFloat64
      = .finite neg m e := by
  induction k with
  | zero => exact h
  | succ k ih =>
    rw [shortestSearch]
    split
    · rename_i c hc
      have := List.find?_some hc
      simpa using this
    · exact ih

/-- The shortest decimal of a float64 reads back as that float64. -/
theorem shortest_round (neg : Bool) (m : Nat) (e : Int) (hm : 0 < m)
    (hc : (Float64.finite neg m e).Canonical) :
    (shortest neg m e).round = .finite neg m e := by
  unfold shortest
  exact shortestSearch_toFloat64 neg m e _ _ _ (toFloat64_exactDecimal neg m e hm hc)

/-! ## Decimal text of numbers -/

theorem formatUintAux_acc (fuel n : Nat) (acc : List Nat) :
    formatUintAux fuel n acc = formatUintAux fuel n [] ++ acc := by
  induction fuel generalizing n acc with
  | zero => simp [formatUintAux]
  | succ fuel ih =>
    rw [formatUintAux, formatUintAux]
    split
    · simp
    · rw [ih, ih (n / 10) [48 + n % 10]]
      simp

theorem formatUintAux_fuel (fuel n : Nat) (acc : List Nat) (h : n < fuel) :
    formatUintAux fuel n acc = formatUintAux (n + 1) n acc := by
  induction fuel using Nat.strong_induction_on generalizing n acc with
  | _ fuel ih =>
    cases fuel with
    | zero => omega
    | succ fuel =>
      rw [formatUintAux, formatUintAux]
      split
      · rfl
      · rename_i h10
        have h1 : n / 10 < fuel := by omega
        have h2 : n / 10 < n := by omega
        rw [ih fuel (by omega) (n / 10) _ h1, ih n (by omega) (n / 10) _ h2]

theorem FormatUint_lt (n : Nat) (h : n < 10) : strconv.FormatUint n = [48 + n] := by
  unfold strconv.FormatUint
  rw [formatUintAux]
  simp [h]

theorem FormatUint_ge (n : Nat) (h : 10 ≤ n) :
    strconv.FormatUint n = strconv.FormatUint (n / 10) ++ [48 + n % 10] := by
  unfold strconv.FormatUint
  rw [formatUintAux]
  have : ¬ n < 10 := by omega
  simp only [this, if_false]
  rw [formatUintAux_acc, formatUintAux_fuel n (n / 10) [] (by omega)]

theorem digitsVal_append_singleton (ds : List Nat) (c : Nat) :
    digitsVal (ds ++ [c]) = digitsVal ds * 10 + (c - 48) := by
  simp [digitsVal, List.foldl_append]

theorem digitsVal_foldl (ds : List Nat) (n : Nat) :
    ds.foldl (fun n c => n * 10 + (c - 48)) n = n * 10 ^ ds.length + digitsVal ds := by
  induction ds generalizing n with
  | nil => simp [digitsVal]
  | cons c ds ih =>
    simp only [List.foldl_cons, List.length_cons, digitsVal]
    rw [ih, ih (0 * 10 + (c - 48))]
    ring

theorem digitsVal_append (a b : List Nat) :
    digitsVal (a ++ b) = digitsVal a * 10 ^ b.length + digitsVal b := by
  simp only [digitsVal, List.foldl_append]
  rw [digitsVal_foldl]
  rfl

theorem digitsVal_cons (c : Nat) (ds : List Nat) :
    digitsVal (c :: ds) = (c - 48) * 10 ^ ds.length + digitsVal ds := by
  have := digitsVal_append [c] ds
  simpa [digitsVal] using this

theorem digitsVal_replicate_zero (z : Nat) : digitsVal (List.replicate z 48) = 0 := by
  induction z with
  | zero => rfl
  | succ z ih =>
    rw [List.replicate_succ, digitsVal_cons, ih]
    simp

/-- The decimal text of a number: digits that give the number back, the
first of them not `0` unless the number is zero. -/
theorem FormatUint_spec (n : Nat) :
    (∀ c ∈ strconv.FormatUint n, isDigit c = true) ∧
    digitsVal (strconv.FormatUint n) = n ∧
    (∃ c ds, strconv.FormatUint n = c :: ds ∧ (0 < n → 49 ≤ c)) ∧
    (0 < n → 10 ^ ((strconv.FormatUint n).length - 1) ≤ n) ∧
    n < 10 ^ (strconv.FormatUint n).length := by
  induction n using Nat.strong_induction_on with
  | _ n ih =>
    by_cases h : n < 10
    · rw [FormatUint_lt n h]
      refine ⟨?_, ?_, ⟨48 + n, [], rfl, by omega⟩, ?_, ?_⟩
      · intro c hc
        simp only [List.mem_singleton] at hc
        subst hc
        simp [isDigit]
        omega
      · simp [digitsVal]
      · intro _; simp; omega
      · simpa using h
    · have h10 : 10 ≤ n := by omega
      obtain ⟨h1, h2, ⟨c, ds, h3, h4⟩, h5, h6⟩ := ih (n / 10) (by omega)
      rw [FormatUint_ge n h10]
      refine ⟨?_, ?_, ⟨c, ds ++ [48 + n % 10], by rw [h3]; rfl, fun _ => h4 (by omega)⟩, ?_, ?_⟩
      · intro x hx
        rcases List.mem_append.mp hx with hx | hx
        · exact h1 x hx
        · simp only [List.mem_singleton] at hx
          subst hx
          simp [isDigit]
          omega
      · rw [digitsVal_append_singleton, h2]
        omega
      · intro _
        have h7 := h5 (by omega)
        simp only [List.length_append, List.length_singleton, Nat.add_sub_cancel]
        have hlen : 0 < (strconv.FormatUint (n / 10)).length := by rw [h3]; simp
        have : (strconv.FormatUint (n / 10)).length =
            ((strconv.FormatUint (n / 10)).length - 1) + 1 := by omega
        rw [this, pow_succ]
        omega
      · simp only [List.length_append, List.length_singleton]
        rw [pow_succ]
        omega

theorem parseUintLoop_complete (cs : List Nat) (n : Nat)
    (hd : ∀ c ∈ cs, isDigit c = true)
    (hmax : cs.foldl (fun n c => n * 10 + (c - 48)) n ≤ maxUint64) :
    parseUintLoop cs n = .ok (cs.foldl (fun n c => n * 10 + (c - 48)) n) := by
  induction cs generalizing n with
  | nil => rfl
  | cons c cs ih =>
    have hc := hd c (List.mem_cons_self _ _)
    simp only [isDigit, Bool.and_eq_true, decide_eq_true_eq] at hc
    simp only [List.foldl_cons] at hmax ⊢
    have hmono : n * 10 + (c - 48) ≤ cs.foldl (fun n c => n * 10 + (c - 48)) (n * 10 + (c - 48)) := by
      rw [digitsVal_foldl]
      have : 1 ≤ 10 ^ cs.length := Nat.one_le_pow _ _ (by norm_num)
      nlinarith
    simp only [maxUint64] at hmax hmono
    rw [parseUintLoop]
    have h1 : ¬ n ≥ maxUint64 / 10 + 1 := by simp only [maxUint64]; omega
    have h10 : (n * 10) % 2 ^ 64 = n * 10 := Nat.mod_eq_of_lt (by omega)
    have h11 : (n * 10 + (c - 48)) % 2 ^ 64 = n * 10 + (c - 48) := Nat.mod_eq_of_lt (by omega)
    simp only [hc, and_self, if_true, h1, if_false, h10, h11]
    have h2 : ¬ (n * 10 + (c - 48) < n * 10 ∨ n * 10 + (c - 48) > maxUint64) := by
      simp only [maxUint64]; omega
    simp only [h2, if_false]
    exact ih _ (fun x hx => hd x (List.mem_cons_of_mem _ hx)) (by simpa [maxUint64] using hmax)

/-- A uint64 written by `FormatUint` is read back by `ParseUint`. -/
theorem ParseUint_FormatUint (n : Nat) (h : n ≤ maxUint64) :
    strconv.ParseUint (strconv.FormatUint n) = .ok n := by
  obtain ⟨h1, h2, ⟨c, ds, h3, _⟩, _, _⟩ := FormatUint_spec n
  unfold strconv.ParseUint
  have hne : strconv.FormatUint n ≠ [] := by rw [h3]; simp
  simp only [hne, if_false]
  have h4 : (strconv.FormatUint n).foldl (fun n c => n * 10 + (c - 48)) 0 = n := h2
  have := parseUintLoop_complete (strconv.FormatUint n) 0 h1 (by rw [h4]; exact h)
  rw [this, h4]

/-! ## Number texts under the scanner and `readFloat` -/

theorem spanDigits_append (ds tl : List Nat) (hd : ∀ c ∈ ds, isDigit c = true)
    (ht : noDigitHead tl) : spanDigits (ds ++ tl) = (ds, tl) := by
  induction ds with
  | nil =>
    cases tl with
    | nil => rfl
    | cons c tl =>
      simp only [noDigitHead] at ht
      simp [spanDigits, ht]
  | cons c ds ih =>
    have hc := hd c (List.mem_cons_self _ _)
    have := ih (fun x hx => hd x (List.mem_cons_of_mem _ hx))
    simp [spanDigits, hc, this]

theorem spanDigits_all (ds : List Nat) (hd : ∀ c ∈ ds, isDigit c = true) :
    spanDigits ds = (ds, []) := by
  have := spanDigits_append ds [] hd trivial
  simpa using this

theorem noDigitHead_expText (ex : Option (Bool × List Nat)) (rest : List Nat) :
    noDigitHead (expText ex ++ 44 :: rest) := by
  cases ex with
  | none => simp [expText, noDigitHead, isDigit]
  | some p => obtain ⟨neg, xd⟩ := p; simp [expText, noDigitHead, isDigit]

theorem noDigitHead_fracText (fd : List Nat) (ex : Option (Bool × List Nat)) (rest : List Nat) :
    noDigitHead (fracText fd ++ (expText ex ++ 44 :: rest)) := by
  cases fd with
  | nil => exact noDigitHead_expText ex rest
  | cons c fd => simp [fracText, noDigitHead, isDigit]

theorem scanInt_intDigits (ip tl : List Nat) (hip : IntDigits ip) (ht : noDigitHead tl) :
    scanInt (ip ++ tl) = some (ip, tl) := by
  rcases hip with rfl | ⟨c, ds, rfl, h1, h2, h3⟩
  · simp [scanInt]
  · have hc : ¬ c = 48 := by omega
    simp only [List.cons_append, scanInt, hc, if_false, h1, h2, and_self, if_true]
    rw [spanDigits_append ds tl h3 ht]

theorem scanExp_expText (ex : Option (Bool × List Nat)) (rest : List Nat) (hex : ExpDigits ex) :
    scanExp (expText ex ++ 44 :: rest) = some (expText ex, 44 :: rest) := by
  cases ex with
  | none => simp [expText, scanExp]
  | some p =>
    obtain ⟨neg, xd⟩ := p
    obtain ⟨hne, hd⟩ := hex
    have hs := spanDigits_append xd (44 :: rest) hd (by simp [noDigitHead, isDigit])
    obtain ⟨x, xs, rfl⟩ := List.exists_cons_of_ne_nil hne
    cases neg <;> simp [expText, scanExp, scanExpDigits] <;> rw [← List.cons_append, hs]

theorem scanFrac_fracText (fd tl : List Nat) (hd : ∀ x ∈ fd, isDigit x = true)
    (ht : noDigitHead tl) (h46 : ∀ r, tl ≠ 46 :: r) :
    scanFrac (fracText fd ++ tl) = some (fracText fd, tl) := by
  cases fd with
  | nil =>
    simp only [fracText, List.nil_append]
    unfold scanFrac
    split
    · exact (h46 _ rfl).elim
    · rfl
  | cons c fd =>
    have hs := spanDigits_append (c :: fd) tl hd ht
    simp only [fracText, List.cons_append, scanFrac]
    rw [← List.cons_append, hs]

theorem scanSign_numText (neg : Bool) (ip tl : List Nat) (hip : IntDigits ip) :
    scanSign ((if neg then [45] else []) ++ (ip ++ tl)) = ((if neg then [45] else []), ip ++ tl) := by
  cases neg
  · rcases hip with rfl | ⟨c, ds, rfl, hc1, hc2, _⟩
    · simp [scanSign]
    · simp only [Bool.false_eq_true, if_false, List.nil_append, List.cons_append]
      unfold scanSign
      split
      · rename_i heq
        simp only [List.cons.injEq] at heq
        omega
      · rfl
  · simp [scanSign]

/-- The scanner takes a number text whole when a comma follows it. -/
theorem scanNumber_numText (neg : Bool) (ip fd : List Nat) (ex : Option (Bool × List Nat))
    (rest : List Nat) (hip : IntDigits ip) (hfd : ∀ x ∈ fd, isDigit x = true)
    (hex : ExpDigits ex) :
    scanNumber (numText neg ip fd ex ++ 44 :: rest) = some (numText neg ip fd ex, 44 :: rest) := by
  have h1 := scanInt_intDigits ip (fracText fd ++ (expText ex ++ 44 :: rest)) hip
    (noDigitHead_fracText fd ex rest)
  have h2 := scanFrac_fracText fd (expText ex ++ 44 :: rest) hfd (noDigitHead_expText ex rest)
    (by
      intro r
      cases ex with
      | none => simp [expText]
      | some p => obtain ⟨n, xd⟩ := p; simp [expText])
  have h3 := scanExp_expText ex rest hex
  have h0 : numText neg ip fd ex ++ 44 :: rest =
      (if neg then [45] else []) ++ (ip ++ (fracText fd ++ (expText ex ++ 44 :: rest))) := by
    simp [numText]
  unfold scanNumber
  rw [h0, scanSign_numText neg ip _ hip]
  simp only [h1, h2, h3]
  simp [numText]

theorem IntDigits.isDigit {ip : List Nat} (hip : IntDigits ip) : ∀ x ∈ ip, isDigit x = true := by
  rcases hip with rfl | ⟨c, ds, rfl, h1, h2, h3⟩
  · intro x hx
    simp only [List.mem_singleton] at hx
    subst hx
    rfl
  · intro x hx
    rcases List.mem_cons.mp hx with rfl | hx
    · simp [Payment.isDigit]; omega
    · exact h3 x hx

theorem IntDigits.ne_nil {ip : List Nat} (hip : IntDigits ip) : ip ≠ [] := by
  rcases hip with rfl | ⟨c, ds, rfl, _⟩ <;> simp

theorem noDigitHead_expText_end (ex : Option (Bool × List Nat)) : noDigitHead (expText ex) := by
  cases ex with
  | none => simp [expText, noDigitHead]
  | some p => obtain ⟨neg, xd⟩ := p; simp [expText, noDigitHead, Payment.isDigit]

theorem noDigitHead_fracText_end (fd : List Nat) (ex : Option (Bool × List Nat)) :
    noDigitHead (fracText fd ++ expText ex) := by
  cases fd with
  | nil => exact noDigitHead_expText_end ex
  | cons c fd => simp [fracText, noDigitHead, Payment.isDigit]

theorem readSign_numText (neg : Bool) (ip tl : List Nat) (hip : IntDigits ip) :
    readSign ((if neg then [45] else []) ++ (ip ++ tl)) = (neg, ip ++ tl) := by
  cases neg
  · rcases hip with rfl | ⟨c, ds, rfl, hc1, hc2, _⟩
    · simp [readSign]
    · simp only [Bool.false_eq_true, if_false, List.nil_append, List.cons_append]
      unfold readSign
      split
      · rename_i heq
        simp only [List.cons.injEq] at heq
        omega
      · rename_i heq
        simp only [List.cons.injEq] at heq
        omega
      · rfl
  · simp [readSign]

theorem readFrac_fracText (fd : List Nat) (ex : Option (Bool × List Nat))
    (hfd : ∀ x ∈ fd, isDigit x = true) :
    readFrac (fracText fd ++ expText ex) = (fd, expText ex) := by
  cases fd with
  | nil =>
    cases ex with
    | none => simp [fracText, expText, readFrac]
    | some p => obtain ⟨n, xd⟩ := p; simp [fracText, expText, readFrac]
  | cons c fd =>
    simp only [fracText, List.cons_append, readFrac]
    rw [← List.cons_append]
    exact spanDigits_append (c :: fd) (expText ex) hfd (noDigitHead_expText_end ex)

theorem readExp_expText (ex : Option (Bool × List Nat)) (hex : ExpDigits ex) :
    readExp (expText ex) = some (expOf ex) := by
  cases ex with
  | none => rfl
  | some p =>
    obtain ⟨neg, xd⟩ := p
    obtain ⟨hne, hd⟩ := hex
    have hs := spanDigits_all xd hd
    cases neg <;> simp [expText, readExp, expOf, hs, hne]

/-- The decimal `readFloat` reads from a number text. -/
theorem readFloat_numText (neg : Bool) (ip fd : List Nat) (ex : Option (Bool × List Nat))
    (hip : IntDigits ip) (hfd : ∀ x ∈ fd, isDigit x = true) (hex : ExpDigits ex) :
    readFloat (numText neg ip fd ex) =
      some { neg := neg, mant := digitsVal (ip ++ fd), exp := expOf ex - (fd.length : Int) } := by
  have h1 := readSign_numText neg ip (fracText fd ++ expText ex) hip
  have h2 := spanDigits_append ip (fracText fd ++ expText ex) hip.isDigit
    (noDigitHead_fracText_end fd ex)
  have h3 := readFrac_fracText fd ex hfd
  have h4 := readExp_expText ex hex
  unfold readFloat
  simp only [numText, h1, h2, h3, h4]
  simp [hip.ne_nil]

/-! ## The range of the shortest digits -/

theorem roundHalfEven_pos (num den : Nat) (hden : 0 < den) (h : 0 < roundHalfEven num den) :
    den ≤ 2 * num := by
  unfold roundHalfEven at h
  have h1 := Nat.mod_le num den
  split at h
  · have : 0 < num / den := h
    have := (Nat.le_div_iff_mul_le hden).mp this
    omega
  · omega

/-- A ratio that rounds to a non-zero finite float64 lies between half the
least and the largest magnitude. -/
theorem roundRatio_finite_bounds (neg neg1 : Bool) (p q m : Nat) (e : Int) (hq : 0 < q)
    (hm : 0 < m) (h : roundRatio neg p q = .finite neg1 m e) :
    (2 : ℚ) ^ (-1075 : ℤ) ≤ (p : ℚ) / q ∧ (p : ℚ) / q < (2 : ℚ) ^ (1024 : ℤ) := by
  have h2 : (2 : ℚ) ≠ 0 := by norm_num
  have h12 : (1 : ℚ) < 2 := by norm_num
  unfold roundRatio at h
  split at h
  · simp only [Float64.finite.injEq] at h
    omega
  · rename_i hp
    obtain ⟨hw1, hw2, hw3⟩ := binExp_window p q (by omega) hq
    have hE : binExp p q ≤ 971 ∧
        0 < roundHalfEven (scaleNum p (binExp p q)) (scaleDen q (binExp p q)) := by
      split at h
      · rename_i h53
        split at h
        · cases h
        · rw [h53]
          exact ⟨by omega, by norm_num⟩
      · split at h
        · cases h
        · simp only [Float64.finite.injEq] at h
          rw [h.2.1]
          exact ⟨by omega, hm⟩
    obtain ⟨hE1, hE2⟩ := hE
    have hden := scaleDen_pos q (binExp p q) hq
    have hpos := roundHalfEven_pos _ _ hden hE2
    have hy := (scaled_lt_iff p q (binExp p q) hq (2 ^ 53)).mp hw1
    have hc := scale_cast p q (binExp p q) hq
    have hdq : (0 : ℚ) < (scaleDen q (binExp p q) : ℚ) := by exact_mod_cast hden
    have hhalf : (1 : ℚ) / 2 ≤ (p : ℚ) / q * 2 ^ (-binExp p q) := by
      rw [← hc, le_div_iff₀ hdq]
      have : ((scaleDen q (binExp p q) : ℕ) : ℚ) ≤ 2 * (scaleNum p (binExp p q) : ℕ) := by
        exact_mod_cast hpos
      linarith
    have hpw : (0 : ℚ) < 2 ^ (binExp p q) := by positivity
    have hx : (p : ℚ) / q = (p : ℚ) / q * 2 ^ (-binExp p q) * 2 ^ (binExp p q) := by
      rw [mul_assoc, ← zpow_add₀ h2]
      simp
    constructor
    · rw [hx]
      have h3 : (2 : ℚ) ^ (-1075 : ℤ) ≤ 1 / 2 * 2 ^ (binExp p q) := by
        have : (1 : ℚ) / 2 = 2 ^ (-1 : ℤ) := by norm_num
        rw [this, ← zpow_add₀ h2]
        exact zpow_le_zpow_right₀ h12.le (by omega)
      have h4 : (1 : ℚ) / 2 * 2 ^ (binExp p q) ≤
          (p : ℚ) / q * 2 ^ (-binExp p q) * 2 ^ (binExp p q) :=
        mul_le_mul_of_nonneg_right hhalf hpw.le
      exact le_trans h3 h4
    · rw [hx]
      have h3 : (p : ℚ) / q * 2 ^ (-binExp p q) * 2 ^ (binExp p q) <
          ((2 ^ 53 : ℕ) : ℚ) * 2 ^ (binExp p q) :=
        mul_lt_mul_of_pos_right hy hpw
      have h4 : ((2 ^ 53 : ℕ) : ℚ) * 2 ^ (binExp p q) ≤ 2 ^ (1024 : ℤ) := by
        have : ((2 ^ 53 : ℕ) : ℚ) = 2 ^ (53 : ℤ) := by norm_num
        rw [this, ← zpow_add₀ h2]
        exact zpow_le_zpow_right₀ h12.le (by omega)
      exact lt_of_lt_of_le h3 h4

theorem Decimal.round_bounds (d : Decimal) (neg1 : Bool) (m : Nat) (e : Int) (hm : 0 < m)
    (h : d.round = .finite neg1 m e) :
    0 < d.mant ∧ (2 : ℚ) ^ (-1075 : ℤ) ≤ (d.mant : ℚ) * (10 : ℚ) ^ d.exp ∧
    (d.mant : ℚ) * (10 : ℚ) ^ d.exp < (2 : ℚ) ^ (1024 : ℤ) := by
  unfold Decimal.round at h
  split at h
  · rename_i hexp
    obtain ⟨n, hn⟩ := Int.eq_ofNat_of_zero_le hexp
    have := roundRatio_finite_bounds _ _ _ 1 m e (by norm_num) hm h
    rw [hn] at this ⊢
    simp only [Int.toNat_ofNat, Nat.cast_mul, Nat.cast_pow, Nat.cast_ofNat, Nat.cast_one, div_one]
      at this
    rw [zpow_natCast]
    refine ⟨?_, this⟩
    rcases Nat.eq_zero_or_pos d.mant with h0 | h0
    · rw [h0] at this
      simp only [Nat.cast_zero, zero_mul] at this
      have : (0 : ℚ) < 2 ^ (-1075 : ℤ) := by positivity
      linarith
    · exact h0
  · rename_i hexp
    have hneg : 0 ≤ -d.exp := by omega
    obtain ⟨n, hn⟩ := Int.eq_ofNat_of_zero_le hneg
    have := roundRatio_finite_bounds _ _ _ _ m e (by positivity) hm h
    have he : d.exp = -(n : ℤ) := by omega
    rw [hn] at this
    simp only [Int.toNat_ofNat, Nat.cast_pow, Nat.cast_ofNat] at this
    have hv : (d.mant : ℚ) * (10 : ℚ) ^ d.exp = (d.mant : ℚ) / 10 ^ n := by
      rw [he, zpow_neg, zpow_natCast, div_eq_mul_inv]
    rw [hv]
    refine ⟨?_, this⟩
    rcases Nat.eq_zero_or_pos d.mant with h0 | h0
    · rw [h0] at this
      simp only [Nat.cast_zero, zero_div] at this
      have : (0 : ℚ) < 2 ^ (-1075 : ℤ) := by positivity
      linarith
    · exact h0

theorem two_pow_1024_le : (2 : ℚ) ^ (1024 : ℤ) ≤ (10 : ℚ) ^ (400 : ℤ) := by
  have h1 : (2 : ℚ) ^ (256 : ℕ) ≤ (10 : ℚ) ^ (100 : ℕ) := by norm_num
  have h2 : ((2 : ℚ) ^ (256 : ℕ)) ^ (4 : ℕ) ≤ ((10 : ℚ) ^ (100 : ℕ)) ^ (4 : ℕ) :=
    pow_le_pow_left₀ (by positivity) h1 4
  rw [← pow_mul, ← pow_mul] at h2
  have e1 : (2 : ℚ) ^ (1024 : ℤ) = (2 : ℚ) ^ (256 * 4 : ℕ) := by
    rw [← zpow_natCast]; rfl
  have e2 : (10 : ℚ) ^ (400 : ℤ) = (10 : ℚ) ^ (100 * 4 : ℕ) := by
    rw [← zpow_natCast]; rfl
  rw [e1, e2]
  exact h2

theorem ten_pow_neg_400_lt : (10 : ℚ) ^ (-400 : ℤ) < (2 : ℚ) ^ (-1075 : ℤ) := by
  have h1 : (2 : ℚ) ^ (215 : ℕ) < (10 : ℚ) ^ (80 : ℕ) := by norm_num
  have h2 : ((2 : ℚ) ^ (215 : ℕ)) ^ (5 : ℕ) < ((10 : ℚ) ^ (80 : ℕ)) ^ (5 : ℕ) :=
    pow_lt_pow_left₀ h1 (by positivity) (by norm_num)
  rw [← pow_mul, ← pow_mul] at h2
  have e1 : (2 : ℚ) ^ (-1075 : ℤ) = ((2 : ℚ) ^ (215 * 5 : ℕ))⁻¹ := by
    rw [← zpow_natCast, ← zpow_neg]; rfl
  have e2 : (10 : ℚ) ^ (-400 : ℤ) = ((10 : ℚ) ^ (80 * 5 : ℕ))⁻¹ := by
    rw [← zpow_natCast, ← zpow_neg]; rfl
  rw [e1, e2]
  exact inv_strictAnti₀ (by positivity) h2

theorem trimZeros_zero (fuel : Nat) (exp : Int) : (trimZeros fuel 0 exp).1 = 0 := by
  cases fuel <;> simp [trimZeros]

theorem shortest_neg (neg : Bool) (m : Nat) (e : Int) : (shortest neg m e).neg = neg := rfl

/-- The shortest decimal of a non-zero float64: its digits are not zero and
do not end in `0`, and its decimal point lies within the range of float64. -/
theorem shortest_spec (neg : Bool) (m : Nat) (e : Int) (hm : 0 < m)
    (hc : (Float64.finite neg m e).Canonical) :
    0 < (shortest neg m e).mant ∧ (shortest neg m e).mant % 10 ≠ 0 ∧
    -400 < (shortest neg m e).exp + ((strconv.FormatUint (shortest neg m e).mant).length : Int) ∧
    (shortest neg m e).exp + ((strconv.FormatUint (shortest neg m e).mant).length : Int) ≤ 400 := by
  have hr := shortest_round neg m e hm hc
  obtain ⟨hpos, hlo, hhi⟩ := Decimal.round_bounds _ _ m e hm hr
  have h10 : (1 : ℚ) < 10 := by norm_num
  have h100 : (10 : ℚ) ≠ 0 := by norm_num
  refine ⟨hpos, ?_, ?_, ?_⟩
  · have hs : shortest neg m e = (Decimal.mk neg
        (shortestSearch neg m e (exactDecimal m e).1 (exactDecimal m e).2
          ((strconv.FormatUint (exactDecimal m e).1).length - 1)).1
        (shortestSearch neg m e (exactDecimal m e).1 (exactDecimal m e).2
          ((strconv.FormatUint (exactDecimal m e).1).length - 1)).2).trim := rfl
    rw [hs] at hpos ⊢
    simp only [Decimal.trim] at hpos ⊢
    apply trimZeros_mod _ _ _ _ le_rfl
    by_contra h0
    have h1 : (shortestSearch neg m e (exactDecimal m e).1 (exactDecimal m e).2
          ((strconv.FormatUint (exactDecimal m e).1).length - 1)).1 = 0 := by omega
    rw [h1, trimZeros_zero] at hpos
    omega
  · obtain ⟨_, _, _, _, hlt⟩ := FormatUint_spec (shortest neg m e).mant
    set nd := (strconv.FormatUint (shortest neg m e).mant).length
    have h1 : ((shortest neg m e).mant : ℚ) < (10 : ℚ) ^ (nd : ℤ) := by
      rw [zpow_natCast]
      exact_mod_cast hlt
    have h2 : ((shortest neg m e).mant : ℚ) * (10 : ℚ) ^ (shortest neg m e).exp <
        (10 : ℚ) ^ ((shortest neg m e).exp + (nd : ℤ)) := by
      rw [zpow_add₀ h100, mul_comm]
      exact mul_lt_mul_of_pos_left h1 (by positivity)
    have h3 := lt_of_lt_of_le ten_pow_neg_400_lt (le_trans hlo h2.le)
    exact (zpow_lt_zpow_iff_right₀ h10).mp h3
  · obtain ⟨_, _, _, hge, _⟩ := FormatUint_spec (shortest neg m e).mant
    have hge := hge hpos
    set nd := (strconv.FormatUint (shortest neg m e).mant).length
    have h1 : (10 : ℚ) ^ (((nd - 1 : ℕ) : ℤ)) ≤ ((shortest neg m e).mant : ℚ) := by
      rw [zpow_natCast]
      exact_mod_cast hge
    have h2 : (10 : ℚ) ^ ((shortest neg m e).exp + ((nd - 1 : ℕ) : ℤ)) ≤
        ((shortest neg m e).mant : ℚ) * (10 : ℚ) ^ (shortest neg m e).exp := by
      rw [zpow_add₀ h100, mul_comm]
      exact mul_le_mul_of_nonneg_right h1 (by positivity)
    have h3 := lt_of_le_of_lt h2 (lt_of_lt_of_le hhi two_pow_1024_le)
    have h4 := (zpow_lt_zpow_iff_right₀ h10).mp h3
    omega

/-! ## The text of a float64 -/

theorem fracText_of_ne_nil (l : List Nat) (h : l ≠ []) : fracText l = 46 :: l := by
  cases l with
  | nil => exact absurd rfl h
  | cons c l => rfl

/-- The exponent of `%e` after the clean-up of the encoder: the digits of
the exponent without a leading zero. -/
theorem cleanExp_expDigits (front : List Nat) (sg x : Nat) (hsg : sg = 43 ∨ sg = 45)
    (hx : x < 1000) :
    ∃ xd, xd ≠ [] ∧ (∀ c ∈ xd, isDigit c = true) ∧ expVal xd = x ∧
      cleanExp (front ++ 101 :: sg :: expDigits x) = front ++ 101 :: sg :: xd := by
  by_cases h10 : x < 10
  · refine ⟨[48 + x], by simp, ?_, ?_, ?_⟩
    · intro c hc
      simp only [List.mem_singleton] at hc
      subst hc
      simp [isDigit]; omega
    · simp [expVal]
    · simp only [expDigits, h10, if_true, cleanExp, List.reverse_append, List.reverse_cons,
        List.reverse_nil, List.nil_append, List.cons_append, List.append_assoc,
        List.singleton_append]
      simp
      omega
  · by_cases h100 : x < 100
    · refine ⟨[48 + x / 10, 48 + x % 10], by simp, ?_, ?_, ?_⟩
      · intro c hc
        simp only [List.mem_cons, List.mem_singleton, List.not_mem_nil, or_false] at hc
        rcases hc with rfl | rfl <;> simp [isDigit] <;> omega
      · simp [expVal]
        have : x / 10 < 10000 := by omega
        simp [this]
        omega
      · simp only [expDigits, h10, h100, if_true, if_false, cleanExp, List.reverse_append,
          List.reverse_cons, List.reverse_nil, List.nil_append, List.cons_append,
          List.append_assoc, List.singleton_append]
        split
        · rename_i heq
          simp only [List.cons.injEq] at heq
          omega
        · rfl
    · refine ⟨[48 + x / 100, 48 + x / 10 % 10, 48 + x % 10], by simp, ?_, ?_, ?_⟩
      · intro c hc
        simp only [List.mem_cons, List.mem_singleton, List.not_mem_nil, or_false] at hc
        rcases hc with rfl | rfl | rfl <;> simp [isDigit] <;> omega
      · simp [expVal]
        have h1 : x / 100 < 10000 := by omega
        have h2 : x / 100 * 10 + x / 10 % 10 < 10000 := by omega
        simp [h1, h2]
        omega
      · simp only [expDigits, h10, h100, if_true, if_false, cleanExp, List.reverse_append,
          List.reverse_cons, List.reverse_nil, List.nil_append, List.cons_append,
          List.append_assoc, List.singleton_append]
        split
        · rename_i heq
          simp only [List.cons.injEq] at heq
          omega
        · rfl

/-- The text of `%e`, cleaned up, as a number text. -/
theorem cleanExp_fmtE (neg : Bool) (c : Nat) (cs : List Nat) (dp : Int)
    (hdp : -1000 < dp - 1 ∧ dp - 1 < 1000) :
    ∃ xd, xd ≠ [] ∧ (∀ x ∈ xd, isDigit x = true) ∧ (expVal xd : Int) = |dp - 1| ∧
      cleanExp (fmtE neg { d := c :: cs, dp := dp }) =
        numText neg [c] cs (some (decide (dp - 1 < 0), xd)) := by
  have hfront : ∀ tl : List Nat,
      fmtE neg { d := c :: cs, dp := dp } =
        ((if neg then [45] else []) ++ ([c] ++ fracText cs)) ++
          (if dp - 1 < 0 then 101 :: 45 :: expDigits (-(dp - 1)).toNat
           else 101 :: 43 :: expDigits (dp - 1).toNat) := by
    intro _
    cases cs with
    | nil => simp [fmtE, fracText]; split <;> simp
    | cons c1 cs => simp [fmtE, fracText]; split <;> simp
  rw [hfront []]
  by_cases hneg : dp - 1 < 0
  · obtain ⟨xd, h1, h2, h3, h4⟩ := cleanExp_expDigits
      ((if neg then [45] else []) ++ ([c] ++ fracText cs)) 45 (-(dp - 1)).toNat (Or.inr rfl)
      (by omega)
    refine ⟨xd, h1, h2, ?_, ?_⟩
    · rw [h3, abs_of_neg hneg]; omega
    · simp only [hneg, if_true, h4, numText, expText, decide_True]
      simp
  · obtain ⟨xd, h1, h2, h3, h4⟩ := cleanExp_expDigits
      ((if neg then [45] else []) ++ ([c] ++ fracText cs)) 43 (dp - 1).toNat (Or.inl rfl)
      (by omega)
    refine ⟨xd, h1, h2, ?_, ?_⟩
    · rw [h3, abs_of_nonneg (by omega)]; omega
    · simp only [hneg, if_false, h4, numText, expText, decide_False]
      simp

/-- The text of `%f` as a number text, by the place of the decimal point. -/
theorem fmtF_numText (neg : Bool) (d : List Nat) (dp : Int) (hd : d ≠ []) :
    fmtF neg { d := d, dp := dp } =
      if dp ≤ 0 then numText neg [48] (List.replicate (-dp).toNat 48 ++ d) none
      else if dp < (d.length : Int) then numText neg (d.take dp.toNat) (d.drop dp.toNat) none
      else numText neg (d ++ List.replicate (dp.toNat - d.length) 48) [] none := by
  have hlen : 0 < d.length := List.length_pos.mpr hd
  by_cases h0 : dp ≤ 0
  · have h1 : ¬ 0 < dp := by omega
    have h2 : dp < (d.length : Int) := by omega
    have h3 : dp.toNat = 0 := by omega
    have h4 : List.replicate (-dp).toNat 48 ++ d ≠ [] := by simp [hd]
    simp only [fmtF, h1, h2, h3, h0, if_true, if_false, numText, expText, List.drop_zero,
      fracText_of_ne_nil _ h4]
    simp
  · have h1 : 0 < dp := by omega
    by_cases h2 : dp < (d.length : Int)
    · have h3 : dp.toNat - d.length = 0 := by omega
      have h4 : (-dp).toNat = 0 := by omega
      have h5 : d.drop dp.toNat ≠ [] := by
        intro h
        have := congrArg List.length h
        simp only [List.length_drop, List.length_nil] at this
        omega
      simp only [fmtF, h0, h1, h2, h3, h4, if_true, if_false, numText, expText,
        List.replicate_zero, List.append_nil, List.nil_append, fracText_of_ne_nil _ h5,
        List.append_assoc]
    · have h3 : d.take dp.toNat = d := List.take_of_length_le (by omega)
      simp only [fmtF, h0, h1, h2, h3, if_true, if_false, numText, expText, fracText,
        List.append_nil]

theorem digitsVal_zeros_append (z : Nat) (d : List Nat) :
    digitsVal (List.replicate z 48 ++ d) = digitsVal d := by
  rw [digitsVal_append, digitsVal_replicate_zero]
  simp

theorem digitsVal_append_zeros (d : List Nat) (z : Nat) :
    digitsVal (d ++ List.replicate z 48) = digitsVal d * 10 ^ z := by
  rw [digitsVal_append, digitsVal_replicate_zero]
  simp

theorem isDigit_replicate (z : Nat) : ∀ x ∈ List.replicate z 48, isDigit x = true := by
  intro x hx
  rw [List.mem_replicate] at hx
  rw [hx.2]
  rfl

theorem Decimal.trim_of_mod (neg : Bool) (mant : Nat) (exp : Int) (h : mant % 10 ≠ 0) :
    (Decimal.mk neg mant exp).trim = Decimal.mk neg mant exp := by
  simp only [Decimal.trim, trimZeros_of_mod _ _ _ h]

theorem Decimal.trim_mul_pow (neg : Bool) (mant z : Nat) (exp : Int) (h : mant % 10 ≠ 0) :
    (Decimal.mk neg (mant * 10 ^ z) exp).trim = Decimal.mk neg mant (exp + z) := by
  have hf : z ≤ mant * 10 ^ z := by
    have h1 : z < 10 ^ z := Nat.lt_pow_self (by norm_num) z
    have h2 : 0 < mant := by omega
    nlinarith
  simp only [Decimal.trim, trimZeros_mul_pow _ _ _ _ h hf]

/-- The text that the encoder writes for a non-zero float64 is a number
text, and the decimal it denotes is the shortest decimal of the value. -/
theorem floatEncoder_text (neg : Bool) (m : Nat) (e : Int) (hm : 0 < m)
    (hc : (Float64.finite neg m e).Canonical) :
    ∃ ip fd ex, floatEncoder (.finite neg m e) = .ok (numText neg ip fd ex) ∧
      IntDigits ip ∧ (∀ x ∈ fd, isDigit x = true) ∧ ExpDigits ex ∧
      (Decimal.mk neg (digitsVal (ip ++ fd)) (expOf ex - (fd.length : Int))).trim =
        shortest neg m e := by
  obtain ⟨hpos, hmod, hlo, hhi⟩ := shortest_spec neg m e hm hc
  obtain ⟨hdig, hval, ⟨c, cs, hcs, hc49a⟩, _, _⟩ := FormatUint_spec (shortest neg m e).mant
  have hc49 : 49 ≤ c := hc49a hpos
  clear hc49a
  have hc57 : c ≤ 57 := by
    have := hdig c (by rw [hcs]; exact List.mem_cons_self _ _)
    simp only [isDigit, Bool.and_eq_true, decide_eq_true_eq] at this
    exact this.2
  have hcsd : ∀ x ∈ cs, isDigit x = true :=
    fun x hx => hdig x (by rw [hcs]; exact List.mem_cons_of_mem _ hx)
  have hs : shortest neg m e =
      Decimal.mk neg (shortest neg m e).mant (shortest neg m e).exp := rfl
  have hm0 : ¬ m = 0 := by omega
  have hslice : shortestSlice neg m e =
      { d := strconv.FormatUint (shortest neg m e).mant
        dp := (shortest neg m e).exp +
          ((strconv.FormatUint (shortest neg m e).mant).length : Int) } := by
    simp only [shortestSlice, hm0, if_false]
  set D := (shortest neg m e).mant with hD
  set j := (shortest neg m e).exp with hj
  set d := strconv.FormatUint D with hd
  have hlen : d.length = cs.length + 1 := by rw [hcs]; rfl
  unfold floatEncoder
  simp only [strconv.FormatFloat, hslice, if_true, if_false, Bool.false_eq_true]
  split
  · -- format `%e`
    obtain ⟨xd, hx1, hx2, hx3, hx4⟩ := cleanExp_fmtE neg c cs (j + (d.length : Int))
      (by constructor <;> omega)
    refine ⟨[c], cs, some (decide (j + (d.length : Int) - 1 < 0), xd), ?_, ?_, hcsd,
      ⟨hx1, hx2⟩, ?_⟩
    · rw [← hx4, hcs]
    · exact Or.inr ⟨c, [], rfl, hc49, hc57, by simp⟩
    · have h1 : digitsVal ([c] ++ cs) = D := by
        have : [c] ++ cs = d := by rw [hcs]; rfl
        rw [this, hval]
      have h2 : expOf (some (decide (j + (d.length : Int) - 1 < 0), xd)) - (cs.length : Int) = j := by
        simp only [expOf]
        by_cases hneg : j + (d.length : Int) - 1 < 0
        · simp only [hneg, decide_True, if_true]
          rw [hx3, abs_of_neg hneg]
          omega
        · simp only [hneg, decide_False, Bool.false_eq_true, if_false]
          rw [hx3, abs_of_nonneg (by omega)]
          omega
      rw [h1, h2, Decimal.trim_of_mod _ _ _ hmod]
      exact hs.symm
  · -- format `%f`
    have hdne : d ≠ [] := by rw [hcs]; simp
    rw [fmtF_numText neg d _ hdne]
    by_cases h0 : j + (d.length : Int) ≤ 0
    · simp only [h0, if_true]
      refine ⟨[48], List.replicate (-(j + (d.length : Int))).toNat 48 ++ d, none, rfl,
        Or.inl rfl, ?_, trivial, ?_⟩
      · intro x hx
        rcases List.mem_append.mp hx with hx | hx
        · exact isDigit_replicate _ x hx
        · exact hdig x hx
      · have h1 : digitsVal ([48] ++ (List.replicate (-(j + (d.length : Int))).toNat 48 ++ d)) = D := by
          rw [digitsVal_append, digitsVal_zeros_append, hval]
          simp [digitsVal]
        have h2 : expOf none -
            ((List.replicate (-(j + (d.length : Int))).toNat 48 ++ d).length : Int) = j := by
          simp only [expOf, List.length_append, List.length_replicate]
          push_cast
          omega
        rw [h1, h2, Decimal.trim_of_mod _ _ _ hmod]
        exact hs.symm
    · by_cases h1 : j + (d.length : Int) < (d.length : Int)
      · simp only [h0, h1, if_true, if_false]
        have hk : (j + (d.length : Int)).toNat = (j + (d.length : Int)).toNat - 1 + 1 := by omega
        refine ⟨d.take (j + (d.length : Int)).toNat, d.drop (j + (d.length : Int)).toNat, none,
          rfl, ?_, ?_, trivial, ?_⟩
        · right
          refine ⟨c, cs.take ((j + (d.length : Int)).toNat - 1), ?_, hc49, hc57, ?_⟩
          · rw [hk, hcs]
            rfl
          · intro x hx
            exact hcsd x (List.mem_of_mem_take hx)
        · intro x hx
          exact hdig x (List.mem_of_mem_drop hx)
        · have h2 : digitsVal (d.take (j + (d.length : Int)).toNat ++
              d.drop (j + (d.length : Int)).toNat) = D := by
            rw [List.take_append_drop, hval]
          have h3 : expOf none - ((d.drop (j + (d.length : Int)).toNat).length : Int) = j := by
            simp only [expOf, List.length_drop]
            omega
          rw [h2, h3, Decimal.trim_of_mod _ _ _ hmod]
          exact hs.symm
      · simp only [h0, h1, if_false]
        refine ⟨d ++ List.replicate ((j + (d.length : Int)).toNat - d.length) 48, [], none,
          rfl, ?_, by simp, trivial, ?_⟩
        · right
          refine ⟨c, cs ++ List.replicate ((j + (d.length : Int)).toNat - d.length) 48, ?_,
            hc49, hc57, ?_⟩
          · rw [hcs]; rfl
          · intro x hx
            rcases List.mem_append.mp hx with hx | hx
            · exact hcsd x hx
            · exact isDigit_replicate _ x hx
        · have h2 : digitsVal (d ++ List.replicate ((j + (d.length : Int)).toNat - d.length) 48 ++ [])
              = D * 10 ^ ((j + (d.length : Int)).toNat - d.length) := by
            rw [List.append_nil, digitsVal_append_zeros, hval]
          rw [h2]
          simp only [expOf, List.length_nil, Nat.cast_zero, sub_zero]
          rw [Decimal.trim_mul_pow _ _ _ _ hmod, hs]
          congr 1
          omega

/-! ## Scanning the response body -/

/-- The text of a non-zero float64 is read back by `ParseFloat` as the same
value, without error. -/
theorem ParseFloat_numText (neg : Bool) (m : Nat) (e : Int) (hm : 0 < m)
    (hc : (Float64.finite neg m e).Canonical) (ip fd : List Nat)
    (ex : Option (Bool × List Nat)) (hip : IntDigits ip) (hfd : ∀ x ∈ fd, isDigit x = true)
    (hex : ExpDigits ex)
    (ht : (Decimal.mk neg (digitsVal (ip ++ fd)) (expOf ex - (fd.length : Int))).trim =
        shortest neg m e) :
    strconv.ParseFloat (numText neg ip fd ex) = (.finite neg m e, none) := by
  unfold strconv.ParseFloat
  rw [readFloat_numText neg ip fd ex hip hfd hex]
  simp only [Decimal.toFloat64, ht, shortest_round neg m e hm hc]

theorem skipSpace_of_not_space (c : Nat) (rest : List Nat) (h : isSpace c = false) :
    skipSpace (c :: rest) = c :: rest := by
  simp [skipSpace, h]

theorem parseLiteral_number (c : Nat) (tl lit rest : List Nat)
    (hc : c = 45 ∨ isDigit c = true)
    (h : scanNumber (c :: tl) = some (lit, rest)) :
    parseLiteral (c :: tl) = some (.num lit, rest) := by
  have hne : c ≠ 34 ∧ c ≠ 116 ∧ c ≠ 102 ∧ c ≠ 110 := by
    rcases hc with rfl | hc
    · decide
    · simp only [isDigit, Bool.and_eq_true, decide_eq_true_eq] at hc
      omega
  unfold parseLiteral
  split
  · rename_i heq; simp only [List.cons.injEq] at heq; omega
  · rename_i heq; simp only [List.cons.injEq] at heq; omega
  · rename_i heq; simp only [List.cons.injEq] at heq; omega
  · rename_i heq; simp only [List.cons.injEq] at heq; omega
  · rw [h]

theorem parseValue_literal (k : Nat) (c : Nat) (tl : List Nat)
    (hsp : isSpace c = false) (h1 : c ≠ 123) (h2 : c ≠ 91) :
    parseValue k (c :: tl) = parseLiteral (c :: tl) := by
  cases k with
  | zero =>
    unfold parseValue
    rw [skipSpace_of_not_space c tl hsp]
    split
    · rename_i heq; simp only [List.cons.injEq] at heq; omega
    · rename_i heq; simp only [List.cons.injEq] at heq; omega
    · rfl
  | succ k =>
    unfold parseValue
    rw [skipSpace_of_not_space c tl hsp]
    split
    · rename_i heq; simp only [List.cons.injEq] at heq; omega
    · rename_i heq; simp only [List.cons.injEq] at heq; omega
    · rfl

theorem parseValue_number (k : Nat) (c : Nat) (tl lit rest : List Nat)
    (hc : c = 45 ∨ isDigit c = true)
    (h : scanNumber (c :: tl) = some (lit, rest)) :
    parseValue k (c :: tl) = some (.num lit, rest) := by
  have hsp : isSpace c = false ∧ c ≠ 123 ∧ c ≠ 91 := by
    rcases hc with rfl | hc
    · decide
    · simp only [isDigit, Bool.and_eq_true, decide_eq_true_eq] at hc
      simp [isSpace]
      omega
  rw [parseValue_literal k c tl hsp.1 hsp.2.1 hsp.2.2]
  exact parseLiteral_number c tl lit rest hc h

theorem parseValue_bool (k : Nat) (b : Bool) (rest : List Nat) :
    parseValue k ((if b then bytes "true" else bytes "false") ++ rest) =
      some (.bool b, rest) := by
  cases b
  · have : (if false = true then bytes "true" else bytes "false") ++ rest =
        102 :: 97 :: 108 :: 115 :: 101 :: rest := rfl
    rw [this, parseValue_literal k _ _ (by decide) (by decide) (by decide)]
    rfl
  · have : (if true = true then bytes "true" else bytes "false") ++ rest =
        116 :: 114 :: 117 :: 101 :: rest := rfl
    rw [this, parseValue_literal k _ _ (by decide) (by decide) (by decide)]
    rfl

theorem parseValue_empty_object (k : Nat) (rest : List Nat) :
    parseValue (k + 1) (bytes "\x7b\x7d" ++ rest) = some (.obj [], rest) := by
  have : bytes "\x7b\x7d" ++ rest = 123 :: 125 :: rest := rfl
  rw [this]
  unfold parseValue
  rfl

/-- A number text followed by a comma is scanned as a number. -/
theorem parseValue_numText (k : Nat) (neg : Bool) (ip fd : List Nat)
    (ex : Option (Bool × List Nat)) (rest : List Nat) (hip : IntDigits ip)
    (hfd : ∀ x ∈ fd, isDigit x = true) (hex : ExpDigits ex) :
    parseValue k (numText neg ip fd ex ++ 44 :: rest) =
      some (.num (numText neg ip fd ex), 44 :: rest) := by
  have h := scanNumber_numText neg ip fd ex rest hip hfd hex
  have hhead : ∃ c tl, numText neg ip fd ex ++ 44 :: rest = c :: tl ∧
      (c = 45 ∨ isDigit c = true) := by
    cases neg
    · obtain ⟨c, ds, hcd⟩ := List.exists_cons_of_ne_nil hip.ne_nil
      refine ⟨c, ds ++ (fracText fd ++ expText ex) ++ 44 :: rest, ?_, Or.inr ?_⟩
      · simp [numText, hcd]
      · exact hip.isDigit c (by rw [hcd]; exact List.mem_cons_self _ _)
    · exact ⟨45, ip ++ (fracText fd ++ expText ex) ++ 44 :: rest, by simp [numText], Or.inl rfl⟩
  obtain ⟨c, tl, hct, hc⟩ := hhead
  rw [hct] at h ⊢
  exact parseValue_number k c tl _ _ hc h

theorem IntDigits_FormatUint (n : Nat) : IntDigits (strconv.FormatUint n) := by
  obtain ⟨hdig, _, ⟨c, ds, hcs, hc49⟩, _, _⟩ := FormatUint_spec n
  rcases Nat.eq_zero_or_pos n with h | h
  · subst h
    exact Or.inl rfl
  · right
    refine ⟨c, ds, hcs, hc49 h, ?_, fun x hx => hdig x (by rw [hcs]; exact List.mem_cons_of_mem _ hx)⟩
    have := hdig c (by rw [hcs]; exact List.mem_cons_self _ _)
    simp only [isDigit, Bool.and_eq_true, decide_eq_true_eq] at this
    exact this.2

theorem numText_FormatUint (n : Nat) :
    numText false (strconv.FormatUint n) [] none = strconv.FormatUint n := by
  simp [numText, fracText, expText]

theorem scanString_plain (key rest : List Nat)
    (h : ∀ c ∈ key, c ≠ 34 ∧ c ≠ 92 ∧ 32 ≤ c) :
    scanString (key ++ 34 :: rest) = some (key, rest) := by
  induction key with
  | nil => simp [scanString, scanStringFrom]
  | cons c key ih =>
    obtain ⟨h1, h2, h3⟩ := h c (List.mem_cons_self _ _)
    have h4 : ¬ c < 32 := by omega
    have := ih (fun x hx => h x (List.mem_cons_of_mem _ hx))
    simp only [scanString] at this
    simp only [scanString, List.cons_append, scanStringFrom, h1, h2, h4, if_false]
    rw [show key.append (34 :: rest) = key ++ 34 :: rest from rfl, this]
    rfl

/-- One member of an object that a comma follows. -/
theorem parseMembers_comma (pv : List Nat → Option (JSON × List Nat)) (n : Nat)
    (key vtext rest : List Nat) (v : JSON)
    (hkey : ∀ c ∈ key, c ≠ 34 ∧ c ≠ 92 ∧ 32 ≤ c)
    (hv : pv (vtext ++ 44 :: rest) = some (v, 44 :: rest)) :
    parseMembers pv (n + 1) (34 :: (key ++ 34 :: 58 :: (vtext ++ 44 :: rest))) =
      match parseMembers pv n rest with
      | some (ms, r) => some ((key, v) :: ms, r)
      | none => none := by
  rw [parseMembers]
  simp only [skipSpace_of_not_space 34 _ (by decide), scanString_plain key _ hkey,
    skipSpace_of_not_space 58 _ (by decide), hv, skipSpace_of_not_space 44 _ (by decide)]

/-- The last member of an object. -/
theorem parseMembers_last (pv : List Nat → Option (JSON × List Nat)) (n : Nat)
    (key vtext rest : List Nat) (v : JSON)
    (hkey : ∀ c ∈ key, c ≠ 34 ∧ c ≠ 92 ∧ 32 ≤ c)
    (hv : pv (vtext ++ 125 :: rest) = some (v, 125 :: rest)) :
    parseMembers pv (n + 1) (34 :: (key ++ 34 :: 58 :: (vtext ++ 125 :: rest))) =
      some ([(key, v)], rest) := by
  rw [parseMembers]
  simp only [skipSpace_of_not_space 34 _ (by decide), scanString_plain key _ hkey,
    skipSpace_of_not_space 58 _ (by decide), hv, skipSpace_of_not_space 125 _ (by decide)]

/-- An object whose first member begins right after the brace. -/
theorem parseValue_object (k : Nat) (rest : List Nat) (ms : List (List Nat × JSON))
    (r : List Nat)
    (h : parseMembers (parseValue k) (34 :: rest).length (34 :: rest) = some (ms, r)) :
    parseValue (k + 1) (123 :: 34 :: rest) = some (.obj ms, r) := by
  rw [parseValue]
  simp only [skipSpace_of_not_space 123 _ (by decide), skipSpace_of_not_space 34 _ (by decide)]
  rw [h]

theorem plain_customer_id : ∀ c ∈ bytes "customer_id", c ≠ 34 ∧ c ≠ 92 ∧ 32 ≤ c := by decide
theorem plain_currency : ∀ c ∈ bytes "currency", c ≠ 34 ∧ c ≠ 92 ∧ 32 ≤ c := by decide
theorem plain_value : ∀ c ∈ bytes "value", c ≠ 34 ∧ c ≠ 92 ∧ 32 ≤ c := by decide
theorem plain_result : ∀ c ∈ bytes "result", c ≠ 34 ∧ c ≠ 92 ∧ 32 ≤ c := by decide

/-- The body written for four members, scanned back. -/
theorem parseJSON_writeFields_four (k1 k2 k3 k4 t1 t2 t3 t4 : List Nat) (v1 v2 v3 v4 : JSON)
    (hk1 : ∀ c ∈ k1, c ≠ 34 ∧ c ≠ 92 ∧ 32 ≤ c) (hk2 : ∀ c ∈ k2, c ≠ 34 ∧ c ≠ 92 ∧ 32 ≤ c)
    (hk3 : ∀ c ∈ k3, c ≠ 34 ∧ c ≠ 92 ∧ 32 ≤ c) (hk4 : ∀ c ∈ k4, c ≠ 34 ∧ c ≠ 92 ∧ 32 ≤ c)
    (h1 : ∀ rest, parseValue 9999 (t1 ++ 44 :: rest) = some (v1, 44 :: rest))
    (h2 : ∀ rest, parseValue 9999 (t2 ++ 44 :: rest) = some (v2, 44 :: rest))
    (h3 : ∀ rest, parseValue 9999 (t3 ++ 44 :: rest) = some (v3, 44 :: rest))
    (h4 : ∀ rest, parseValue 9999 (t4 ++ 125 :: rest) = some (v4, 125 :: rest)) :
    parseJSON (writeFields true
      [(34 :: (k1 ++ [34, 58]), t1), (34 :: (k2 ++ [34, 58]), t2),
       (34 :: (k3 ++ [34, 58]), t3), (34 :: (k4 ++ [34, 58]), t4)]) =
      some (.obj [(k1, v1), (k2, v2), (k3, v3), (k4, v4)]) := by
  have hbody : writeFields true
      [(34 :: (k1 ++ [34, 58]), t1), (34 :: (k2 ++ [34, 58]), t2),
       (34 :: (k3 ++ [34, 58]), t3), (34 :: (k4 ++ [34, 58]), t4)] =
      123 :: 34 :: (k1 ++ 34 :: 58 :: (t1 ++ 44 :: 34 :: (k2 ++ 34 :: 58 :: (t2 ++ 44 ::
        34 :: (k3 ++ 34 :: 58 :: (t3 ++ 44 :: 34 :: (k4 ++ 34 :: 58 :: (t4 ++ 125 :: [])))))))) := by
    simp [writeFields, bytes, utf8.EncodeRune]
  rw [hbody]
  unfold parseJSON
  have hdepth : maxNestingDepth = 9999 + 1 := rfl
  rw [hdepth]
  obtain ⟨n, hn⟩ : ∃ n, (34 :: (k1 ++ 34 :: 58 :: (t1 ++ 44 :: 34 :: (k2 ++ 34 :: 58 :: (t2 ++
      44 :: 34 :: (k3 ++ 34 :: 58 :: (t3 ++ 44 :: 34 :: (k4 ++ 34 :: 58 ::
        (t4 ++ 125 :: []))))))))).length = n + 4 := by
    refine ⟨_, (Nat.sub_add_cancel ?_).symm⟩
    simp only [List.length_cons, List.length_append]
    omega
  rw [parseValue_object 9999 _ [(k1, v1), (k2, v2), (k3, v3), (k4, v4)] []]
  · simp [skipSpace]
  · rw [hn, parseMembers_comma _ _ k1 t1 _ v1 hk1 (h1 _),
      parseMembers_comma _ _ k2 t2 _ v2 hk2 (h2 _),
      parseMembers_comma _ _ k3 t3 _ v3 hk3 (h3 _),
      parseMembers_last _ _ k4 t4 _ v4 hk4 (h4 _)]

/-- The body written for three members, scanned back. -/
theorem parseJSON_writeFields_three (k1 k2 k4 t1 t2 t4 : List Nat) (v1 v2 v4 : JSON)
    (hk1 : ∀ c ∈ k1, c ≠ 34 ∧ c ≠ 92 ∧ 32 ≤ c) (hk2 : ∀ c ∈ k2, c ≠ 34 ∧ c ≠ 92 ∧ 32 ≤ c)
    (hk4 : ∀ c ∈ k4, c ≠ 34 ∧ c ≠ 92 ∧ 32 ≤ c)
    (h1 : ∀ rest, parseValue 9999 (t1 ++ 44 :: rest) = some (v1, 44 :: rest))
    (h2 : ∀ rest, parseValue 9999 (t2 ++ 44 :: rest) = some (v2, 44 :: rest))
    (h4 : ∀ rest, parseValue 9999 (t4 ++ 125 :: rest) = some (v4, 125 :: rest)) :
    parseJSON (writeFields true
      [(34 :: (k1 ++ [34, 58]), t1), (34 :: (k2 ++ [34, 58]), t2),
       (34 :: (k4 ++ [34, 58]), t4)]) =
      some (.obj [(k1, v1), (k2, v2), (k4, v4)]) := by
  have hbody : writeFields true
      [(34 :: (k1 ++ [34, 58]), t1), (34 :: (k2 ++ [34, 58]), t2),
       (34 :: (k4 ++ [34, 58]), t4)] =
      123 :: 34 :: (k1 ++ 34 :: 58 :: (t1 ++ 44 :: 34 :: (k2 ++ 34 :: 58 :: (t2 ++ 44 ::
        34 :: (k4 ++ 34 :: 58 :: (t4 ++ 125 :: [])))))) := by
    simp [writeFields, bytes, utf8.EncodeRune]
  rw [hbody]
  unfold parseJSON
  have hdepth : maxNestingDepth = 9999 + 1 := rfl
  rw [hdepth]
  obtain ⟨n, hn⟩ : ∃ n, (34 :: (k1 ++ 34 :: 58 :: (t1 ++ 44 :: 34 :: (k2 ++ 34 :: 58 :: (t2 ++
      44 :: 34 :: (k4 ++ 34 :: 58 :: (t4 ++ 125 :: []))))))).length = n + 3 := by
    refine ⟨_, (Nat.sub_add_cancel ?_).symm⟩
    simp only [List.length_cons, List.length_append]
    omega
  rw [parseValue_object 9999 _ [(k1, v1), (k2, v2), (k4, v4)] []]
  · simp [skipSpace]
  · rw [hn, parseMembers_comma _ _ k1 t1 _ v1 hk1 (h1 _),
      parseMembers_comma _ _ k2 t2 _ v2 hk2 (h2 _),
      parseMembers_last _ _ k4 t4 _ v4 hk4 (h4 _)]

/-! ## What the decoder produces -/

theorem Decimal.round_canonical (d : Decimal) : d.round.Canonical := by
  unfold Decimal.round
  split
  · exact roundRatio_canonical _ _ _ (by norm_num)
  · exact roundRatio_canonical _ _ _ (by positivity)

theorem ParseFloat_canonical (s : List Nat) (n : Float64)
    (h : strconv.ParseFloat s = (n, none)) :
    (∃ neg m e, n = .finite neg m e) ∧ n.Canonical := by
  unfold strconv.ParseFloat at h
  split at h
  · cases h
  · rename_i d _
    have hcan := Decimal.round_canonical d.trim
    split at h
    · cases h
    · rename_i hinf
      simp only [Prod.mk.injEq, and_true] at h
      subst h
      refine ⟨?_, hcan⟩
      cases hf : d.toFloat64 with
      | finite neg m e => exact ⟨neg, m, e, rfl⟩
      | inf neg => exact absurd hf (hinf neg)
      | nan => exact absurd hf (toFloat64_ne_nan d)

theorem store_valid (d : decodeState) (f : Field) (j : JSON) (h : d.v.Valid) :
    (d.store f j).v.Valid := by
  cases j <;> cases f <;> simp only [decodeState.store, saveError_v] <;>
    first
      | exact h
      | skip
  · rename_i lit
    split
    · rename_i n hn
      exact ⟨(ParseUint_ok lit n hn).2.2, h.2.1, h.2.2⟩
    · simp only [saveError_v]; exact h
  · rename_i lit
    split
    · rename_i n hn
      obtain ⟨h1, h2⟩ := ParseFloat_canonical lit n hn
      exact ⟨h.1, h1, h2⟩
    · simp only [saveError_v]; exact h

theorem member_valid (d : decodeState) (kv : List Nat × JSON) (h : d.v.Valid) :
    (d.member kv).v.Valid := by
  unfold decodeState.member
  split
  · exact h
  · split
    · exact store_valid _ _ _ h
    · exact h

theorem foldl_member_valid (ms : List (List Nat × JSON)) (d : decodeState) (h : d.v.Valid) :
    (ms.foldl decodeState.member d).v.Valid := by
  induction ms generalizing d with
  | nil => exact h
  | cons kv ms ih => exact ih _ (member_valid d kv h)

theorem value_valid (d : decodeState) (j : JSON) (h : d.v.Valid) : (d.value j).v.Valid := by
  cases j <;> simp only [decodeState.value, saveError_v] <;>
    first | exact h | exact foldl_member_valid _ _ h

theorem Invoice.zero_valid : Invoice.zero.Valid :=
  ⟨by decide, ⟨false, 0, -1074, rfl⟩, by simp [Invoice.zero, Float64.zero, Float64.Canonical]⟩

/-- What `json.Unmarshal` produces from the zero `Invoice` is valid. -/
theorem Unmarshal_valid (data : List Nat) (d : Invoice)
    (h : json.Unmarshal data Invoice.zero = .ok d) : d.Valid := by
  unfold json.Unmarshal at h
  split at h
  · cases h
  · rename_i j _
    have := value_valid { v := Invoice.zero, savedError := none } j Invoice.zero_valid
    split at h
    · cases h
    · rename_i heq
      rw [heq] at this
      simp only [Except.ok.injEq] at h
      subst h
      exact this

/-! ## The response body, scanned and decoded -/

theorem Float64.eq_zero_iff (neg : Bool) (m : Nat) (e : Int) :
    (Float64.finite neg m e).eq Float64.zero = true ↔ m = 0 := by
  simp only [Float64.eq, Float64.zero]
  constructor
  · intro h
    simp only [Bool.or_eq_true, Bool.and_eq_true, decide_eq_true_eq] at h
    rcases h with h | h
    · exact h.1
    · exact h.1.2
  · intro h
    simp [h]

/-- The response body of a valid invoice, scanned back: an object of the
members `customer_id`, `currency` and `result`, with `value` before `result`
when the value is not zero; the text of `value` is read back by `ParseFloat`
as the same float64. -/
theorem parseJSON_Marshal (d : Invoice) (hd : d.Valid) :
    ∃ resp, json.Marshal d = .ok resp ∧
      ((d.Value.eq Float64.zero = true ∧
        parseJSON resp = some (.obj [(bytes "customer_id", .num (strconv.FormatUint d.CustomerID)),
          (bytes "currency", .obj []), (bytes "result", .bool d.Result)])) ∨
       (d.Value.eq Float64.zero = false ∧ ∃ vtext,
        strconv.ParseFloat vtext = (d.Value, none) ∧
        parseJSON resp = some (.obj [(bytes "customer_id", .num (strconv.FormatUint d.CustomerID)),
          (bytes "currency", .obj []), (bytes "value", .num vtext),
          (bytes "result", .bool d.Result)]))) := by
  obtain ⟨hcid, ⟨neg, m, e, hv⟩, hcan⟩ := hd
  have hn1 : bytes "\"customer_id\":" = 34 :: (bytes "customer_id" ++ [34, 58]) := by decide
  have hn2 : bytes "\"currency\":" = 34 :: (bytes "currency" ++ [34, 58]) := by decide
  have hn3 : bytes "\"value\":" = 34 :: (bytes "value" ++ [34, 58]) := by decide
  have hn4 : bytes "\"result\":" = 34 :: (bytes "result" ++ [34, 58]) := by decide
  have h1 : ∀ rest, parseValue 9999 (strconv.FormatUint d.CustomerID ++ 44 :: rest) =
      some (.num (strconv.FormatUint d.CustomerID), 44 :: rest) := by
    intro rest
    have := parseValue_numText 9999 false (strconv.FormatUint d.CustomerID) [] none rest
      (IntDigits_FormatUint _) (by simp) trivial
    rwa [numText_FormatUint] at this
  have h2 : ∀ rest, parseValue 9999 (bytes "\x7b\x7d" ++ 44 :: rest) =
      some (.obj [], 44 :: rest) := fun rest => parseValue_empty_object 9998 _
  have h4 : ∀ rest, parseValue 9999
      ((if d.Result then bytes "true" else bytes "false") ++ 125 :: rest) =
      some (.bool d.Result, 125 :: rest) := fun rest => parseValue_bool 9999 d.Result _
  rw [hv] at hcan
  by_cases hm : m = 0
  · have hz : d.Value.eq Float64.zero = true := by rw [hv]; exact (Float64.eq_zero_iff neg m e).mpr hm
    have hf : ∃ value, floatEncoder d.Value = .ok value := by
      rw [hv]
      unfold floatEncoder
      simp only
      split <;> exact ⟨_, rfl⟩
    obtain ⟨value, hvalue⟩ := hf
    have hM : json.Marshal d = .ok (writeFields true
        ([(bytes "\"customer_id\":", strconv.FormatUint d.CustomerID),
          (bytes "\"currency\":", bytes "\x7b\x7d")] ++
         (if d.Value.eq Float64.zero then [] else [(bytes "\"value\":", value)]) ++
         [(bytes "\"result\":", if d.Result then bytes "true" else bytes "false")])) := by
      unfold json.Marshal encodeFields
      rw [hvalue]
    refine ⟨_, hM, Or.inl ⟨hz, ?_⟩⟩
    · simp only [hz, if_true, List.append_nil, hn1, hn2, hn4, List.cons_append, List.nil_append]
      exact parseJSON_writeFields_three _ _ _ _ _ _ _ _ _ plain_customer_id plain_currency
        plain_result h1 h2 h4
  · have hz : d.Value.eq Float64.zero = false := by
      rw [hv]
      cases h : (Float64.finite neg m e).eq Float64.zero
      · rfl
      · exact absurd ((Float64.eq_zero_iff neg m e).mp h) hm
    obtain ⟨ip, fd, ex, hvalue, hip, hfd, hex, htrim⟩ :=
      floatEncoder_text neg m e (by omega) hcan
    have h3 : ∀ rest, parseValue 9999 (numText neg ip fd ex ++ 44 :: rest) =
        some (.num (numText neg ip fd ex), 44 :: rest) :=
      fun rest => parseValue_numText 9999 neg ip fd ex rest hip hfd hex
    have hM : json.Marshal d = .ok (writeFields true
        ([(bytes "\"customer_id\":", strconv.FormatUint d.CustomerID),
          (bytes "\"currency\":", bytes "\x7b\x7d")] ++
         (if d.Value.eq Float64.zero then [] else [(bytes "\"value\":", numText neg ip fd ex)]) ++
         [(bytes "\"result\":", if d.Result then bytes "true" else bytes "false")])) := by
      unfold json.Marshal encodeFields
      rw [hv, hvalue]
    refine ⟨_, hM, Or.inr ⟨hz, numText neg ip fd ex, ?_, ?_⟩⟩
    · rw [hv]
      exact ParseFloat_numText neg m e (by omega) hcan ip fd ex hip hfd hex htrim
    · simp only [hz, Bool.false_eq_true, if_false, hn1, hn2, hn3, hn4, List.cons_append,
        List.nil_append]
      exact parseJSON_writeFields_four _ _ _ _ _ _ _ _ _ _ _ _ plain_customer_id plain_currency
        plain_value plain_result h1 h2 h3 h4

theorem member_customer_id_num (d : decodeState) (n : Nat) (h : n ≤ maxUint64) :
    d.member (bytes "customer_id", .num (strconv.FormatUint n)) =
      { d with v := { d.v with CustomerID := n } } := by
  have hk : unquote (bytes "customer_id") = some (bytes "customer_id") := by decide
  have hf : lookupField (bytes "customer_id") = some Field.CustomerID := by decide
  simp only [decodeState.member, hk, hf, decodeState.store, ParseUint_FormatUint n h]

theorem member_currency_obj (d : decodeState) (ms : List (List Nat × JSON)) :
    d.member (bytes "currency", .obj ms) = d := by
  have hk : unquote (bytes "currency") = some (bytes "currency") := by decide
  have hf : lookupField (bytes "currency") = some Field.Currency := by decide
  simp only [decodeState.member, hk, hf, decodeState.store]

theorem member_value_num (d : decodeState) (vtext : List Nat) (f : Float64)
    (h : strconv.ParseFloat vtext = (f, none)) :
    d.member (bytes "value", .num vtext) = { d with v := { d.v with Value := f } } := by
  have hk : unquote (bytes "value") = some (bytes "value") := by decide
  have hf : lookupField (bytes "value") = some Field.Value := by decide
  simp only [decodeState.member, hk, hf, decodeState.store, h]

theorem member_result_bool (d : decodeState) (b : Bool) :
    d.member (bytes "result", .bool b) = { d with v := { d.v with Result := b } } := by
  have hk : unquote (bytes "result") = some (bytes "result") := by decide
  have hf : lookupField (bytes "result") = some Field.Result := by decide
  simp only [decodeState.member, hk, hf, decodeState.store]

/-- Decoding the response body of an invoice gives the invoice back, with
`Value` zero when the body has no `value` member. -/
theorem Unmarshal_Marshal (d : Invoice) (hd : d.Valid) :
    ∃ resp d1, json.Marshal d = .ok resp ∧ json.Unmarshal resp Invoice.zero = .ok d1 ∧
      d1.CustomerID = d.CustomerID ∧ d1.Currency = d.Currency ∧
      d1.Value.eq d.Value = true ∧ d1.Result = d.Result := by
  obtain ⟨resp, hM, h⟩ := parseJSON_Marshal d hd
  obtain ⟨hcid, ⟨neg, m, e, hv⟩, hcan⟩ := hd
  rcases h with ⟨hz, hp⟩ | ⟨hz, vtext, hpf, hp⟩
  · refine ⟨resp, Invoice.mk d.CustomerID () Float64.zero d.Result, hM, ?_, rfl, rfl, ?_, rfl⟩
    · unfold json.Unmarshal
      rw [hp]
      simp only [decodeState.value, List.foldl_cons, List.foldl_nil,
        member_customer_id_num _ _ hcid, member_currency_obj, member_result_bool]
      rfl
    · rw [hv] at hz ⊢
      have := (Float64.eq_zero_iff neg m e).mp hz
      subst this
      rfl
  · refine ⟨resp, Invoice.mk d.CustomerID () d.Value d.Result, hM, ?_, rfl, rfl, ?_, rfl⟩
    · unfold json.Unmarshal
      rw [hp]
      simp only [decodeState.value, List.foldl_cons, List.foldl_nil,
        member_customer_id_num _ _ hcid, member_currency_obj, member_value_num _ _ _ hpf,
        member_result_bool]
    · rw [hv]
      simp [Float64.eq]

theorem InvoiceHandler_of_Unmarshal_ok {Router : Type} (a : App Router)
    (r : http.Request) (i : Nat) (body resp : List Nat) (d : Invoice)
    (hbody : r.Body = .ok body) (hd : json.Unmarshal body Invoice.zero = .ok d)
    (hresp : json.Marshal { d with Result := success i } = .ok resp) :
    a.InvoiceHandler httptest.NewRecorder r i =
      { Code := 200, Header := [("Content-Type", "application/json")], Body := resp,
        wroteHeader := true } := by
  unfold App.InvoiceHandler
  rw [hbody]
  simp only [hd, hresp]
  rfl

/-- C1. For a request body that decodes into an `Invoice` `d`, and for
every draw `i`, `InvoiceHandler` answers with status 200 and the content
type `application/json`, and the body it writes decodes into an `Invoice`
with the `customer_id`, `currency` and `value` of `d` and with `result` the
outcome `success i` of the generator. -/
theorem InvoiceHandler_echo {Router : Type} (a : App Router) (r : http.Request) (i : Nat)
    (body : List Nat) (d : Invoice)
    (hbody : r.Body = .ok body) (hd : json.Unmarshal body Invoice.zero = .ok d) :
    (a.InvoiceHandler httptest.NewRecorder r i).Code = http.StatusOK ∧
    (a.InvoiceHandler httptest.NewRecorder r i).Get "Content-Type" = some "application/json" ∧
    ∃ d1, json.Unmarshal (a.InvoiceHandler httptest.NewRecorder r i).Body Invoice.zero = .ok d1 ∧
      d1.CustomerID = d.CustomerID ∧ d1.Currency = d.Currency ∧
      d1.Value.eq d.Value = true ∧ d1.Result = success i := by
  have hvalid : ({ d with Result := success i } : Invoice).Valid := Unmarshal_valid body d hd
  obtain ⟨resp, d1, hM, hU, h1, h2, h3, h4⟩ := Unmarshal_Marshal _ hvalid
  rw [InvoiceHandler_of_Unmarshal_ok a r i body resp d hbody hd hM]
  exact ⟨rfl, rfl, d1, hU, h1, h2, h3, h4⟩

/-- C4, amended. For a request body that decodes into an `Invoice` `d`, the
response body is a JSON object whose members are `customer_id`, `currency`
and `result`, with `value` among them exactly when the value of `d` is not
zero. -/
theorem InvoiceHandler_members {Router : Type} (a : App Router) (r : http.Request) (i : Nat)
    (body : List Nat) (d : Invoice)
    (hbody : r.Body = .ok body) (hd : json.Unmarshal body Invoice.zero = .ok d) :
    ∃ ms, parseJSON (a.InvoiceHandler httptest.NewRecorder r i).Body = some (.obj ms) ∧
      ms.map Prod.fst =
        if d.Value.eq Float64.zero then
          [bytes "customer_id", bytes "currency", bytes "result"]
        else [bytes "customer_id", bytes "currency", bytes "value", bytes "result"] := by
  have hvalid : ({ d with Result := success i } : Invoice).Valid := Unmarshal_valid body d hd
  obtain ⟨resp, hM, h⟩ := parseJSON_Marshal _ hvalid
  rw [InvoiceHandler_of_Unmarshal_ok a r i body resp d hbody hd hM]
  rcases h with ⟨hz, hp⟩ | ⟨hz, vtext, _, hp⟩
  · refine ⟨_, hp, ?_⟩
    simp only at hz
    simp [hz]
  · refine ⟨_, hp, ?_⟩
    simp only at hz
    simp [hz]

/-- C1 at the body of the test `Valid body`. -/
theorem InvoiceHandler_echo_witness :
    json.Unmarshal (bytes "\x7b\"currency\":\x7b\x7d,\"customer_id\":1,\"value\":301.99\x7d")
      Invoice.zero = .ok (Invoice.mk 1 () (.finite false 5312664263553188 (-44)) false) ∧
    ((NewApp ":8080" ()).InvoiceHandler httptest.NewRecorder (chargeRequest
      (bytes "\x7b\"currency\":\x7b\x7d,\"customer_id\":1,\"value\":301.99\x7d")) 0).Code
        = http.StatusOK ∧
    ((NewApp ":8080" ()).InvoiceHandler httptest.NewRecorder (chargeRequest
      (bytes "\x7b\"currency\":\x7b\x7d,\"customer_id\":1,\"value\":301.99\x7d")) 0).Get
        "Content-Type" = some "application/json" ∧
    ∃ d1, json.Unmarshal ((NewApp ":8080" ()).InvoiceHandler httptest.NewRecorder (chargeRequest
        (bytes "\x7b\"currency\":\x7b\x7d,\"customer_id\":1,\"value\":301.99\x7d")) 0).Body
        Invoice.zero = .ok d1 ∧
      d1.CustomerID = 1 ∧ d1.Currency = () ∧
      d1.Value.eq (.finite false 5312664263553188 (-44)) = true ∧ d1.Result = success 0 :=
  ⟨by rfl, InvoiceHandler_echo (NewApp ":8080" ()) _ 0
    (bytes "\x7b\"currency\":\x7b\x7d,\"customer_id\":1,\"value\":301.99\x7d")
    (Invoice.mk 1 () (.finite false 5312664263553188 (-44)) false) rfl (by rfl)⟩

/-- C4, amended, at the body of the test `Valid body`. -/
theorem InvoiceHandler_members_witness :
    json.Unmarshal (bytes "\x7b\"currency\":\x7b\x7d,\"customer_id\":1,\"value\":301.99\x7d")
      Invoice.zero = .ok (Invoice.mk 1 () (.finite false 5312664263553188 (-44)) false) ∧
    ∃ ms, parseJSON ((NewApp ":8080" ()).InvoiceHandler httptest.NewRecorder (chargeRequest
        (bytes "\x7b\"currency\":\x7b\x7d,\"customer_id\":1,\"value\":301.99\x7d")) 0).Body
        = some (.obj ms) ∧
      ms.map Prod.fst =
        if (Float64.finite false 5312664263553188 (-44)).eq Float64.zero then
          [bytes "customer_id", bytes "currency", bytes "result"]
        else [bytes "customer_id", bytes "currency", bytes "value", bytes "result"] :=
  ⟨by rfl, InvoiceHandler_members (NewApp ":8080" ()) _ 0
    (bytes "\x7b\"currency\":\x7b\x7d,\"customer_id\":1,\"value\":301.99\x7d")
    (Invoice.mk 1 () (.finite false 5312664263553188 (-44)) false) rfl (by rfl)⟩

/-- C4 fails when the value is missing or zero: for the bodies
`{"customer_id":1}` and `{"customer_id":1,"value":0}`, which decode, the
response body is `{"customer_id":1,"currency":{},"result":true}`, an object
without a `value` member. -/
theorem InvoiceHandler_omits_zero_value :
    json.Unmarshal (bytes "\x7b\"customer_id\":1\x7d") Invoice.zero =
      .ok (Invoice.mk 1 () Float64.zero false) ∧
    json.Unmarshal (bytes "\x7b\"customer_id\":1,\"value\":0\x7d") Invoice.zero =
      .ok (Invoice.mk 1 () Float64.zero false) ∧
    ((NewApp ":8080" ()).InvoiceHandler httptest.NewRecorder
      (chargeRequest (bytes "\x7b\"customer_id\":1\x7d")) 0).Body =
      bytes "\x7b\"customer_id\":1,\"currency\":\x7b\x7d,\"result\":true\x7d" ∧
    ((NewApp ":8080" ()).InvoiceHandler httptest.NewRecorder
      (chargeRequest (bytes "\x7b\"customer_id\":1,\"value\":0\x7d")) 0).Body =
      bytes "\x7b\"customer_id\":1,\"currency\":\x7b\x7d,\"result\":true\x7d" ∧
    parseJSON (bytes "\x7b\"customer_id\":1,\"currency\":\x7b\x7d,\"result\":true\x7d") =
      some (.obj [(bytes "customer_id", .num (bytes "1")), (bytes "currency", .obj []),
        (bytes "result", .bool true)]) :=
  ⟨by rfl, by rfl, by decide, by decide, by rfl⟩


/-! ## The bounds of the scanner's loops -/

theorem skipSpace_length (l : List Nat) : (skipSpace l).length ≤ l.length := by
  induction l with
  | nil => simp [skipSpace]
  | cons c l ih =>
    rw [skipSpace]
    split
    · simp only [List.length_cons]; omega
    · exact le_rfl

theorem scanStringFrom_length (st : stringState) (inp s r : List Nat)
    (h : scanStringFrom st inp = some (s, r)) : r.length < inp.length := by
  induction inp generalizing st s r with
  | nil => cases st <;> simp [scanStringFrom] at h
  | cons c inp ih =>
    cases st with
    | inString =>
      rw [scanStringFrom] at h
      split at h
      · simp only [Option.some.injEq, Prod.mk.injEq] at h
        rw [← h.2]; simp
      · split at h
        · cases hq : scanStringFrom .inStringEsc inp with
          | none => rw [hq] at h; cases h
          | some p =>
            rw [hq] at h
            simp only [Option.map_some', Option.some.injEq, Prod.mk.injEq] at h
            have := ih _ p.1 p.2 hq
            rw [← h.2]; simp only [List.length_cons]; omega
        · split at h
          · cases h
          · cases hq : scanStringFrom .inString inp with
            | none => rw [hq] at h; cases h
            | some p =>
              rw [hq] at h
              simp only [Option.map_some', Option.some.injEq, Prod.mk.injEq] at h
              have := ih _ p.1 p.2 hq
              rw [← h.2]; simp only [List.length_cons]; omega
    | inStringEsc =>
      rw [scanStringFrom] at h
      split at h
      · cases hq : scanStringFrom .inString inp with
        | none => rw [hq] at h; cases h
        | some p =>
          rw [hq] at h
          simp only [Option.map_some', Option.some.injEq, Prod.mk.injEq] at h
          have := ih _ p.1 p.2 hq
          rw [← h.2]; simp only [List.length_cons]; omega
      · split at h
        · cases hq : scanStringFrom (.inStringEscU 4) inp with
          | none => rw [hq] at h; cases h
          | some p =>
            rw [hq] at h
            simp only [Option.map_some', Option.some.injEq, Prod.mk.injEq] at h
            have := ih _ p.1 p.2 hq
            rw [← h.2]; simp only [List.length_cons]; omega
        · cases h
    | inStringEscU n =>
      rw [scanStringFrom] at h
      split at h
      · cases hq : scanStringFrom (if n ≤ 1 then .inString else .inStringEscU (n - 1)) inp with
        | none => rw [hq] at h; cases h
        | some p =>
          rw [hq] at h
          simp only [Option.map_some', Option.some.injEq, Prod.mk.injEq] at h
          have := ih _ p.1 p.2 hq
          rw [← h.2]; simp only [List.length_cons]; omega
      · cases h

theorem spanDigits_length (l : List Nat) :
    (spanDigits l).1.length + (spanDigits l).2.length = l.length := by
  induction l with
  | nil => simp [spanDigits]
  | cons c l ih =>
    rw [spanDigits]
    split
    · simp only [List.length_cons]; omega
    · simp

theorem scanInt_length (inp i r : List Nat) (h : scanInt inp = some (i, r)) :
    r.length < inp.length := by
  cases inp with
  | nil => simp [scanInt] at h
  | cons c inp =>
    rw [scanInt] at h
    have := spanDigits_length inp
    split at h
    · simp only [Option.some.injEq, Prod.mk.injEq] at h
      rw [← h.2]; simp
    · split at h
      · simp only [Option.some.injEq, Prod.mk.injEq] at h
        rw [← h.2]; simp only [List.length_cons]; omega
      · cases h

theorem scanFrac_length (inp f r : List Nat) (h : scanFrac inp = some (f, r)) :
    r.length ≤ inp.length := by
  unfold scanFrac at h
  split at h
  · rename_i rest
    have := spanDigits_length rest
    split at h
    · cases h
    · rename_i ds r1 _ heq
      simp only [Option.some.injEq, Prod.mk.injEq] at h
      rw [heq] at this
      rw [← h.2]; simp only [List.length_cons]; simp only at this; omega
  · simp only [Option.some.injEq, Prod.mk.injEq] at h
    rw [← h.2]

theorem scanExpDigits_length (inp ds r : List Nat) (h : scanExpDigits inp = some (ds, r)) :
    r.length ≤ inp.length := by
  unfold scanExpDigits at h
  have := spanDigits_length inp
  split at h
  · cases h
  · rename_i ds1 r1 _ heq
    simp only [Option.some.injEq, Prod.mk.injEq] at h
    rw [heq] at this
    rw [← h.2]; simp only at this; omega

theorem scanExp_length (inp e r : List Nat) (h : scanExp inp = some (e, r)) :
    r.length ≤ inp.length := by
  unfold scanExp at h
  split at h
  · simp only [Option.some.injEq, Prod.mk.injEq] at h
    rw [← h.2]
  · rename_i c rest
    split at h
    · split at h
      · cases h
      · rename_i s rest1
        split at h
        · cases hq : scanExpDigits rest1 with
          | none => rw [hq] at h; cases h
          | some p =>
            rw [hq] at h
            simp only [Option.some.injEq, Prod.mk.injEq] at h
            have := scanExpDigits_length _ _ _ hq
            rw [← h.2]; simp only [List.length_cons]; omega
        · cases hq : scanExpDigits (s :: rest1) with
          | none => rw [hq] at h; cases h
          | some p =>
            rw [hq] at h
            simp only [Option.some.injEq, Prod.mk.injEq] at h
            have := scanExpDigits_length _ _ _ hq
            rw [← h.2]; simp only [List.length_cons] at this ⊢; omega
    · simp only [Option.some.injEq, Prod.mk.injEq] at h
      rw [← h.2]

theorem scanSign_length (inp : List Nat) : (scanSign inp).2.length ≤ inp.length := by
  unfold scanSign
  split <;> simp

theorem scanNumber_length (inp lit r : List Nat) (h : scanNumber inp = some (lit, r)) :
    r.length < inp.length := by
  unfold scanNumber at h
  have h0 := scanSign_length inp
  cases h1 : scanInt (scanSign inp).2 with
  | none => rw [h1] at h; cases h
  | some p1 =>
    rw [h1] at h
    simp only at h
    cases h2 : scanFrac p1.2 with
    | none => rw [h2] at h; cases h
    | some p2 =>
      rw [h2] at h
      simp only at h
      cases h3 : scanExp p2.2 with
      | none => rw [h3] at h; cases h
      | some p3 =>
        rw [h3] at h
        simp only [Option.some.injEq, Prod.mk.injEq] at h
        have := scanInt_length _ _ _ h1
        have := scanFrac_length _ _ _ h2
        have := scanExp_length _ _ _ h3
        rw [← h.2]
        omega

theorem parseLiteral_length (inp : List Nat) (v : JSON) (r : List Nat)
    (h : parseLiteral inp = some (v, r)) : r.length < inp.length := by
  unfold parseLiteral at h
  split at h
  · rename_i rest
    cases hq : scanString rest with
    | none => rw [hq] at h; cases h
    | some p =>
      rw [hq] at h
      simp only [Option.some.injEq, Prod.mk.injEq] at h
      have := scanStringFrom_length _ _ _ _ hq
      rw [← h.2]; simp only [List.length_cons]; omega
  · simp only [Option.some.injEq, Prod.mk.injEq] at h
    rw [← h.2]; simp only [List.length_cons]; omega
  · simp only [Option.some.injEq, Prod.mk.injEq] at h
    rw [← h.2]; simp only [List.length_cons]; omega
  · simp only [Option.some.injEq, Prod.mk.injEq] at h
    rw [← h.2]; simp only [List.length_cons]; omega
  · cases hq : scanNumber inp with
    | none => rw [hq] at h; cases h
    | some p =>
      rw [hq] at h
      simp only [Option.some.injEq, Prod.mk.injEq] at h
      have := scanNumber_length _ _ _ hq
      rw [← h.2]; exact this

theorem parseElems_length (pv : List Nat → Option (JSON × List Nat)) (hpv : Consumes pv)
    (n : Nat) (inp : List Nat) (vs : List JSON) (r : List Nat)
    (h : parseElems pv n inp = some (vs, r)) : r.length < inp.length := by
  induction n generalizing inp vs r with
  | zero => simp [parseElems] at h
  | succ n ih =>
    rw [parseElems] at h
    cases hq : pv inp with
    | none => rw [hq] at h; cases h
    | some p =>
      rw [hq] at h
      simp only at h
      have h1 := hpv _ _ _ hq
      have h2 := skipSpace_length p.2
      split at h
      · rename_i rest1 heq
        rw [heq] at h2
        cases hr : parseElems pv n rest1 with
        | none => rw [hr] at h; cases h
        | some q =>
          rw [hr] at h
          simp only [Option.some.injEq, Prod.mk.injEq] at h
          have := ih _ _ _ hr
          rw [← h.2]; simp only [List.length_cons] at h2; omega
      · rename_i rest1 heq
        rw [heq] at h2
        simp only [Option.some.injEq, Prod.mk.injEq] at h
        rw [← h.2]; simp only [List.length_cons] at h2; omega
      · cases h

/-- The bound on the number of elements of an array is never reached: any
bound of at least the length of the input gives the same result. -/
theorem parseElems_bound (pv : List Nat → Option (JSON × List Nat)) (hpv : Consumes pv)
    (n m : Nat) (inp : List Nat) (hn : inp.length ≤ n) (hm : inp.length ≤ m) :
    parseElems pv n inp = parseElems pv m inp := by
  induction n generalizing m inp with
  | zero =>
    have : inp = [] := List.length_eq_zero.mp (by omega)
    subst this
    cases m with
    | zero => rfl
    | succ m =>
      rw [parseElems, parseElems]
      cases hq : pv [] with
      | none => rfl
      | some p => exact absurd (hpv _ _ _ hq) (by simp)
  | succ n ih =>
    cases m with
    | zero =>
      have : inp = [] := List.length_eq_zero.mp (by omega)
      subst this
      rw [parseElems, parseElems]
      cases hq : pv [] with
      | none => rfl
      | some p => exact absurd (hpv _ _ _ hq) (by simp)
    | succ m =>
      rw [parseElems, parseElems]
      cases hq : pv inp with
      | none => rfl
      | some p =>
        simp only
        have h1 := hpv _ _ _ hq
        have h2 := skipSpace_length p.2
        split
        · rename_i rest1 heq
          rw [heq] at h2
          simp only [List.length_cons] at h2
          rw [ih m rest1 (by omega) (by omega)]
        · rfl
        · rfl

theorem parseMembers_length (pv : List Nat → Option (JSON × List Nat)) (hpv : Consumes pv)
    (n : Nat) (inp : List Nat) (ms : List (List Nat × JSON)) (r : List Nat)
    (h : parseMembers pv n inp = some (ms, r)) : r.length < inp.length := by
  induction n generalizing inp ms r with
  | zero => simp [parseMembers] at h
  | succ n ih =>
    rw [parseMembers] at h
    have h0 := skipSpace_length inp
    split at h
    · rename_i rest heq0
      rw [heq0] at h0
      simp only [List.length_cons] at h0
      cases hs : scanString rest with
      | none => rw [hs] at h; cases h
      | some p =>
        rw [hs] at h
        simp only at h
        have h1 := scanStringFrom_length _ _ _ _ hs
        have h2 := skipSpace_length p.2
        split at h
        · rename_i rest2 heq2
          rw [heq2] at h2
          simp only [List.length_cons] at h2
          cases hq : pv rest2 with
          | none => rw [hq] at h; cases h
          | some q =>
            rw [hq] at h
            simp only at h
            have h3 := hpv _ _ _ hq
            have h4 := skipSpace_length q.2
            split at h
            · rename_i rest4 heq4
              rw [heq4] at h4
              simp only [List.length_cons] at h4
              cases hr : parseMembers pv n rest4 with
              | none => rw [hr] at h; cases h
              | some t =>
                rw [hr] at h
                simp only [Option.some.injEq, Prod.mk.injEq] at h
                have := ih _ _ _ hr
                rw [← h.2]; omega
            · rename_i rest4 heq4
              rw [heq4] at h4
              simp only [List.length_cons] at h4
              simp only [Option.some.injEq, Prod.mk.injEq] at h
              rw [← h.2]; omega
            · cases h
        · cases h
    · cases h

/-- The bound on the number of members of an object is never reached. -/
theorem parseMembers_bound (pv : List Nat → Option (JSON × List Nat)) (hpv : Consumes pv)
    (n m : Nat) (inp : List Nat) (hn : inp.length ≤ n) (hm : inp.length ≤ m) :
    parseMembers pv n inp = parseMembers pv m inp := by
  induction n generalizing m inp with
  | zero =>
    have : inp = [] := List.length_eq_zero.mp (by omega)
    subst this
    cases m with
    | zero => rfl
    | succ m => simp [parseMembers, skipSpace]
  | succ n ih =>
    cases m with
    | zero =>
      have : inp = [] := List.length_eq_zero.mp (by omega)
      subst this
      simp [parseMembers, skipSpace]
    | succ m =>
      rw [parseMembers, parseMembers]
      have h0 := skipSpace_length inp
      split
      · rename_i rest heq0
        rw [heq0] at h0
        simp only [List.length_cons] at h0
        cases hs : scanString rest with
        | none => rfl
        | some p =>
          simp only
          have h1 := scanStringFrom_length _ _ _ _ hs
          have h2 := skipSpace_length p.2
          split
          · rename_i rest2 heq2
            rw [heq2] at h2
            simp only [List.length_cons] at h2
            cases hq : pv rest2 with
            | none => rfl
            | some q =>
              simp only
              have h3 := hpv _ _ _ hq
              have h4 := skipSpace_length q.2
              split
              · rename_i rest4 heq4
                rw [heq4] at h4
                simp only [List.length_cons] at h4
                rw [ih m rest4 (by omega) (by omega)]
              · rfl
              · rfl
          · rfl
      · rfl

/-- Scanning a value consumes input. -/
theorem parseValue_consumes (k : Nat) : Consumes (parseValue k) := by
  induction k with
  | zero =>
    intro inp v r h
    rw [parseValue] at h
    have h0 := skipSpace_length inp
    split at h
    · cases h
    · cases h
    · have := parseLiteral_length _ _ _ h
      omega
  | succ k ih =>
    intro inp v r h
    rw [parseValue] at h
    have h0 := skipSpace_length inp
    split at h
    · rename_i rest heq0
      rw [heq0] at h0
      simp only [List.length_cons] at h0
      have h1 := skipSpace_length rest
      split at h
      · rename_i rest1 heq1
        rw [heq1] at h1
        simp only [List.length_cons] at h1
        simp only [Option.some.injEq, Prod.mk.injEq] at h
        rw [← h.2]; omega
      · cases hq : parseMembers (parseValue k) (skipSpace rest).length (skipSpace rest) with
        | none => rw [hq] at h; cases h
        | some p =>
          rw [hq] at h
          simp only [Option.some.injEq, Prod.mk.injEq] at h
          have := parseMembers_length _ ih _ _ _ _ hq
          rw [← h.2]; omega
    · rename_i rest heq0
      rw [heq0] at h0
      simp only [List.length_cons] at h0
      have h1 := skipSpace_length rest
      split at h
      · rename_i rest1 heq1
        rw [heq1] at h1
        simp only [List.length_cons] at h1
        simp only [Option.some.injEq, Prod.mk.injEq] at h
        rw [← h.2]; omega
      · cases hq : parseElems (parseValue k) (skipSpace rest).length (skipSpace rest) with
        | none => rw [hq] at h; cases h
        | some p =>
          rw [hq] at h
          simp only [Option.some.injEq, Prod.mk.injEq] at h
          have := parseElems_length _ ih _ _ _ _ hq
          rw [← h.2]; omega
    · have := parseLiteral_length _ _ _ h
      omega

/-! ## The scanner accepts only what follows the grammar -/


theorem skipSpace_split (l : List Nat) : ∃ ws, l = ws ++ skipSpace l ∧ AllSpace ws := by
  induction l with
  | nil => exact ⟨[], rfl, fun _ h => by simp at h⟩
  | cons c l ih =>
    rw [skipSpace]
    split
    · rename_i hc
      obtain ⟨ws, h1, h2⟩ := ih
      refine ⟨c :: ws, by rw [List.cons_append, ← h1], ?_⟩
      intro x hx
      rcases List.mem_cons.mp hx with rfl | hx
      · exact hc
      · exact h2 x hx
    · exact ⟨[], rfl, fun _ h => by simp at h⟩

theorem scanStringFrom_sound (st : stringState) (inp s r : List Nat)
    (h : scanStringFrom st inp = some (s, r)) : inp = s ++ 34 :: r ∧ StringRest st s := by
  induction inp generalizing st s r with
  | nil => cases st <;> simp [scanStringFrom] at h
  | cons c inp ih =>
    cases st with
    | inString =>
      rw [scanStringFrom] at h
      split at h
      · rename_i hc
        simp only [Option.some.injEq, Prod.mk.injEq] at h
        obtain ⟨rfl, rfl⟩ := h
        exact ⟨by rw [hc]; rfl, StringChars.nil⟩
      · rename_i hc34
        split at h
        · rename_i hc92
          cases hq : scanStringFrom .inStringEsc inp with
          | none => rw [hq] at h; cases h
          | some p =>
            rw [hq] at h
            simp only [Option.map_some', Option.some.injEq, Prod.mk.injEq] at h
            obtain ⟨rfl, rfl⟩ := h
            obtain ⟨h1, h2⟩ := ih _ p.1 p.2 hq
            refine ⟨by rw [h1]; rfl, ?_⟩
            subst hc92
            rcases h2 with ⟨e, t, he, hes, ht⟩ | ⟨a1, a2, a3, a4, t, he, g1, g2, g3, g4, ht⟩
            · show StringChars (92 :: p.1)
              rw [he]
              exact StringChars.escape e t hes ht
            · show StringChars (92 :: p.1)
              rw [he]
              exact StringChars.unicode a1 a2 a3 a4 t g1 g2 g3 g4 ht
        · rename_i hc92
          split at h
          · cases h
          · rename_i hc32
            cases hq : scanStringFrom .inString inp with
            | none => rw [hq] at h; cases h
            | some p =>
              rw [hq] at h
              simp only [Option.map_some', Option.some.injEq, Prod.mk.injEq] at h
              obtain ⟨rfl, rfl⟩ := h
              obtain ⟨h1, h2⟩ := ih _ p.1 p.2 hq
              exact ⟨by rw [h1]; rfl, StringChars.unescaped c p.1 (by omega) hc34 hc92 h2⟩
    | inStringEsc =>
      rw [scanStringFrom] at h
      split at h
      · rename_i hes
        cases hq : scanStringFrom .inString inp with
        | none => rw [hq] at h; cases h
        | some p =>
          rw [hq] at h
          simp only [Option.map_some', Option.some.injEq, Prod.mk.injEq] at h
          obtain ⟨rfl, rfl⟩ := h
          obtain ⟨h1, h2⟩ := ih _ p.1 p.2 hq
          exact ⟨by rw [h1]; rfl, Or.inl ⟨c, p.1, rfl, hes, h2⟩⟩
      · split at h
        · rename_i hu
          cases hq : scanStringFrom (.inStringEscU 4) inp with
          | none => rw [hq] at h; cases h
          | some p =>
            rw [hq] at h
            simp only [Option.map_some', Option.some.injEq, Prod.mk.injEq] at h
            obtain ⟨rfl, rfl⟩ := h
            obtain ⟨h1, hs, t, h2, h3, h4, h5⟩ := ih _ p.1 p.2 hq
            refine ⟨by rw [h1]; rfl, Or.inr ?_⟩
            match hs, h3, h4, h2 with
            | [a1, a2, a3, a4], _, h4, h2 =>
              refine ⟨a1, a2, a3, a4, t, by rw [hu, h2]; rfl, h4 a1 (by simp), h4 a2 (by simp),
                h4 a3 (by simp), h4 a4 (by simp), h5⟩
        · cases h
    | inStringEscU n =>
      rw [scanStringFrom] at h
      split at h
      · rename_i hhex
        cases hq : scanStringFrom (if n ≤ 1 then .inString else .inStringEscU (n - 1)) inp with
        | none => rw [hq] at h; cases h
        | some p =>
          rw [hq] at h
          simp only [Option.map_some', Option.some.injEq, Prod.mk.injEq] at h
          obtain ⟨rfl, rfl⟩ := h
          obtain ⟨h1, h2⟩ := ih _ p.1 p.2 hq
          refine ⟨by rw [h1]; rfl, ?_⟩
          by_cases hn : n ≤ 1
          · simp only [hn, if_true] at h2
            refine ⟨[c], p.1, rfl, by simp; omega, ?_, h2⟩
            intro x hx
            simp only [List.mem_singleton] at hx
            rw [hx]; exact hhex
          · simp only [hn, if_false] at h2
            obtain ⟨hs, t, g1, g2, g3, g4⟩ := h2
            refine ⟨c :: hs, t, by rw [g1]; rfl, by simp only [List.length_cons, g2]; omega, ?_, g4⟩
            intro x hx
            rcases List.mem_cons.mp hx with rfl | hx
            · exact hhex
            · exact g3 x hx
      · cases h

theorem scanString_sound (inp s r : List Nat) (h : scanString inp = some (s, r)) :
    inp = s ++ 34 :: r ∧ StringChars s :=
  scanStringFrom_sound .inString inp s r h

theorem spanDigits_split (l : List Nat) :
    l = (spanDigits l).1 ++ (spanDigits l).2 ∧ ∀ x ∈ (spanDigits l).1, isDigit x = true := by
  induction l with
  | nil => simp [spanDigits]
  | cons c l ih =>
    rw [spanDigits]
    split
    · rename_i hc
      refine ⟨by rw [List.cons_append, ← ih.1], ?_⟩
      intro x hx
      rcases List.mem_cons.mp hx with rfl | hx
      · exact hc
      · exact ih.2 x hx
    · simp

theorem scanInt_sound (inp i r : List Nat) (h : scanInt inp = some (i, r)) :
    inp = i ++ r ∧ IntDigits i := by
  cases inp with
  | nil => simp [scanInt] at h
  | cons c inp =>
    rw [scanInt] at h
    obtain ⟨h1, h2⟩ := spanDigits_split inp
    split at h
    · rename_i hc
      simp only [Option.some.injEq, Prod.mk.injEq] at h
      obtain ⟨rfl, rfl⟩ := h
      exact ⟨by rw [hc]; rfl, Or.inl rfl⟩
    · split at h
      · rename_i hc
        simp only [Option.some.injEq, Prod.mk.injEq] at h
        obtain ⟨rfl, rfl⟩ := h
        exact ⟨by rw [List.cons_append, ← h1], Or.inr ⟨c, _, rfl, hc.1, hc.2, h2⟩⟩
      · cases h

theorem scanFrac_sound (inp f r : List Nat) (h : scanFrac inp = some (f, r)) :
    inp = f ++ r ∧
    (f = [] ∨ ∃ fd, f = 46 :: fd ∧ fd ≠ [] ∧ ∀ x ∈ fd, isDigit x = true) := by
  unfold scanFrac at h
  split at h
  · rename_i rest
    obtain ⟨h1, h2⟩ := spanDigits_split rest
    cases hsp : spanDigits rest with
    | mk ds r1 =>
      rw [hsp] at h h1 h2
      cases ds with
      | nil => cases h
      | cons x ds =>
        simp only [Option.some.injEq, Prod.mk.injEq] at h
        obtain ⟨rfl, rfl⟩ := h
        exact ⟨by rw [List.cons_append, ← h1], Or.inr ⟨x :: ds, rfl, by simp, h2⟩⟩
  · simp only [Option.some.injEq, Prod.mk.injEq] at h
    obtain ⟨rfl, rfl⟩ := h
    exact ⟨rfl, Or.inl rfl⟩

theorem scanExpDigits_sound (inp ds r : List Nat) (h : scanExpDigits inp = some (ds, r)) :
    inp = ds ++ r ∧ ds ≠ [] ∧ ∀ x ∈ ds, isDigit x = true := by
  unfold scanExpDigits at h
  obtain ⟨h1, h2⟩ := spanDigits_split inp
  cases hsp : spanDigits inp with
  | mk ds1 r1 =>
    rw [hsp] at h h1 h2
    cases ds1 with
    | nil => cases h
    | cons x ds1 =>
      simp only [Option.some.injEq, Prod.mk.injEq] at h
      obtain ⟨rfl, rfl⟩ := h
      exact ⟨h1, by simp, h2⟩

theorem scanExp_sound (inp e r : List Nat) (h : scanExp inp = some (e, r)) :
    inp = e ++ r ∧
    (e = [] ∨ ∃ c sg xd, e = c :: (sg ++ xd) ∧ (c = 101 ∨ c = 69) ∧
      (sg = [] ∨ sg = [43] ∨ sg = [45]) ∧ xd ≠ [] ∧ ∀ x ∈ xd, isDigit x = true) := by
  unfold scanExp at h
  split at h
  · simp only [Option.some.injEq, Prod.mk.injEq] at h
    obtain ⟨rfl, rfl⟩ := h
    exact ⟨rfl, Or.inl rfl⟩
  · rename_i c rest
    split at h
    · rename_i hc
      split at h
      · cases h
      · rename_i s rest1
        split at h
        · rename_i hs
          cases hq : scanExpDigits rest1 with
          | none => rw [hq] at h; cases h
          | some p =>
            rw [hq] at h
            simp only [Option.some.injEq, Prod.mk.injEq] at h
            obtain ⟨rfl, rfl⟩ := h
            obtain ⟨g1, g2, g3⟩ := scanExpDigits_sound _ _ _ hq
            refine ⟨by rw [g1]; rfl, Or.inr ⟨c, [s], p.1, rfl, hc, ?_, g2, g3⟩⟩
            rcases hs with rfl | rfl
            · exact Or.inr (Or.inl rfl)
            · exact Or.inr (Or.inr rfl)
        · cases hq : scanExpDigits (s :: rest1) with
          | none => rw [hq] at h; cases h
          | some p =>
            rw [hq] at h
            simp only [Option.some.injEq, Prod.mk.injEq] at h
            obtain ⟨rfl, rfl⟩ := h
            obtain ⟨g1, g2, g3⟩ := scanExpDigits_sound _ _ _ hq
            exact ⟨by rw [g1]; rfl, Or.inr ⟨c, [], p.1, rfl, hc, Or.inl rfl, g2, g3⟩⟩
    · simp only [Option.some.injEq, Prod.mk.injEq] at h
      obtain ⟨rfl, rfl⟩ := h
      exact ⟨rfl, Or.inl rfl⟩

theorem scanSign_sound (inp : List Nat) :
    inp = (scanSign inp).1 ++ (scanSign inp).2 ∧
    ((scanSign inp).1 = [] ∨ (scanSign inp).1 = [45]) := by
  unfold scanSign
  split
  · exact ⟨rfl, Or.inr rfl⟩
  · exact ⟨rfl, Or.inl rfl⟩

/-- What the scanner takes as a number is the text of a JSON number. -/
theorem scanNumber_sound (inp lit r : List Nat) (h : scanNumber inp = some (lit, r)) :
    inp = lit ++ r ∧ NumberText lit := by
  unfold scanNumber at h
  obtain ⟨h0, h0s⟩ := scanSign_sound inp
  cases h1 : scanInt (scanSign inp).2 with
  | none => rw [h1] at h; cases h
  | some p1 =>
    rw [h1] at h
    simp only at h
    cases h2 : scanFrac p1.2 with
    | none => rw [h2] at h; cases h
    | some p2 =>
      rw [h2] at h
      simp only at h
      cases h3 : scanExp p2.2 with
      | none => rw [h3] at h; cases h
      | some p3 =>
        rw [h3] at h
        simp only [Option.some.injEq, Prod.mk.injEq] at h
        obtain ⟨rfl, rfl⟩ := h
        obtain ⟨g1, g1i⟩ := scanInt_sound _ _ _ h1
        obtain ⟨g2, g2f⟩ := scanFrac_sound _ _ _ h2
        obtain ⟨g3, g3e⟩ := scanExp_sound _ _ _ h3
        refine ⟨?_, (scanSign inp).1, p1.1, p2.1, p3.1, by simp, h0s, g1i, g2f, g3e⟩
        conv_lhs => rw [h0, g1, g2, g3]
        simp

theorem parseLiteral_sound (inp : List Nat) (v : JSON) (r : List Nat)
    (h : parseLiteral inp = some (v, r)) : ∃ t, inp = t ++ r ∧ ValueText t := by
  unfold parseLiteral at h
  split at h
  · rename_i rest
    cases hq : scanString rest with
    | none => rw [hq] at h; cases h
    | some p =>
      rw [hq] at h
      simp only [Option.some.injEq, Prod.mk.injEq] at h
      obtain ⟨_, rfl⟩ := h
      obtain ⟨h1, h2⟩ := scanString_sound _ _ _ hq
      exact ⟨34 :: (p.1 ++ [34]), by rw [h1]; simp, ValueText.string p.1 h2⟩
  · simp only [Option.some.injEq, Prod.mk.injEq] at h
    obtain ⟨_, rfl⟩ := h
    exact ⟨[116, 114, 117, 101], rfl, ValueText.true⟩
  · simp only [Option.some.injEq, Prod.mk.injEq] at h
    obtain ⟨_, rfl⟩ := h
    exact ⟨[102, 97, 108, 115, 101], rfl, ValueText.false⟩
  · simp only [Option.some.injEq, Prod.mk.injEq] at h
    obtain ⟨_, rfl⟩ := h
    exact ⟨[110, 117, 108, 108], rfl, ValueText.null⟩
  · cases hq : scanNumber inp with
    | none => rw [hq] at h; cases h
    | some p =>
      rw [hq] at h
      simp only [Option.some.injEq, Prod.mk.injEq] at h
      obtain ⟨_, rfl⟩ := h
      obtain ⟨h1, h2⟩ := scanNumber_sound _ _ _ hq
      exact ⟨p.1, h1, ValueText.number p.1 h2⟩

theorem AllSpace_append {a b : List Nat} (ha : AllSpace a) (hb : AllSpace b) :
    AllSpace (a ++ b) := by
  intro x hx
  rcases List.mem_append.mp hx with hx | hx
  · exact ha x hx
  · exact hb x hx

theorem AllSpace_nil : AllSpace [] := fun _ h => by simp at h

theorem ElementsText_space (w es : List Nat) (hw : AllSpace w) (h : ElementsText es) :
    ElementsText (w ++ es) := by
  cases h with
  | one w1 v w2 h1 h2 h3 =>
    rw [← List.append_assoc]
    exact ElementsText.one (w ++ w1) v w2 (AllSpace_append hw h1) h2 h3
  | cons w1 v w2 es1 h1 h2 h3 h4 =>
    rw [← List.append_assoc]
    exact ElementsText.cons (w ++ w1) v w2 es1 (AllSpace_append hw h1) h2 h3 h4

theorem MembersText_space (w ms : List Nat) (hw : AllSpace w) (h : MembersText ms) :
    MembersText (w ++ ms) := by
  cases h with
  | one w1 k w2 w3 v w4 h1 h2 h3 h4 h5 h6 =>
    rw [← List.append_assoc]
    exact MembersText.one (w ++ w1) k w2 w3 v w4 (AllSpace_append hw h1) h2 h3 h4 h5 h6
  | cons w1 k w2 w3 v w4 ms1 h1 h2 h3 h4 h5 h6 h7 =>
    rw [← List.append_assoc]
    exact MembersText.cons (w ++ w1) k w2 w3 v w4 ms1 (AllSpace_append hw h1) h2 h3 h4 h5 h6 h7

theorem parseElems_sound (pv : List Nat → Option (JSON × List Nat)) (hpv : SoundScan pv)
    (n : Nat) (inp : List Nat) (vs : List JSON) (r : List Nat)
    (h : parseElems pv n inp = some (vs, r)) :
    ∃ es, inp = es ++ 93 :: r ∧ ElementsText es := by
  induction n generalizing inp vs r with
  | zero => simp [parseElems] at h
  | succ n ih =>
    rw [parseElems] at h
    cases hq : pv inp with
    | none => rw [hq] at h; cases h
    | some p =>
      rw [hq] at h
      simp only at h
      obtain ⟨ws, t, h1, h2, h3⟩ := hpv _ _ _ hq
      obtain ⟨w2, g1, g2⟩ := skipSpace_split p.2
      split at h
      · rename_i rest1 heq
        rw [heq] at g1
        cases hr : parseElems pv n rest1 with
        | none => rw [hr] at h; cases h
        | some q =>
          rw [hr] at h
          simp only [Option.some.injEq, Prod.mk.injEq] at h
          obtain ⟨_, rfl⟩ := h
          obtain ⟨es, e1, e2⟩ := ih _ _ _ hr
          refine ⟨ws ++ (t ++ (w2 ++ 44 :: es)), ?_, ElementsText.cons ws t w2 es h2 h3 g2 e2⟩
          rw [h1, g1, e1]
          simp
      · rename_i rest1 heq
        rw [heq] at g1
        simp only [Option.some.injEq, Prod.mk.injEq] at h
        obtain ⟨_, rfl⟩ := h
        refine ⟨ws ++ (t ++ w2), ?_, ElementsText.one ws t w2 h2 h3 g2⟩
        rw [h1, g1]
        simp
      · cases h

theorem parseMembers_sound (pv : List Nat → Option (JSON × List Nat)) (hpv : SoundScan pv)
    (n : Nat) (inp : List Nat) (ms : List (List Nat × JSON)) (r : List Nat)
    (h : parseMembers pv n inp = some (ms, r)) :
    ∃ mt, inp = mt ++ 125 :: r ∧ MembersText mt := by
  induction n generalizing inp ms r with
  | zero => simp [parseMembers] at h
  | succ n ih =>
    rw [parseMembers] at h
    obtain ⟨w1, a1, a2⟩ := skipSpace_split inp
    split at h
    · rename_i rest heq0
      rw [heq0] at a1
      cases hs : scanString rest with
      | none => rw [hs] at h; cases h
      | some p =>
        rw [hs] at h
        simp only at h
        obtain ⟨b1, b2⟩ := scanString_sound _ _ _ hs
        obtain ⟨w2, c1, c2⟩ := skipSpace_split p.2
        split at h
        · rename_i rest2 heq2
          rw [heq2] at c1
          cases hq : pv rest2 with
          | none => rw [hq] at h; cases h
          | some q =>
            rw [hq] at h
            simp only at h
            obtain ⟨w3, t, d1, d2, d3⟩ := hpv _ _ _ hq
            obtain ⟨w4, e1, e2⟩ := skipSpace_split q.2
            split at h
            · rename_i rest4 heq4
              rw [heq4] at e1
              cases hr : parseMembers pv n rest4 with
              | none => rw [hr] at h; cases h
              | some u =>
                rw [hr] at h
                simp only [Option.some.injEq, Prod.mk.injEq] at h
                obtain ⟨_, rfl⟩ := h
                obtain ⟨mt, f1, f2⟩ := ih _ _ _ hr
                refine ⟨w1 ++ 34 :: (p.1 ++ 34 :: (w2 ++ 58 :: (w3 ++ (t ++ (w4 ++ 44 :: mt))))),
                  ?_, MembersText.cons w1 p.1 w2 w3 t w4 mt a2 b2 c2 d2 d3 e2 f2⟩
                rw [a1, b1, c1, d1, e1, f1]
                simp
            · rename_i rest4 heq4
              rw [heq4] at e1
              simp only [Option.some.injEq, Prod.mk.injEq] at h
              obtain ⟨_, rfl⟩ := h
              refine ⟨w1 ++ 34 :: (p.1 ++ 34 :: (w2 ++ 58 :: (w3 ++ (t ++ w4)))),
                ?_, MembersText.one w1 p.1 w2 w3 t w4 a2 b2 c2 d2 d3 e2⟩
              rw [a1, b1, c1, d1, e1]
              simp
            · cases h
        · cases h
    · cases h

/-- What the scanner takes as a value is the text of a JSON value after
white space. -/
theorem parseValue_sound (k : Nat) : SoundScan (parseValue k) := by
  induction k with
  | zero =>
    intro inp v r h
    rw [parseValue] at h
    obtain ⟨ws, a1, a2⟩ := skipSpace_split inp
    split at h
    · cases h
    · cases h
    · obtain ⟨t, b1, b2⟩ := parseLiteral_sound _ _ _ h
      exact ⟨ws, t, by rw [← b1]; exact a1, a2, b2⟩
  | succ k ih =>
    intro inp v r h
    rw [parseValue] at h
    obtain ⟨ws, a1, a2⟩ := skipSpace_split inp
    split at h
    · rename_i rest heq0
      rw [heq0] at a1
      obtain ⟨w, c1, c2⟩ := skipSpace_split rest
      split at h
      · rename_i rest1 heq1
        rw [heq1] at c1
        simp only [Option.some.injEq, Prod.mk.injEq] at h
        obtain ⟨_, rfl⟩ := h
        refine ⟨ws, 123 :: (w ++ [125]), ?_, a2, ValueText.emptyObject w c2⟩
        rw [a1, c1]
        simp
      · cases hq : parseMembers (parseValue k) (skipSpace rest).length (skipSpace rest) with
        | none => rw [hq] at h; cases h
        | some p =>
          rw [hq] at h
          simp only [Option.some.injEq, Prod.mk.injEq] at h
          obtain ⟨_, rfl⟩ := h
          obtain ⟨mt, d1, d2⟩ := parseMembers_sound _ ih _ _ _ _ hq
          refine ⟨ws, 123 :: ((w ++ mt) ++ [125]), ?_, a2,
            ValueText.object _ (MembersText_space w mt c2 d2)⟩
          rw [a1, c1, d1]
          simp
    · rename_i rest heq0
      rw [heq0] at a1
      obtain ⟨w, c1, c2⟩ := skipSpace_split rest
      split at h
      · rename_i rest1 heq1
        rw [heq1] at c1
        simp only [Option.some.injEq, Prod.mk.injEq] at h
        obtain ⟨_, rfl⟩ := h
        refine ⟨ws, 91 :: (w ++ [93]), ?_, a2, ValueText.emptyArray w c2⟩
        rw [a1, c1]
        simp
      · cases hq : parseElems (parseValue k) (skipSpace rest).length (skipSpace rest) with
        | none => rw [hq] at h; cases h
        | some p =>
          rw [hq] at h
          simp only [Option.some.injEq, Prod.mk.injEq] at h
          obtain ⟨_, rfl⟩ := h
          obtain ⟨es, d1, d2⟩ := parseElems_sound _ ih _ _ _ _ hq
          refine ⟨ws, 91 :: ((w ++ es) ++ [93]), ?_, a2,
            ValueText.array _ (ElementsText_space w es c2 d2)⟩
          rw [a1, c1, d1]
          simp
    · obtain ⟨t, b1, b2⟩ := parseLiteral_sound _ _ _ h
      exact ⟨ws, t, by rw [← b1]; exact a1, a2, b2⟩

/-- What the scanner accepts follows the grammar of a JSON text. -/
theorem parseJSON_sound (data : List Nat) (v : JSON) (h : parseJSON data = some v) :
    JSONSyntax data := by
  unfold parseJSON at h
  cases hq : parseValue maxNestingDepth data with
  | none => rw [hq] at h; cases h
  | some p =>
    rw [hq] at h
    simp only at h
    obtain ⟨ws, t, h1, h2, h3⟩ := parseValue_sound _ _ _ _ hq
    obtain ⟨w2, g1, g2⟩ := skipSpace_split p.2
    split at h
    · rename_i hnil
      rw [hnil, List.append_nil] at g1
      exact ⟨ws, t, p.2, h1, h2, h3, by rw [g1]; exact g2⟩
    · cases h

/-! ## Unquoting what the scanner accepted -/

theorem StringChars_tail (c : Nat) (s : List Nat) (hc : c ≠ 92) (h : StringChars (c :: s)) :
    StringChars s := by
  cases h with
  | unescaped _ _ _ _ _ h4 => exact h4
  | escape e s1 _ _ => exact absurd rfl hc
  | unicode _ _ _ _ _ _ _ _ _ _ => exact absurd rfl hc

theorem DecodeRune_cont (c : Nat) (rest : List Nat) :
    ∀ x ∈ rest.take ((utf8.DecodeRune (c :: rest)).2 - 1), x ≠ 92 := by
  have hlo : 0x80 ≤ (if c = 0xE0 then 0xA0 else if c = 0xF0 then 0x90 else 0x80) := by
    split_ifs <;> decide
  rcases rest with _ | ⟨b1, _ | ⟨b2, _ | ⟨b3, rest3⟩⟩⟩ <;>
    simp only [utf8.DecodeRune, utf8.isCont] <;>
    generalize (if c = 0xE0 then 0xA0 else if c = 0xF0 then 0x90 else 0x80) = lo at hlo ⊢ <;>
    generalize (if c = 0xED then 0x9F else if c = 0xF4 then 0x8F else 0xBF) = hi <;>
    generalize (if c < 0xE0 then 2 else if c < 0xF0 then 3 else 4) = sz
  · simp
  · split_ifs <;> simp
    omega
  · split_ifs <;> simp <;> simp_all <;> omega
  · split_ifs <;> simp <;> simp_all <;> omega

theorem getu4_hex (h1 h2 h3 h4 : Nat) (t : List Nat) (g1 : isHex h1 = true)
    (g2 : isHex h2 = true) (g3 : isHex h3 = true) (g4 : isHex h4 = true) :
    getu4 (92 :: 117 :: h1 :: h2 :: h3 :: h4 :: t) =
      some (hexVal h1 * 4096 + hexVal h2 * 256 + hexVal h3 * 16 + hexVal h4) := by
  simp [getu4, g1, g2, g3, g4]

theorem getu4_some (s : List Nat) (v : Nat) (h : getu4 s = some v) :
    ∃ h1 h2 h3 h4 t, s = 92 :: 117 :: h1 :: h2 :: h3 :: h4 :: t := by
  unfold getu4 at h
  split at h
  · exact ⟨_, _, _, _, _, rfl⟩
  · cases h

theorem StringChars_unicode_tail (h1 h2 h3 h4 : Nat) (t : List Nat)
    (h : StringChars (92 :: 117 :: h1 :: h2 :: h3 :: h4 :: t)) : StringChars t := by
  cases h with
  | unescaped _ _ _ _ hc _ => exact absurd rfl hc
  | escape e s1 he _ => exact absurd he (by decide)
  | unicode _ _ _ _ _ _ _ _ _ hs => exact hs

theorem isSome_map_iff {α β : Type} (f : α → β) (o : Option α) :
    (o.map f).isSome = o.isSome := by
  cases o <;> rfl

/-- The loop of `unquoteBytes` succeeds on what the scanner accepts between
the quotes of a string. -/
theorem unquoteLoop_isSome (n : Nat) : ∀ (s : List Nat) (copy : Nat), s.length ≤ n →
    StringChars s → (∀ x ∈ s.take copy, x ≠ 92) → (unquoteLoop 0 copy s).isSome = true := by
  induction n with
  | zero =>
    intro s copy hl _ _
    have : s = [] := List.length_eq_zero.mp (Nat.le_zero.mp hl)
    subst this
    simp [unquoteLoop]
  | succ n ih =>
    intro s copy hl hs hc
    cases s with
    | nil => simp [unquoteLoop]
    | cons c rest =>
      have hl1 : rest.length ≤ n := by simpa using hl
      cases copy with
      | succ copy =>
        have hc92 : c ≠ 92 := hc c (by simp)
        rw [unquoteLoop, isSome_map_iff]
        exact ih rest copy hl1 (StringChars_tail c rest hc92 hs)
          (fun x hx => hc x (by simp [hx]))
      | zero =>
        cases hs with
        | unescaped _ _ h32 h34 h92 hrest =>
          rw [unquoteLoop.eq_def]
          simp only [if_neg h92]
          rw [if_neg (by omega)]
          split
          · rw [isSome_map_iff]
            exact ih rest 0 hl1 hrest (by simp)
          · split
            · rw [isSome_map_iff]
              exact ih rest 0 hl1 hrest (by simp)
            · rw [isSome_map_iff]
              exact ih rest _ hl1 hrest (DecodeRune_cont c rest)
        | escape e s1 he hrest =>
          have hl2 : s1.length ≤ n := by simp at hl1; omega
          have hrec := ih s1 0 hl2 hrest (by simp)
          have hesc : ∃ b, unquoteLoop 0 0 (92 :: e :: s1) =
              (unquoteLoop 0 0 s1).map (List.cons b) := by
            simp only [isSimpleEscape, Bool.or_eq_true, decide_eq_true_eq] at he
            rcases he with (((((((rfl | rfl) | rfl) | rfl) | rfl) | rfl) | rfl) | rfl)
            · exact ⟨_, rfl⟩
            · exact ⟨_, rfl⟩
            · exact ⟨_, rfl⟩
            · exact ⟨_, rfl⟩
            · exact ⟨_, rfl⟩
            · exact ⟨_, rfl⟩
            · exact ⟨_, rfl⟩
            · exact ⟨_, rfl⟩
          obtain ⟨b, hb⟩ := hesc
          rw [hb, isSome_map_iff]
          exact hrec
        | unicode h1 h2 h3 h4 s1 g1 g2 g3 g4 hrest =>
          have hl2 : s1.length ≤ n := by simp at hl1; omega
          have hrec := ih s1 0 hl2 hrest (by simp)
          have hskip : unquoteLoop 5 0 (117 :: h1 :: h2 :: h3 :: h4 :: s1) =
              unquoteLoop 0 0 s1 := by
            simp only [unquoteLoop]
          rw [unquoteLoop.eq_def]
          simp only [if_pos, getu4_hex h1 h2 h3 h4 s1 g1 g2 g3 g4, hskip, List.drop]
          rw [if_neg (by decide), if_neg (by decide), if_neg (by decide), if_neg (by decide),
            if_neg (by decide), if_neg (by decide)]
          split
          · cases hq : getu4 s1 with
            | none => simp only [isSome_map_iff]; exact hrec
            | some rr1 =>
              simp only
              obtain ⟨k1, k2, k3, k4, s2, rfl⟩ := getu4_some _ _ hq
              split
              · have hskip2 : unquoteLoop 11 0
                    (117 :: h1 :: h2 :: h3 :: h4 :: 92 :: 117 :: k1 :: k2 :: k3 :: k4 :: s2) =
                    unquoteLoop 0 0 s2 := by
                  simp only [unquoteLoop]
                rw [hskip2, isSome_map_iff]
                exact ih s2 0 (by simp at hl2; omega)
                  (StringChars_unicode_tail _ _ _ _ _ hrest) (by simp)
              · rw [isSome_map_iff]; exact hrec
          · rw [isSome_map_iff]; exact hrec

/-- The function `unquoteBytes` succeeds on what the scanner accepts between the
quotes of a string. -/
theorem unquote_isSome (s : List Nat) (h : StringChars s) : (unquote s).isSome = true :=
  unquoteLoop_isSome s.length s 0 (le_refl _) h (by simp)

/-- The key of a member that the scanner accepted is unquoted without
failure: the first case of `decodeState.member` does not arise. -/
theorem unquote_of_scanString (inp s r : List Nat) (h : scanString inp = some (s, r)) :
    (unquote s).isSome = true :=
  unquote_isSome s (scanString_sound inp s r h).2

/-! ## Bodies that are not JSON texts -/


theorem NumberText_head (t : List Nat) (h : NumberText t) :
    ∃ c r, t = c :: r ∧ (c = 45 ∨ isDigit c = true) := by
  obtain ⟨sign, ip, frac, exp, rfl, hs, hi, _, _⟩ := h
  rcases hs with rfl | rfl
  · rcases hi with rfl | ⟨c, ds, rfl, h1, h2, _⟩
    · exact ⟨48, _, rfl, Or.inr (by decide)⟩
    · refine ⟨c, _, rfl, Or.inr ?_⟩
      simp only [isDigit, Bool.and_eq_true, decide_eq_true_eq]
      omega
  · exact ⟨45, _, rfl, Or.inl rfl⟩

/-- How the text of a JSON value begins. -/
theorem ValueText_head (t : List Nat) (h : ValueText t) :
    ∃ c r, t = c :: r ∧ (c = 34 ∨ c = 45 ∨ isDigit c = true ∨ c = 91 ∨ c = 123 ∨
      t = [116, 114, 117, 101] ∨ t = [102, 97, 108, 115, 101] ∨ t = [110, 117, 108, 108]) := by
  cases h with
  | null => exact ⟨_, _, rfl, by simp⟩
  | true => exact ⟨_, _, rfl, by simp⟩
  | false => exact ⟨_, _, rfl, by simp⟩
  | number s hn =>
    obtain ⟨c, r, rfl, hc⟩ := NumberText_head _ hn
    refine ⟨c, r, rfl, ?_⟩
    rcases hc with hc | hc
    · exact Or.inr (Or.inl hc)
    · exact Or.inr (Or.inr (Or.inl hc))
  | string s _ => exact ⟨_, _, rfl, by simp⟩
  | emptyArray ws _ => exact ⟨_, _, rfl, by simp⟩
  | array es _ => exact ⟨_, _, rfl, by simp⟩
  | emptyObject ws _ => exact ⟨_, _, rfl, by simp⟩
  | object ms _ => exact ⟨_, _, rfl, by simp⟩

/-- The body `this is not a valid body` does not follow the grammar. -/
theorem not_JSONSyntax_invalid_body : ¬ JSONSyntax (bytes "this is not a valid body") := by
  rintro ⟨w1, v, w2, h, hw1, hv, -⟩
  have hb : bytes "this is not a valid body" = 116 :: 104 :: bytes "is is not a valid body" := by
    rfl
  rw [hb] at h
  obtain ⟨c, r, rfl, hc⟩ := ValueText_head v hv
  cases w1 with
  | cons x xs =>
    simp only [List.cons_append, List.cons.injEq] at h
    have := hw1 x (List.mem_cons_self _ _)
    rw [← h.1] at this
    exact absurd this (by decide)
  | nil =>
    simp only [List.nil_append, List.cons_append, List.cons.injEq] at h
    obtain ⟨rfl, h2⟩ := h
    rcases hc with hc | hc | hc | hc | hc | hc | hc | hc
    · exact absurd hc (by decide)
    · exact absurd hc (by decide)
    · exact absurd hc (by decide)
    · exact absurd hc (by decide)
    · exact absurd hc (by decide)
    · simp only [List.cons.injEq] at hc
      rw [hc.2] at h2
      simp at h2
    · simp at hc
    · simp at hc

/-- A well-formed JSON text follows the grammar on bytes. -/
theorem JSONSyntax_of_wellFormed (data : List Nat) (h : WellFormedJSON data) :
    JSONSyntax data := h.2

/-- C2 fails for a body that is not UTF-8: the body
`{"customer_id":1,"a":"?"}`, with the byte 0xFF for `?`, is not UTF-8 and so
not a well-formed JSON text; the scanner accepts it, and the response has
status 200. -/
theorem InvoiceHandler_invalid_utf8_ok :
    utf8.Valid (bytes "\x7b\"customer_id\":1,\"a\":\"" ++ 255 :: bytes "\"\x7d") = false ∧
    ¬ WellFormedJSON (bytes "\x7b\"customer_id\":1,\"a\":\"" ++ 255 :: bytes "\"\x7d") ∧
    parseJSON (bytes "\x7b\"customer_id\":1,\"a\":\"" ++ 255 :: bytes "\"\x7d") =
      some (.obj [(bytes "customer_id", .num (bytes "1")), (bytes "a", .str [255])]) ∧
    (NewApp ":8080" ()).InvoiceHandler httptest.NewRecorder
      (chargeRequest (bytes "\x7b\"customer_id\":1,\"a\":\"" ++ 255 :: bytes "\"\x7d")) 1 =
      { Code := 200, Header := [("Content-Type", "application/json")],
        Body := bytes "\x7b\"customer_id\":1,\"currency\":\x7b\x7d,\"result\":false\x7d",
        wroteHeader := true } :=
  ⟨by decide, fun h => absurd h.1 (by decide), by rfl, by decide⟩

/-- C2, amended. For a request body that is empty or does not follow the
grammar of a JSON text read on bytes, `InvoiceHandler` answers with status
400 and writes no body. -/
theorem InvoiceHandler_bad_request_of_malformed {Router : Type} (a : App Router)
    (r : http.Request) (i : Nat) (body : List Nat)
    (hbody : r.Body = .ok body) (hbad : body = [] ∨ ¬ JSONSyntax body) :
    (a.InvoiceHandler httptest.NewRecorder r i).Code = http.StatusBadRequest ∧
    (a.InvoiceHandler httptest.NewRecorder r i).Body = [] := by
  have hnone : parseJSON body = none := by
    rcases hbad with rfl | h
    · exact parseJSON_nil
    · cases hp : parseJSON body with
      | none => rfl
      | some v => exact absurd (parseJSON_sound body v hp) h
  have herr : json.Unmarshal body Invoice.zero = .error .SyntaxError := by
    unfold json.Unmarshal
    rw [hnone]
  rw [InvoiceHandler_of_Unmarshal_error a r i body _ hbody herr]
  exact ⟨rfl, rfl⟩

/-- C2, amended, at the body `this is not a valid body` of the test
`Invalid body`. -/
theorem InvoiceHandler_bad_request_of_malformed_witness :
    ¬ JSONSyntax (bytes "this is not a valid body") ∧
    ((NewApp ":8080" ()).InvoiceHandler httptest.NewRecorder
      (chargeRequest (bytes "this is not a valid body")) 0).Code = http.StatusBadRequest ∧
    ((NewApp ":8080" ()).InvoiceHandler httptest.NewRecorder
      (chargeRequest (bytes "this is not a valid body")) 0).Body = [] :=
  ⟨not_JSONSyntax_invalid_body,
    InvoiceHandler_bad_request_of_malformed (NewApp ":8080" ()) _ 0 _ rfl
      (Or.inr not_JSONSyntax_invalid_body)⟩

end Payment
